import Mathlib

/-!
cr3extract: JPEG segment scanner, box walker, EXIF locator, EXIF minimizer,
JPEG splicer, default mode and index selection.

A shallow embedding of the binary-format core of `cr3extract.c`, `cr3thumb.c`
and `exifcopy.c`, followed by the properties the specification states about it.

Conventions of the embedding:

* a byte (`unsigned char`) is a `Fin 256`; a buffer or a file's contents is a
  `List Byte`; where the read position or a read error of a `FILE *` matters,
  the file is a `Stream`: contents, read position, the offset from which the
  device fails, and the error indicator;
* `size_t` and `uint64_t` are 64 bits wide; where an addition of the source can
  exceed `2^64` (the box walker) the model reduces it modulo `2^64`;
* offsets of the JPEG scanner of `cr3extract.c` are natural numbers: they are
  bounded by the length of the file, and the sentinel `(size_t)-1` of `start`
  is `none`; the scanner of `cr3thumb.c` is embedded on its own, with `long`
  offsets as integers, every value stored in a `long` reduced by `toLong` to
  its representative in `[-2^63, 2^63)`, and the sentinel `-1`;
* `int` variables of the index selection are integers; no operation on them
  leaves the range of `int`;
* `malloc` serves every size up to `PTRDIFF_MAX` and fails beyond; `realloc`
  is assumed to succeed.  The splicer is also embedded with the outcome of
  `malloc` as a parameter (`insertExifIntoJpegWith`), for the property that
  tells which calls return 0.  Where a size that the source allocates cannot exceed
  `PTRDIFF_MAX` (the minimizer, the end of the locator) the model has no branch
  for the failure; where it can (the box walks, the splicer) it has one.
-/

namespace Cr3

/-- A byte of the source: `unsigned char`. -/
abbrev Byte := Fin 256

/-! ## JPEG segment scanner (`find_all_jpegs`) -/

/-- The record `JpegInfo` of the source: `start`, `end`, `size`. -/
structure JpegInfo where
  start : Nat
  end_ : Nat
  size : Nat
deriving DecidableEq

/-- The constant `BUFFER_SIZE` of `find_all_jpegs`. -/
def BUFFER_SIZE : Nat := 4096

/-- The two marker tests that `find_all_jpegs` applies to an adjacent byte pair
`(x, y)`; the source has this block twice, once for the pair that spans two
chunks and once inside the `for` loop.  `soi` is the offset stored in `start`
when the pair is `FF D8`, `eoi` the value stored in `.end` when the pair is
`FF D9` and a start is pending.  The accumulator is `(start, jpegs)`. -/
def markerCheck (x y : Byte) (soi eoi : Nat) (acc : Option Nat × List JpegInfo) :
    Option Nat × List JpegInfo :=
  let start := if x = 0xFF ∧ y = 0xD8 then some soi else acc.1
  match start with
  | some s =>
    if x = 0xFF ∧ y = 0xD9 then (none, acc.2 ++ [⟨s, eoi, eoi - s⟩])
    else (start, acc.2)
  | none => (none, acc.2)

/-- The loop `for (i = 0; i < bytes_read - 1; i++)` over one chunk: the second
argument is `i`, the third the part of the buffer from index `i` on. -/
def scanBuffer (file_pos : Nat) : Nat → List Byte → Option Nat × List JpegInfo →
    Option Nat × List JpegInfo
  | i, x :: y :: rest, acc =>
    scanBuffer file_pos (i + 1) (y :: rest)
      (markerCheck x y (file_pos + i) (file_pos + i + 2) acc)
  | _, _, acc => acc

/-- The local variables of `find_all_jpegs` that live across iterations of its
`while` loop. -/
structure ScanState where
  start : Option Nat
  jpegs : List JpegInfo
  last_byte : Byte
  has_last_byte : Bool
  file_pos : Nat
deriving DecidableEq

/-- The state before the first `fread`. -/
def ScanState.init : ScanState :=
  { start := none, jpegs := [], last_byte := 0, has_last_byte := false, file_pos := 0 }

/-- One iteration of the `while` loop of `find_all_jpegs` on a chunk `buffer`
of `bytes_read = buffer.length` bytes (the loop runs it for `bytes_read > 0`):
the test of the pair that spans the previous chunk and this one, the `for`
loop, and the update of `last_byte`, `has_last_byte` and `file_pos`. -/
def processChunk (st : ScanState) (buffer : List Byte) : ScanState :=
  let acc0 : Option Nat × List JpegInfo := (st.start, st.jpegs)
  let acc1 :=
    match st.has_last_byte, buffer with
    | true, b0 :: _ => markerCheck st.last_byte b0 (st.file_pos - 1) (st.file_pos + 1) acc0
    | _, _ => acc0
  let acc2 := scanBuffer st.file_pos 0 buffer acc1
  { start := acc2.1
    jpegs := acc2.2
    last_byte := if 0 < buffer.length then buffer.getLastD 0 else st.last_byte
    has_last_byte := decide (0 < buffer.length)
    file_pos := st.file_pos + buffer.length }

/-- The `while ((bytes_read = fread(...)) > 0)` loop, run on the successive
results of `fread`; an empty result ends the loop. -/
def scanLoop (st : ScanState) : List (List Byte) → ScanState
  | [] => st
  | buffer :: rest => if buffer = [] then st else scanLoop (processChunk st buffer) rest

/-- What `find_all_jpegs` hands back: its return value, `*jpegs` (`none` for
`NULL`) and `*count`. -/
structure ScanResult where
  ret : Int
  jpegs : Option (List JpegInfo)
  count : Nat
deriving DecidableEq

/-- The function `find_all_jpegs`, on a stream given by the successive results
`reads` of `fread` and the value `ferror` has after the last one. -/
def find_all_jpegs_reads (reads : List (List Byte)) (ferror : Bool) : ScanResult :=
  let st := scanLoop ScanState.init reads
  if ferror then { ret := -1, jpegs := none, count := 0 }
  else { ret := 0, jpegs := some st.jpegs, count := st.jpegs.length }

/-- The results of `fread(buffer, 1, n, file)` called until it returns 0, on a
file with contents `data` read without error: full chunks of `n` bytes and a
shorter last one.  The first argument bounds the number of calls. -/
def freadAll (n : Nat) : Nat → List Byte → List (List Byte)
  | 0, _ => []
  | fuel + 1, data =>
    if data = [] then [] else data.take n :: freadAll n fuel (data.drop n)

/-- The function `find_all_jpegs` on a file with contents `file` that is read
without error. -/
def find_all_jpegs (file : List Byte) : ScanResult :=
  find_all_jpegs_reads (freadAll BUFFER_SIZE file.length file) false

/-- The marker tests of the source applied to every adjacent byte pair of a
sequence, in increasing offset order and without chunks; `pos` is the offset of
the first byte of the list. -/
def scanPairs (pos : Nat) : List Byte → Option Nat × List JpegInfo →
    Option Nat × List JpegInfo
  | x :: y :: rest, acc => scanPairs (pos + 1) (y :: rest) (markerCheck x y pos (pos + 2) acc)
  | _, acc => acc

/-- The ranges closed by `scanPairs` over the whole sequence. -/
def scanAll (b : List Byte) : List JpegInfo := (scanPairs 0 b (none, [])).2

/-- The scanner of the specification on the byte pair `(x, y)` at offset `pos`:
`FF D8` begins a range and replaces a pending start; `FF D9` after a pending
start closes the range `[start, pos + 2)`; any other pair changes nothing. -/
def observePair (pos : Nat) (x y : Byte) (acc : Option Nat × List JpegInfo) :
    Option Nat × List JpegInfo :=
  if x = 0xFF ∧ y = 0xD8 then (some pos, acc.2)
  else if x = 0xFF ∧ y = 0xD9 then
    match acc.1 with
    | some s => (none, acc.2 ++ [⟨s, pos + 2, pos + 2 - s⟩])
    | none => acc
  else acc

/-- Single pass of the specification: every adjacent byte pair of the whole
sequence is observed once, in increasing offset order. -/
def observeAll (pos : Nat) : List Byte → Option Nat × List JpegInfo →
    Option Nat × List JpegInfo
  | x :: y :: rest, acc => observeAll (pos + 1) (y :: rest) (observePair pos x y acc)
  | _, acc => acc

/-- The ranges found by the single pass of the specification. -/
def singlePass (b : List Byte) : List JpegInfo := (observeAll 0 b (none, [])).2

/-- The state `find_all_jpegs` is in once the bytes `p` have been read, written
with the single pass: used to relate the chunked loop to `scanPairs`. -/
def stateAfter (p : List Byte) : ScanState :=
  { start := (scanPairs 0 p (none, [])).1
    jpegs := (scanPairs 0 p (none, [])).2
    last_byte := p.getLastD 0
    has_last_byte := !p.isEmpty
    file_pos := p.length }

/-- A range of `b` that starts on `FF D8`, ends on `FF D9`, lies within `b` and
has `size = end - start >= 4`. -/
def WellDelimited (b : List Byte) (r : JpegInfo) : Prop :=
  r.size = r.end_ - r.start ∧ r.start + 4 ≤ r.end_ ∧ r.end_ ≤ b.length ∧
    b[r.start]? = some 0xFF ∧ b[r.start + 1]? = some 0xD8 ∧
    b[r.end_ - 2]? = some 0xFF ∧ b[r.end_ - 1]? = some 0xD9

/-- Invariant of the single pass over `b` once the pairs at offsets below `pos`
have been examined: the closed ranges are well delimited, end at most at
`pos + 1` and follow one another; a pending start lies on an `FF D8` below `pos`
and after every closed range. -/
def ScanInv (b : List Byte) (pos : Nat) (acc : Option Nat × List JpegInfo) : Prop :=
  (∀ r ∈ acc.2, WellDelimited b r ∧ r.end_ ≤ pos + 1) ∧
    acc.2.Pairwise (fun r r' => r.end_ ≤ r'.start) ∧
    (∀ s, acc.1 = some s →
      s < pos ∧ b[s]? = some 0xFF ∧ b[s + 1]? = some 0xD8 ∧ ∀ r ∈ acc.2, r.end_ ≤ s)

/-- A well-formed JPEG segment of the specification: `FF D8`, a body, `FF D9`. -/
def segment (body : List Byte) : List Byte := [0xFF, 0xD8] ++ body ++ [0xFF, 0xD9]

/-- The byte sequence `g0 ++ s1 ++ g1 ++ ... ++ sN ++ gN` of the specification;
`segs` lists the pairs `(body_i, g_i)`. -/
def layout (g0 : List Byte) (segs : List (List Byte × List Byte)) : List Byte :=
  g0 ++ (segs.map fun s => segment s.1 ++ s.2).flatten

/-- The extents of the segments of a layout whose first segment starts at
offset `off`: each starts on its `FF D8` and ends one past its `FF D9`. -/
def extents (off : Nat) : List (List Byte × List Byte) → List JpegInfo
  | [] => []
  | s :: rest =>
    ⟨off, off + s.1.length + 4, s.1.length + 4⟩ ::
      extents (off + s.1.length + 4 + s.2.length) rest

/-! ## Box walker (`findBox_streaming`) -/

/-- The value `2^64` at which `size_t` and `uint64_t` arithmetic wraps. -/
def SIZE_WRAP : Nat := 2 ^ 64

/-- The largest offset `fseek` accepts (its argument is a `long`) and the
largest size `malloc` serves: `2^63 - 1`. -/
def PTRDIFF_MAX : Nat := 2 ^ 63 - 1

/-- The expression `(h[0] << 24) | (h[1] << 16) | (h[2] << 8) | h[3]` of the
source, assigned to a `uint32_t`. -/
def be32 (h0 h1 h2 h3 : Byte) : Nat :=
  (h0.val <<< 24) ||| (h1.val <<< 16) ||| (h2.val <<< 8) ||| h3.val

/-- The expression `((uint64_t)h[8] << 56) | ... | (uint64_t)h[15]` of the
source. -/
def be64 (h0 h1 h2 h3 h4 h5 h6 h7 : Byte) : Nat :=
  (h0.val <<< 56) ||| (h1.val <<< 48) ||| (h2.val <<< 40) ||| (h3.val <<< 32) |||
    (h4.val <<< 24) ||| (h5.val <<< 16) ||| (h6.val <<< 8) ||| h7.val

/-- The string compared by `strcmp`: the bytes before the first NUL. -/
def cstr (s : List Byte) : List Byte := s.takeWhile (fun c => c ≠ 0)

/-- The test `strcmp(boxType, target) == 0`; `boxType` is the four tag bytes,
which the source terminates with a NUL. -/
def strcmp_eq (boxType target : List Byte) : Bool := cstr boxType == cstr target

/-- The ways a box walk leaves its loop, in `findBox_streaming` and in the
in-memory walk of `extractCr3Exif_streaming`.  Only `found` yields a payload
(`findBox_streaming` returns 1 and sets `*result`); after every other exit
`findBox_streaming` returns 0. -/
inductive WalkExit where
  /-- The payload of the matching box has been copied. -/
  | found (payload : List Byte)
  /-- The loop condition `pos + 8 <= end` fails. -/
  | endOfRange
  /-- The header of a box cannot be read in full (`break`). -/
  | shortRead
  /-- The branch `fseek failed at pos`. -/
  | seekFailed (pos : Nat)
  /-- The test `boxSize < headerSize` holds (`Invalid box size at position`). -/
  | invalidSize (pos : Nat)
  /-- The end of the box lies beyond the range (`extends beyond file bounds`). -/
  | beyondBounds (pos : Nat)
  /-- The branch `Memory allocation failed`. -/
  | allocFailed
  /-- The `fseek` or `fread` of the payload fails. -/
  | payloadReadFailed
deriving DecidableEq

/-- The value returned by `findBox_streaming` on an exit. -/
def WalkExit.ret : WalkExit → Nat
  | .found _ => 1
  | _ => 0

/-- The buffer `*result` set by `findBox_streaming` on an exit, if any. -/
def WalkExit.result : WalkExit → Option (List Byte)
  | .found payload => some payload
  | _ => none

/-- Outcome of one iteration of a box walk: go on at `pos`, or leave. -/
inductive WalkStep where
  | next (pos : Nat)
  | exit (e : WalkExit)
deriving DecidableEq

/-- The body of the `while` loop of `findBox_streaming` at position `pos`, on a
file with contents `f`.  `fseek` to `pos` succeeds when `pos` fits a `long`;
`fread(header, 1, 8, f)` delivers 8 bytes when the file has them. -/
def findBoxStep (f : List Byte) (pos end_ : Nat) (target : List Byte) : WalkStep :=
  if PTRDIFF_MAX < pos then .exit (.seekFailed pos)
  else if f.length < pos + 8 then .exit .shortRead
  else
    let header := (f.drop pos).take 8
    let size32 := be32 (header.getD 0 0) (header.getD 1 0) (header.getD 2 0) (header.getD 3 0)
    let boxType := (header.drop 4).take 4
    if size32 = 1 ∧ f.length < pos + 16 then .exit .shortRead
    else
      let ext := (f.drop (pos + 8)).take 8
      let headerSize := if size32 = 1 then 16 else 8
      let boxSize :=
        if size32 = 1 then
          be64 (ext.getD 0 0) (ext.getD 1 0) (ext.getD 2 0) (ext.getD 3 0)
            (ext.getD 4 0) (ext.getD 5 0) (ext.getD 6 0) (ext.getD 7 0)
        else size32
      if boxSize < headerSize then .exit (.invalidSize pos)
      else
        let boxEnd := (pos + boxSize) % SIZE_WRAP
        if boxEnd > end_ then .exit (.beyondBounds pos)
        else if strcmp_eq boxType target then
          let contentSize := boxSize - headerSize
          if PTRDIFF_MAX < contentSize then .exit .allocFailed
          else if PTRDIFF_MAX < pos + headerSize then .exit .payloadReadFailed
          else if f.length < pos + headerSize + contentSize then .exit .payloadReadFailed
          else .exit (.found ((f.drop (pos + headerSize)).take contentSize))
        else .next boxEnd

/-- The loop `while (pos + 8 <= end)` of `findBox_streaming`, run for at most
`fuel` iterations; `none` when the iterations are used up. -/
def findBoxLoop (f : List Byte) (end_ : Nat) (target : List Byte) : Nat → Nat → Option WalkExit
  | 0, _ => none
  | fuel + 1, pos =>
    if (pos + 8) % SIZE_WRAP ≤ end_ then
      match findBoxStep f pos end_ target with
      | .next boxEnd => findBoxLoop f end_ target fuel boxEnd
      | .exit e => some e
    else some .endOfRange

/-- The function `findBox_streaming(f, start, end, target, &result, &resultSize)`,
with a bound `fuel` on the iterations of its loop. -/
def findBox_streaming (fuel : Nat) (f : List Byte) (start end_ : Nat) (target : List Byte) :
    Option WalkExit :=
  findBoxLoop f end_ target fuel start

/-! ## EXIF locator (`extractCr3Exif_streaming`) -/

/-- The string literal `"moov"`. -/
def tagMoov : List Byte := [0x6D, 0x6F, 0x6F, 0x76]

/-- The string literal `"uuid"`. -/
def tagUuid : List Byte := [0x75, 0x75, 0x69, 0x64]

/-- The array `exifHeader`: `"Exif"` and two NUL bytes. -/
def exifHeader : List Byte := [0x45, 0x78, 0x69, 0x66, 0, 0]

/-- The function `read16le(data, offset, dataSize)`. -/
def read16le (data : List Byte) (offset dataSize : Nat) : Nat :=
  if (offset + 1) % SIZE_WRAP ≥ dataSize then 0
  else ((data.getD offset 0).val ||| ((data.getD (offset + 1) 0).val <<< 8)) % 2 ^ 16

/-- The body of the loop `while (pos + 8 <= moovSize)` of
`extractCr3Exif_streaming`, which walks the boxes of the `moov` payload in
memory; every failed test is a `break`.  When `moovBox` has at most
`PTRDIFF_MAX` bytes, a box that passes the tests and `malloc` lies within
`moovBox`, so that `memcpy` reads inside the buffer
(`uuidWalkStep_eq_findBoxStep`). -/
def uuidWalkStep (moovBox : List Byte) (pos : Nat) : WalkStep :=
  let moovSize := moovBox.length
  let size32 := be32 (moovBox.getD pos 0) (moovBox.getD (pos + 1) 0) (moovBox.getD (pos + 2) 0)
    (moovBox.getD (pos + 3) 0)
  let type := (moovBox.drop (pos + 4)).take 4
  if size32 = 1 ∧ pos + 16 > moovSize then .exit .shortRead
  else
    let headerSize := if size32 = 1 then 16 else 8
    let boxSize :=
      if size32 = 1 then
        be64 (moovBox.getD (pos + 8) 0) (moovBox.getD (pos + 9) 0) (moovBox.getD (pos + 10) 0)
          (moovBox.getD (pos + 11) 0) (moovBox.getD (pos + 12) 0) (moovBox.getD (pos + 13) 0)
          (moovBox.getD (pos + 14) 0) (moovBox.getD (pos + 15) 0)
      else size32
    if boxSize < headerSize then .exit (.invalidSize pos)
    else if (pos + boxSize) % SIZE_WRAP > moovSize then .exit (.beyondBounds pos)
    else if strcmp_eq type tagUuid then
      let uuidSize := boxSize - headerSize
      if PTRDIFF_MAX < uuidSize then .exit .allocFailed
      else .exit (.found ((moovBox.drop (pos + headerSize)).take uuidSize))
    else .next ((pos + boxSize) % SIZE_WRAP)

/-- The loop `while (pos + 8 <= moovSize)` of `extractCr3Exif_streaming`, run
for at most `fuel` iterations; `none` when the iterations are used up. -/
def uuidWalkLoop (moovBox : List Byte) : Nat → Nat → Option WalkExit
  | 0, _ => none
  | fuel + 1, pos =>
    if (pos + 8) % SIZE_WRAP ≤ moovBox.length then
      match uuidWalkStep moovBox pos with
      | .next p => uuidWalkLoop moovBox fuel p
      | .exit e => some e
    else some .endOfRange

/-- Outcome of the scan of the `uuid` payload for the TIFF signature. -/
inductive TiffScan where
  /-- The loop is left by `found = 1` at offset `pos`. -/
  | found (pos : Nat)
  /-- The loop ends with `found = 0`. -/
  | notFound
  /-- The comparison `memcmp(uuidBox + pos, "II", 2)` reads past the end of the
  buffer `uuidBox`. -/
  | outOfBounds (pos : Nat)
deriving DecidableEq

/-- The loop `while (pos < uuidSize - 4)` of `extractCr3Exif_streaming`; the
bound `uuidSize - 4` is computed in `size_t`.  The last argument is the part of
`uuidBox` from offset `pos` on. -/
def tiffScanFrom (uuidBox : List Byte) (uuidSize : Nat) : Nat → List Byte → TiffScan
  | pos, a :: b :: tl =>
    if pos < (uuidSize + SIZE_WRAP - 4) % SIZE_WRAP then
      if a = 0x49 ∧ b = 0x49 ∧ read16le uuidBox (pos + 2) uuidSize = 42 then .found pos
      else tiffScanFrom uuidBox uuidSize (pos + 1) (b :: tl)
    else .notFound
  | pos, _ =>
    if pos < (uuidSize + SIZE_WRAP - 4) % SIZE_WRAP then .outOfBounds pos else .notFound

/-- The scan for the TIFF signature from offset 0. -/
def tiffScan (uuidBox : List Byte) : TiffScan :=
  tiffScanFrom uuidBox uuidBox.length 0 uuidBox

/-- What `extractCr3Exif_streaming` does: only `found` returns 1 and sets
`*exifSegment`; every other outcome but the last returns 0. -/
inductive ExifResult where
  /-- `return 1` with the EXIF segment. -/
  | found (exifSegment : List Byte)
  /-- The branch `No 'moov' box found in CR3 file`. -/
  | noMoov
  /-- The branch `No 'uuid' box found in 'moov' box`. -/
  | noUuid
  /-- The branch `No valid TIFF header found in 'uuid' box`. -/
  | noTiff
  /-- The branch `Memory allocation failed for uuidBox`. -/
  | allocFailed
  /-- The scan reads past the end of the buffer `uuidBox` at offset `pos`. -/
  | outOfBounds (pos : Nat)
deriving DecidableEq

/-- The value returned by `extractCr3Exif_streaming`; there is none when the
scan has left the buffer. -/
def ExifResult.ret : ExifResult → Option Nat
  | .found _ => some 1
  | .outOfBounds _ => none
  | _ => some 0

/-- The buffer `*exifSegment` set by `extractCr3Exif_streaming`, if any. -/
def ExifResult.exifSegment : ExifResult → Option (List Byte)
  | .found exifSegment => some exifSegment
  | _ => none

/-- The function `extractCr3Exif_streaming(f, fileSize, &exifSegment, &exifSize,
verbose)` of cr3extract.c, with a bound `fuel` on the iterations of each of its
two box walks; `malloc(0)` returns a buffer.  The two allocations after the
scan, of `uuidSize - pos` and of `6 + uuidSize - pos` bytes, are of sizes that
`malloc` serves, since `uuidSize + 8` is at most the size of `moovBox`. -/
def extractCr3Exif_streaming (fuel : Nat) (f : List Byte) (fileSize : Nat) : Option ExifResult :=
  match findBox_streaming fuel f 0 fileSize tagMoov with
  | none => none
  | some (.found moovBox) =>
    match uuidWalkLoop moovBox fuel 0 with
    | none => none
    | some (.found uuidBox) =>
      match tiffScan uuidBox with
      | .found pos => some (.found (exifHeader ++ uuidBox.drop pos))
      | .notFound => some .noTiff
      | .outOfBounds pos => some (.outOfBounds pos)
    | some .allocFailed => some .allocFailed
    | some _ => some .noUuid
  | some _ => some .noMoov

/-! ## EXIF minimizer (`minimizeExifData`) -/

/-- The function `read32le(data, offset, dataSize)`. -/
def read32le (data : List Byte) (offset dataSize : Nat) : Nat :=
  if (offset + 3) % SIZE_WRAP ≥ dataSize then 0
  else ((data.getD offset 0).val ||| ((data.getD (offset + 1) 0).val <<< 8) |||
    ((data.getD (offset + 2) 0).val <<< 16) ||| ((data.getD (offset + 3) 0).val <<< 24)) % 2 ^ 32

/-- The array `allowed` of `minimizeExifData`: Make, Model, DateTime,
ExposureTime, FNumber, ISO speed, FocalLength, Orientation. -/
def allowed : List Nat := [0x010F, 0x0110, 0x0132, 0x829A, 0x829D, 0x8827, 0x920A, 0x0112]

/-- The loop `for (i = 0; i < count; i++)` of `minimizeExifData`.  The first
argument is the number `count - i` of iterations left, the second is `i`, the
state is `(filteredEntries, newEntryCount)`: the bytes written to
`filteredEntries` so far, and the counter; `memcpy` to
`filteredEntries + newEntryCount * 12` appends to them.  The inner loop over
`allowed` is the membership test. -/
def filterEntries (exif : List Byte) (ifd0EntriesStart : Nat) :
    Nat → Nat → List Byte × Nat → List Byte × Nat
  | 0, _, st => st
  | left + 1, i, st =>
    let entryOffset := ifd0EntriesStart + i * 12
    if entryOffset + 12 > exif.length then st
    else
      let tag := read16le exif entryOffset exif.length
      if allowed.contains tag then
        filterEntries exif ifd0EntriesStart left (i + 1)
          (st.1 ++ (exif.drop entryOffset).take 12, st.2 + 1)
      else filterEntries exif ifd0EntriesStart left (i + 1) st

/-- The function `minimizeExifData(&exifSegment, &exifSize)`: `none` is
`return 0`, which leaves the segment as it is, `some` is `return 1` with the
new segment.  The sizes it allocates, `count * 12`, `2 + newEntryCount * 12 + 4`
and `ifd0Offset + newIFD0Size`, are below `2^33`, so that its three `malloc`s
succeed. -/
def minimizeExifData (exif : List Byte) : Option (List Byte) :=
  if exif.length < 10 ∨ exif.take 6 ≠ exifHeader then none
  else
    let tiffStart := 6
    if tiffStart + 8 > exif.length then none
    else
      let ifd0RelOffset := read32le exif (tiffStart + 4) exif.length
      let ifd0Offset := tiffStart + ifd0RelOffset
      if ifd0Offset + 2 > exif.length then none
      else
        let count := read16le exif ifd0Offset exif.length
        let ifd0EntriesStart := ifd0Offset + 2
        let ifd0EntriesSize := count * 12
        if ifd0EntriesStart + ifd0EntriesSize + 4 > exif.length then none
        else
          let filtered := filterEntries exif ifd0EntriesStart count 0 ([], 0)
          let newEntryCount := filtered.2
          let newIFD0 : List Byte :=
            [Fin.ofNat (newEntryCount &&& 0xFF), Fin.ofNat ((newEntryCount >>> 8) &&& 0xFF)] ++
              filtered.1.take (newEntryCount * 12) ++ [0, 0, 0, 0]
          some (exif.take ifd0Offset ++ newIFD0)

/-! ## JPEG splicer (`insertExifIntoJpeg`) -/

/-- What `insertExifIntoJpeg` does. -/
inductive SpliceResult where
  /-- The first test fails: `return 0` before `*outputSize` or `*outputData`
  is assigned. -/
  | rejected
  /-- The allocation of the output fails: `return 0` after `*outputSize` was
  assigned and `*outputData` was set to `NULL`. -/
  | allocFailed (outputSize : Nat)
  /-- The statement `return 1`, with the buffer `*outputData` and `*outputSize`. -/
  | ok (outputData : List Byte) (outputSize : Nat)
deriving DecidableEq

/-- The value returned by `insertExifIntoJpeg`. -/
def SpliceResult.ret : SpliceResult → Nat
  | .rejected => 0
  | .allocFailed _ => 0
  | .ok _ _ => 1

/-- The buffer that `*outputData` points to, if any. -/
def SpliceResult.outputData : SpliceResult → Option (List Byte)
  | .rejected => none
  | .allocFailed _ => none
  | .ok d _ => some d

/-- The value written to `*outputSize`, if any. -/
def SpliceResult.outputSize : SpliceResult → Option Nat
  | .rejected => none
  | .allocFailed n => some n
  | .ok _ n => some n

/-- The function `insertExifIntoJpeg` of cr3extract.c; `segLength` is a
`uint16_t`, `*outputSize` a `size_t`. -/
def insertExifIntoJpeg (jpegData exifSegment : List Byte) : SpliceResult :=
  if jpegData.length < 2 ∨ jpegData.getD 0 0 ≠ 0xFF ∨ jpegData.getD 1 0 ≠ 0xD8 then
    .rejected
  else
    let outputSize := (2 + 4 + exifSegment.length + (jpegData.length - 2)) % SIZE_WRAP
    if outputSize > PTRDIFF_MAX then .allocFailed outputSize
    else
      let segLength := (exifSegment.length + 2) % 2 ^ 16
      let segBytes : List Byte :=
        [0xFF, 0xE1, Fin.ofNat ((segLength >>> 8) &&& 0xFF), Fin.ofNat (segLength &&& 0xFF)]
      .ok (jpegData.take 2 ++ segBytes ++ exifSegment ++
          (jpegData.drop 2).take (jpegData.length - 2))
        outputSize

/-- The function `ensureExifHeader` of exifcopy.c: the segment it leaves in
`*exifSegment`, which is the old one when `malloc` fails. -/
def Exifcopy.ensureExifHeader (exifSegment : List Byte) : List Byte :=
  if exifSegment.length < 6 ∨ exifSegment.take 6 ≠ exifHeader then
    let newSize := (6 + exifSegment.length) % SIZE_WRAP
    if newSize > PTRDIFF_MAX then exifSegment
    else exifHeader ++ exifSegment
  else exifSegment

/-- The function `insertExifIntoJpeg` of exifcopy.c, which first calls
`ensureExifHeader`. -/
def Exifcopy.insertExifIntoJpeg (jpegData exifSegment : List Byte) : SpliceResult :=
  if jpegData.length < 2 ∨ jpegData.getD 0 0 ≠ 0xFF ∨ jpegData.getD 1 0 ≠ 0xD8 then
    .rejected
  else
    let exifSegment := Exifcopy.ensureExifHeader exifSegment
    let outputSize := (2 + 4 + exifSegment.length + (jpegData.length - 2)) % SIZE_WRAP
    if outputSize > PTRDIFF_MAX then .allocFailed outputSize
    else
      let segLength := (exifSegment.length + 2) % 2 ^ 16
      let segBytes : List Byte :=
        [0xFF, 0xE1, Fin.ofNat ((segLength >>> 8) &&& 0xFF), Fin.ofNat (segLength &&& 0xFF)]
      .ok (jpegData.take 2 ++ segBytes ++ exifSegment ++
          (jpegData.drop 2).take (jpegData.length - 2))
        outputSize

/-! ### The splicer with a given allocator -/

/-- The function `insertExifIntoJpeg` of cr3extract.c when the outcome of its
call of `malloc` is given: `mallocOk n` tells whether `malloc(n)` returns a
buffer.  The test `if (!*outputData)` is the test `mallocOk outputSize = false`;
the rest is the text of `insertExifIntoJpeg` above, which is the case of the
allocator that serves the sizes up to `PTRDIFF_MAX`. -/
def insertExifIntoJpegWith (mallocOk : Nat → Bool) (jpegData exifSegment : List Byte) :
    SpliceResult :=
  if jpegData.length < 2 ∨ jpegData.getD 0 0 ≠ 0xFF ∨ jpegData.getD 1 0 ≠ 0xD8 then
    .rejected
  else
    let outputSize := (2 + 4 + exifSegment.length + (jpegData.length - 2)) % SIZE_WRAP
    if mallocOk outputSize = false then .allocFailed outputSize
    else
      let segLength := (exifSegment.length + 2) % 2 ^ 16
      let segBytes : List Byte :=
        [0xFF, 0xE1, Fin.ofNat ((segLength >>> 8) &&& 0xFF), Fin.ofNat (segLength &&& 0xFF)]
      .ok (jpegData.take 2 ++ segBytes ++ exifSegment ++
          (jpegData.drop 2).take (jpegData.length - 2))
        outputSize

/-- The function `ensureExifHeader` of exifcopy.c when the outcome of its call
of `malloc` is given; the segment stays as it is when `newSegment` is `NULL`. -/
def Exifcopy.ensureExifHeaderWith (mallocOk : Nat → Bool) (exifSegment : List Byte) :
    List Byte :=
  if exifSegment.length < 6 ∨ exifSegment.take 6 ≠ exifHeader then
    let newSize := (6 + exifSegment.length) % SIZE_WRAP
    if mallocOk newSize = false then exifSegment
    else exifHeader ++ exifSegment
  else exifSegment

/-- The function `insertExifIntoJpeg` of exifcopy.c when the outcomes of the
two calls of `malloc` are given: `mallocHeader` for the one of
`ensureExifHeader`, `mallocOk` for the one of the output. -/
def Exifcopy.insertExifIntoJpegWith (mallocHeader mallocOk : Nat → Bool)
    (jpegData exifSegment : List Byte) : SpliceResult :=
  if jpegData.length < 2 ∨ jpegData.getD 0 0 ≠ 0xFF ∨ jpegData.getD 1 0 ≠ 0xD8 then
    .rejected
  else
    let exifSegment := Exifcopy.ensureExifHeaderWith mallocHeader exifSegment
    let outputSize := (2 + 4 + exifSegment.length + (jpegData.length - 2)) % SIZE_WRAP
    if mallocOk outputSize = false then .allocFailed outputSize
    else
      let segLength := (exifSegment.length + 2) % 2 ^ 16
      let segBytes : List Byte :=
        [0xFF, 0xE1, Fin.ofNat ((segLength >>> 8) &&& 0xFF), Fin.ofNat (segLength &&& 0xFF)]
      .ok (jpegData.take 2 ++ segBytes ++ exifSegment ++
          (jpegData.drop 2).take (jpegData.length - 2))
        outputSize

/-- The allocator of the embedding: it serves the sizes up to `PTRDIFF_MAX`. -/
def mallocUpToMax (n : Nat) : Bool := decide (n ≤ PTRDIFF_MAX)

/-- An allocator that has no memory left. -/
def mallocNone (_ : Nat) : Bool := false

/-! ## The scanner on a stream with a read position -/

/-- A `FILE *` open for reading: the contents of the file, the read position,
the offset from which the device fails to deliver bytes (`none` when every
byte can be read), and the error indicator that `ferror` tests. -/
structure Stream where
  data : List Byte
  pos : Nat
  failAt : Option Nat
  error : Bool
deriving DecidableEq

/-- The bytes of the file that the device delivers. -/
def Stream.readable (s : Stream) : List Byte :=
  match s.failAt with
  | none => s.data
  | some k => s.data.take k

/-- The call `rewind(file)`: the position is 0 and the error indicator is
cleared. -/
def Stream.rewind (s : Stream) : Stream := { s with pos := 0, error := false }

/-- The call `fread(buffer, 1, n, file)`: the bytes delivered, and the stream
after the call.  A read that is cut short by the device, not by the end of the
file, sets the error indicator. -/
def Stream.fread (n : Nat) (s : Stream) : List Byte × Stream :=
  let buffer := (s.readable.drop s.pos).take n
  (buffer,
    { s with
      pos := s.pos + buffer.length
      error := s.error ||
        (decide (buffer.length < n) && decide (s.readable.length < s.data.length)) })

/-- The `while ((bytes_read = fread(...)) > 0)` loop of `find_all_jpegs` on a
stream, for at most `fuel` calls of `fread`. -/
def scanStream : Nat → ScanState → Stream → ScanState × Stream
  | 0, st, s => (st, s)
  | fuel + 1, st, s =>
    let r := s.fread BUFFER_SIZE
    if r.1 = [] then (st, r.2) else scanStream fuel (processChunk st r.1) r.2

/-- The function `find_all_jpegs(file, &jpegs, &count)` on a stream: what it
hands back, and the stream after the call.  Every call of `fread` but the last
delivers at least one byte, so that `length + 1` calls end the loop. -/
def find_all_jpegs_stream (file : Stream) : ScanResult × Stream :=
  let s0 := file.rewind
  let r := scanStream (file.data.length + 1) ScanState.init s0
  if r.2.error then ({ ret := -1, jpegs := none, count := 0 }, r.2)
  else ({ ret := 0, jpegs := some r.1.jpegs, count := r.1.jpegs.length }, r.2.rewind)

/-! ## Default mode (`extract_largest_jpeg`) -/

/-- The constant `STREAM_BUFFER_SIZE`. -/
def STREAM_BUFFER_SIZE : Nat := 4096

/-- The loop `for (int i = 1; i < jpeg_count; i++)` of `extract_largest_jpeg`.
The first argument is the number `jpeg_count - i` of iterations left, the
second is `i`, the third is `largest_idx`. -/
def largestLoop (jpegs : List JpegInfo) : Nat → Nat → Nat → Nat
  | 0, _, largest_idx => largest_idx
  | left + 1, i, largest_idx =>
    if (jpegs.getD i ⟨0, 0, 0⟩).size > (jpegs.getD largest_idx ⟨0, 0, 0⟩).size then
      largestLoop jpegs left (i + 1) i
    else largestLoop jpegs left (i + 1) largest_idx

/-- The value of `largest_idx` after the loop, for `jpeg_count = jpegs.length`. -/
def largest_idx (jpegs : List JpegInfo) : Nat := largestLoop jpegs (jpegs.length - 1) 1 0

/-- What `extract_largest_jpeg` hands back: its return value and the bytes it
has written to the output stream (`none` when it has opened none). -/
structure ExtractResult where
  ret : Int
  output : Option (List Byte)
deriving DecidableEq

/-- The loop `while (remaining > 0)` of `extract_largest_jpeg`, for at most
`fuel` iterations, on a file with contents `file` read from `pos`; `out` is
what has been written so far, and `fwrite` writes all it is given.  The result
is the return value and the bytes written. -/
def streamCopy (file : List Byte) : Nat → Nat → Nat → List Byte → Option ExtractResult
  | 0, _, remaining, out => if remaining > 0 then none else some ⟨0, some out⟩
  | fuel + 1, pos, remaining, out =>
    if remaining > 0 then
      let to_read := if remaining < STREAM_BUFFER_SIZE then remaining else STREAM_BUFFER_SIZE
      let buffer := (file.drop pos).take to_read
      let bytes_read := buffer.length
      if bytes_read = 0 then some ⟨-1, some out⟩
      else streamCopy file fuel (pos + bytes_read) (remaining - bytes_read) (out ++ buffer)
    else some ⟨0, some out⟩

/-- The part of `extract_largest_jpeg` that follows the scan, on the array
`jpegs` of `jpeg_count = jpegs.length` ranges: the choice of `largest_idx`, the
`fseek` to its start, which fails beyond `PTRDIFF_MAX`, and the copy.  The
output stream is opened without error. -/
def extractLargestFrom (fuel : Nat) (file : List Byte) (jpegs : List JpegInfo) :
    Option ExtractResult :=
  if jpegs.length = 0 then some ⟨-1, none⟩
  else
    let largest := jpegs.getD (largest_idx jpegs) ⟨0, 0, 0⟩
    let jpeg_start_offset := largest.start
    let jpeg_size := largest.size
    if PTRDIFF_MAX < jpeg_start_offset then some ⟨-1, none⟩
    else streamCopy file fuel jpeg_start_offset jpeg_size []

/-- The function `extract_largest_jpeg(cr3_path, output_path, to_stdout,
verbose)` of cr3extract.c and cr3thumb.c on a file with contents `file` that is
opened and read without error, with a bound `fuel` on the iterations of the
copy loop. -/
def extract_largest_jpeg (fuel : Nat) (file : List Byte) : Option ExtractResult :=
  let r := find_all_jpegs file
  if r.ret ≠ 0 then some ⟨-1, none⟩
  else extractLargestFrom fuel file (r.jpegs.getD [])

/-! ## The call of `minimizeExifData` on the caller's variables -/

/-- The two variables of the caller that `minimizeExifData` is given by
address: the buffer `*exifSegment` and its size `*exifSize`. -/
structure ExifSegment where
  data : List Byte
  size : Nat
deriving DecidableEq

/-- The call `minimizeExifData(&exifSegment, &exifSize)` on a buffer of
`*exifSize` bytes: the value returned, and the two variables after the call.
The source assigns `*exifSegment` and `*exifSize` only in the two statements
before `return 1`. -/
def minimizeExifData_call (s : ExifSegment) : Nat × ExifSegment :=
  match minimizeExifData s.data with
  | none => (0, s)
  | some newExif => (1, { data := newExif, size := newExif.length })

/-! ## Index selection (`extract_specific_jpeg`, `extract_all_jpegs`) -/

/-- The index `idx` that `extract_specific_jpeg` computes from `jpeg_index`
and the `jpeg_count = jpegs.length` ranges of the scan; `none` is the
`return -1` of a request that is not available.  The variables are `int`;
`jpeg_count` is the count of the scan and at least 4 where 1 is subtracted
from it, and `jpeg_index` is at least 1 where 1 is subtracted from it, so no
operation leaves the range of `int`. -/
def specificIndex (jpegs : List JpegInfo) (jpeg_index : Int) : Option Int :=
  let jpeg_count : Int := jpegs.length
  if jpeg_count ≥ 4 ∧ (jpegs.getD 0 ⟨0, 0, 0⟩).size < 8 * 1024 then
    if jpeg_index < 1 ∨ jpeg_index > jpeg_count - 1 then none
    else some jpeg_index
  else
    if jpeg_index < 1 ∨ jpeg_index > jpeg_count then none
    else some (jpeg_index - 1)

/-- The values that `i` takes in a loop `for (; i < ...; i++)` with the given
number of iterations left. -/
def forIndices : Nat → Int → List Int
  | 0, _ => []
  | left + 1, i => i :: forIndices left (i + 1)

/-- The variable `starting_index` of `extract_all_jpegs`. -/
def starting_index (jpegs : List JpegInfo) : Int :=
  let jpeg_count : Int := jpegs.length
  if jpeg_count ≥ 4 ∧ (jpegs.getD 0 ⟨0, 0, 0⟩).size < 8 * 1024 then 1 else 0

/-- The variable `max_extract` of `extract_all_jpegs`. -/
def max_extract (jpegs : List JpegInfo) : Int :=
  let jpeg_count : Int := jpegs.length
  if jpeg_count - starting_index jpegs < 3 then jpeg_count - starting_index jpegs else 3

/-- The indices `i` of the ranges `jpegs[i]` that `extract_all_jpegs` reads and
writes, in order, when no seek, read, allocation or write fails: the loop
`for (i = starting_index; i < starting_index + max_extract; i++)`, which is not
reached when `jpeg_count` is 0. -/
def extractAllIndices (jpegs : List JpegInfo) : List Int :=
  if jpegs.length = 0 then []
  else forIndices (max_extract jpegs).toNat (starting_index jpegs)

/-! ## The scanner of cr3thumb.c -/

/-- The conversion of an integer value to `long`: its representative modulo
`2^64` in `[-2^63, 2^63)`. -/
def toLong (z : Int) : Int := (z + 2 ^ 63) % 2 ^ 64 - 2 ^ 63

/-- The record `JpegInfo` of cr3thumb.c, whose fields are `long`. -/
structure Cr3thumb.JpegInfo where
  start : Int
  end_ : Int
  size : Int
deriving DecidableEq

/-- The two marker tests of `find_all_jpegs` of cr3thumb.c on the byte pair
`(x, y)`; `start` is a `long` with the sentinel `-1`. -/
def Cr3thumb.markerCheck (x y : Byte) (soi eoi : Int) (acc : Int × List Cr3thumb.JpegInfo) :
    Int × List Cr3thumb.JpegInfo :=
  let start := if x = 0xFF ∧ y = 0xD8 then soi else acc.1
  if start ≠ -1 ∧ x = 0xFF ∧ y = 0xD9 then
    (-1, acc.2 ++ [⟨start, eoi, toLong (eoi - start)⟩])
  else (start, acc.2)

/-- The loop `for (i = 0; i < bytes_read - 1; i++)` of cr3thumb.c; `file_pos`
is a `long` and `i` a `size_t`. -/
def Cr3thumb.scanBuffer (file_pos : Int) : Nat → List Byte → Int × List Cr3thumb.JpegInfo →
    Int × List Cr3thumb.JpegInfo
  | i, x :: y :: rest, acc =>
    Cr3thumb.scanBuffer file_pos (i + 1) (y :: rest)
      (Cr3thumb.markerCheck x y (toLong (file_pos + i)) (toLong (file_pos + i + 2)) acc)
  | _, _, acc => acc

/-- The local variables of `find_all_jpegs` of cr3thumb.c that live across
iterations of its `while` loop. -/
structure Cr3thumb.ScanState where
  start : Int
  jpegs : List Cr3thumb.JpegInfo
  last_byte : Byte
  has_last_byte : Bool
  file_pos : Int
deriving DecidableEq

/-- The state before the first `fread`. -/
def Cr3thumb.ScanState.init : Cr3thumb.ScanState :=
  { start := -1, jpegs := [], last_byte := 0, has_last_byte := false, file_pos := 0 }

/-- One iteration of the `while` loop of cr3thumb.c on a chunk `buffer`. -/
def Cr3thumb.processChunk (st : Cr3thumb.ScanState) (buffer : List Byte) :
    Cr3thumb.ScanState :=
  let acc0 : Int × List Cr3thumb.JpegInfo := (st.start, st.jpegs)
  let acc1 :=
    match st.has_last_byte, buffer with
    | true, b0 :: _ =>
      Cr3thumb.markerCheck st.last_byte b0 (toLong (st.file_pos - 1)) (toLong (st.file_pos + 1))
        acc0
    | _, _ => acc0
  let acc2 := Cr3thumb.scanBuffer st.file_pos 0 buffer acc1
  { start := acc2.1
    jpegs := acc2.2
    last_byte := if 0 < buffer.length then buffer.getLastD 0 else st.last_byte
    has_last_byte := decide (0 < buffer.length)
    file_pos := toLong (st.file_pos + buffer.length) }

/-- The `while` loop of cr3thumb.c on the successive results of `fread`. -/
def Cr3thumb.scanLoop (st : Cr3thumb.ScanState) : List (List Byte) → Cr3thumb.ScanState
  | [] => st
  | buffer :: rest =>
    if buffer = [] then st else Cr3thumb.scanLoop (Cr3thumb.processChunk st buffer) rest

/-- What `find_all_jpegs` of cr3thumb.c hands back. -/
structure Cr3thumb.ScanResult where
  ret : Int
  jpegs : Option (List Cr3thumb.JpegInfo)
  count : Nat
deriving DecidableEq

/-- The function `find_all_jpegs` of cr3thumb.c on the successive results
`reads` of `fread` and the value `ferror` has after the last one. -/
def Cr3thumb.find_all_jpegs_reads (reads : List (List Byte)) (ferror : Bool) :
    Cr3thumb.ScanResult :=
  let st := Cr3thumb.scanLoop Cr3thumb.ScanState.init reads
  if ferror then { ret := -1, jpegs := none, count := 0 }
  else { ret := 0, jpegs := some st.jpegs, count := st.jpegs.length }

/-- The function `find_all_jpegs` of cr3thumb.c on a file with contents `file`
that is read without error. -/
def Cr3thumb.find_all_jpegs (file : List Byte) : Cr3thumb.ScanResult :=
  Cr3thumb.find_all_jpegs_reads (freadAll BUFFER_SIZE file.length file) false

/-! ## The bytes that the little-endian readers access -/

/-- The indices of `data` that `read16le(data, offset, dataSize)` accesses;
`offset + 1` is computed in `size_t`. -/
def read16leReads (offset dataSize : Nat) : List Nat :=
  if (offset + 1) % SIZE_WRAP ≥ dataSize then []
  else [offset, (offset + 1) % SIZE_WRAP]

/-- The indices of `data` that `read32le(data, offset, dataSize)` accesses. -/
def read32leReads (offset dataSize : Nat) : List Nat :=
  if (offset + 3) % SIZE_WRAP ≥ dataSize then []
  else [offset, (offset + 1) % SIZE_WRAP, (offset + 2) % SIZE_WRAP, (offset + 3) % SIZE_WRAP]

/-! ### Boxes of the specification -/

/-- The big-endian bytes of a 32-bit value. -/
def be32Bytes (n : Nat) : List Byte :=
  [Fin.ofNat (n / 2 ^ 24), Fin.ofNat (n / 2 ^ 16), Fin.ofNat (n / 2 ^ 8), Fin.ofNat n]

/-- The big-endian bytes of a 64-bit value. -/
def be64Bytes (n : Nat) : List Byte :=
  [Fin.ofNat (n / 2 ^ 56), Fin.ofNat (n / 2 ^ 48), Fin.ofNat (n / 2 ^ 40), Fin.ofNat (n / 2 ^ 32),
    Fin.ofNat (n / 2 ^ 24), Fin.ofNat (n / 2 ^ 16), Fin.ofNat (n / 2 ^ 8), Fin.ofNat n]

/-- A box of the specification: its tag, whether its header carries the
extended 64-bit size, and its payload. -/
structure Box where
  tag : List Byte
  extended : Bool
  payload : List Byte
deriving DecidableEq

/-- Header length of a box: 16 with an extended size, else 8. -/
def Box.headerLen (b : Box) : Nat := if b.extended then 16 else 8

/-- Declared size of a box: header and payload. -/
def Box.size (b : Box) : Nat := b.headerLen + b.payload.length

/-- Wire format of a box: 4-byte big-endian size, the tag, the 8-byte extended
size when the size field is 1, the payload. -/
def Box.encode (b : Box) : List Byte :=
  if b.extended then be32Bytes 1 ++ b.tag ++ be64Bytes b.size ++ b.payload
  else be32Bytes b.size ++ b.tag ++ b.payload

/-- A box with a valid size: the tag has four bytes and the size fits its
field. -/
def Box.Valid (b : Box) : Prop :=
  b.tag.length = 4 ∧ b.size < (if b.extended then 2 ^ 64 else 2 ^ 32)

/-- The bytes of a sequence of sibling boxes. -/
def encodeBoxes (boxes : List Box) : List Byte := (boxes.map Box.encode).flatten

/-- A target of the walk as the source passes it: four bytes, none NUL. -/
def IsTag (target : List Byte) : Prop := target.length = 4 ∧ ∀ c ∈ target, c ≠ 0

/-- Sample box `A` of the specification's example: size 20. -/
def sampleA : Box := ⟨[0x41, 0x41, 0x41, 0x41], false, List.replicate 12 0⟩

/-- Sample target box of the specification's example: tag `moov`, size 16. -/
def sampleTarget : Box := ⟨tagMoov, false, [1, 2, 3, 4, 5, 6, 7, 8]⟩

/-- Sample box `B` of the specification's example: size 8. -/
def sampleB : Box := ⟨[0x42, 0x42, 0x42, 0x42], false, []⟩

/-- The bytes of a box header of the specification: the size field and the
tag, and the extended size when the size field is 1. -/
def headerBytes (ext : Bool) (size : Nat) (tag : List Byte) : List Byte :=
  if ext then be32Bytes 1 ++ tag ++ be64Bytes size else be32Bytes size ++ tag

/-- A file on which the bounds check of the walk is passed by a box that
overruns the range: a box `free` of size 24 whose payload holds the bytes of
the box `moov` of size 16 above, then a header `skip` with size field 1 and
extended size `2^64 - 16`. -/
def overrunSample : List Byte :=
  Box.encode ⟨[0x66, 0x72, 0x65, 0x65], false, sampleTarget.encode⟩ ++
    headerBytes true (2 ^ 64 - 16) [0x73, 0x6B, 0x69, 0x70]

/-- A source whose `moov` box wraps a `uuid` box whose payload is `payload`. -/
def moovUuidFile (payload : List Byte) : List Byte :=
  Box.encode ⟨tagMoov, false, Box.encode ⟨tagUuid, false, payload⟩⟩

/-- The TIFF signature `49 49 2A 00` (`"II"`, then 42 in little endian) stands
at offset `p` of the payload. -/
def HasTiffSignature (payload : List Byte) (p : Nat) : Prop :=
  (payload.drop p).take 4 = [0x49, 0x49, 0x2A, 0x00]

/-! ### EXIF blobs of the specification -/

/-- The 16-bit little-endian value `LE16(blob[off..off+1])`. -/
def le16 (blob : List Byte) (off : Nat) : Nat :=
  (blob.getD off 0).val + 256 * (blob.getD (off + 1) 0).val

/-- The 32-bit little-endian value `LE32(blob[off..off+3])`. -/
def le32 (blob : List Byte) (off : Nat) : Nat :=
  (blob.getD off 0).val + 256 * (blob.getD (off + 1) 0).val +
    65536 * (blob.getD (off + 2) 0).val + 16777216 * (blob.getD (off + 3) 0).val

/-- The two bytes of the low 16 bits of `n`, least significant first. -/
def le16Bytes (n : Nat) : List Byte := [Fin.ofNat n, Fin.ofNat (n / 256)]

/-- The two bytes of the low 16 bits of `n`, most significant first. -/
def be16Bytes (n : Nat) : List Byte := [Fin.ofNat (n / 256), Fin.ofNat n]

/-- The offset `O = 6 + LE32(blob[10..13])` of IFD0 in an EXIF blob. -/
def ifdOffset (blob : List Byte) : Nat := 6 + le32 blob 10

/-- The entry count `c = LE16(blob[O..O+1])` of IFD0. -/
def ifdCount (blob : List Byte) : Nat := le16 blob (ifdOffset blob)

/-- The 12 bytes `blob[O+2+12i .. O+14+12i)` of the `i`-th entry of IFD0. -/
def ifdEntry (blob : List Byte) (i : Nat) : List Byte :=
  (blob.drop (ifdOffset blob + 2 + 12 * i)).take 12

/-- The entries `e_0, ..., e_(c-1)` of IFD0. -/
def ifdEntries (blob : List Byte) : List (List Byte) :=
  (List.range (ifdCount blob)).map (ifdEntry blob)

/-- The fixed whitelist of the specification. -/
def whitelist : List Nat := [0x010F, 0x0110, 0x0132, 0x829A, 0x829D, 0x8827, 0x920A, 0x0112]

/-- The tag of a directory entry, its first two bytes in little endian, is in
the whitelist. -/
def whitelisted (entry : List Byte) : Bool := whitelist.contains (le16 entry 0)

/-- The entries of IFD0 that the minimizer keeps, in original order. -/
def keptEntries (blob : List Byte) : List (List Byte) := (ifdEntries blob).filter whitelisted

/-- The minimized blob of the specification: the bytes before IFD0, the new
entry count, the kept entries, and a zero next-IFD offset. -/
def minimized (blob : List Byte) : List Byte :=
  blob.take (ifdOffset blob) ++ le16Bytes (keptEntries blob).length ++
    (keptEntries blob).flatten ++ [0, 0, 0, 0]

/-- The structurally valid blobs: the EXIF header, at least 14 bytes, and an
IFD0 whose count, entry table and next-IFD offset lie within the blob. -/
def StructurallyValid (blob : List Byte) : Prop :=
  blob.take 6 = exifHeader ∧ 14 ≤ blob.length ∧ ifdOffset blob + 2 ≤ blob.length ∧
    ifdOffset blob + 2 + 12 * ifdCount blob + 4 ≤ blob.length

/-- The ranges `[a, b)` of `*exifSegment` that a run of `minimizeExifData`
reads when it passes its four tests, in program order: `memcmp` with the
header, `read32le` at `tiffStart + 4`, `read16le` at `ifd0Offset`, for each
entry `read16le` of its tag and `memcpy` of its 12 bytes, and the final
`memcpy` of the first `ifd0Offset` bytes. -/
def minimizeReadRanges (exif : List Byte) : List (Nat × Nat) :=
  let ifd0Offset := 6 + read32le exif (6 + 4) exif.length
  let count := read16le exif ifd0Offset exif.length
  [(0, 6), (6 + 4, 6 + 4 + 4), (ifd0Offset, ifd0Offset + 2)] ++
    (List.range count).flatMap (fun i =>
      [(ifd0Offset + 2 + i * 12, ifd0Offset + 2 + i * 12 + 2),
        (ifd0Offset + 2 + i * 12, ifd0Offset + 2 + i * 12 + 12)]) ++
    [(0, ifd0Offset)]

/-- A small EXIF blob: the header, a TIFF header with IFD0 at offset 8, two
entries of which the first (tag `010F`) is whitelisted and the second (tag
`9999`) is not, a next-IFD offset, and two more bytes. -/
def sampleBlob : List Byte :=
  exifHeader ++ [0x49, 0x49, 0x2A, 0, 8, 0, 0, 0, 2, 0,
    0x0F, 0x01, 2, 0, 1, 0, 0, 0, 7, 7, 7, 7,
    0x99, 0x99, 2, 0, 1, 0, 0, 0, 7, 7, 7, 7,
    1, 2, 3, 4, 5, 5]

/-- An EXIF blob of 14 bytes whose IFD0 offset field is 0, so that IFD0 lies
over the TIFF header, with entry count 0. -/
def overlapBlob : List Byte := exifHeader ++ [0, 0, 0, 0, 0, 0, 0, 0]

/-! ### Reading a spliced segment back -/

/-- A buffer begins with the JPEG start marker `FF D8`. -/
def BeginsWithSoi (j : List Byte) : Prop := j.take 2 = [0xFF, 0xD8]

instance (j : List Byte) : Decidable (BeginsWithSoi j) :=
  inferInstanceAs (Decidable (j.take 2 = [0xFF, 0xD8]))

/-- A blob begins with the header `45 78 69 66 00 00`. -/
def HasExifHeader (x : List Byte) : Prop := x.take 6 = exifHeader

instance (x : List Byte) : Decidable (HasExifHeader x) :=
  inferInstanceAs (Decidable (x.take 6 = exifHeader))

/-- The value of the 2-byte big-endian field at offset `off`. -/
def be16 (out : List Byte) (off : Nat) : Nat :=
  (out.getD off 0).val * 256 + (out.getD (off + 1) 0).val

/-- Reading `out` as an APP1 segment at offset 2: the marker `FF E1`, then the
2-byte big-endian length `Lf`, which counts itself, then `Lf - 2` payload
bytes.  The result is the payload; there is none when the marker is not there,
when `Lf < 2`, or when the segment does not fit in `out`. -/
def readApp1 (out : List Byte) : Option (List Byte) :=
  if out.getD 2 0 = 0xFF ∧ out.getD 3 0 = 0xE1 then
    let Lf := be16 out 4
    if 2 ≤ Lf ∧ 4 + Lf ≤ out.length then some ((out.drop 6).take (Lf - 2))
    else none
  else none

/-- The smallest JPEG buffer: the start marker alone. -/
def soiOnly : List Byte := [0xFF, 0xD8]

/-- A JPEG buffer of six bytes. -/
def sampleJpeg : List Byte := [0xFF, 0xD8, 0xFF, 0xDB, 0xFF, 0xD9]

/-- An exif blob of 65542 bytes: the header, then 65536 zero bytes. -/
def bigExif : List Byte := exifHeader ++ List.replicate 65536 0

/-- An exif blob of 10 bytes: the header, then `II*\0`. -/
def smallExif : List Byte := exifHeader ++ [0x49, 0x49, 0x2A, 0]

/-- A bare TIFF header, without the Exif header. -/
def bareTiff : List Byte := [0x49, 0x49, 0x2A, 0, 8, 0, 0, 0]

/-! ### Sources of the specification's examples -/

/-- The `uuid` payload of the end-to-end example: the TIFF signature, the four
bytes `offsetField` of the IFD0 offset, then an IFD0 with the entry count 2,
the two entries `e1` and `e2`, and the next-IFD offset 0. -/
def syntheticPayload (offsetField e1 e2 : List Byte) : List Byte :=
  [0x49, 0x49, 0x2A, 0x00] ++ offsetField ++ [2, 0] ++ e1 ++ e2 ++ [0, 0, 0, 0]

/-- The source of the end-to-end example: a `moov` box wrapping a `uuid` box
with the payload above. -/
def syntheticSource (offsetField e1 e2 : List Byte) : List Byte :=
  moovUuidFile (syntheticPayload offsetField e1 e2)

/-- A directory entry with the whitelisted tag `010F` (Make). -/
def entryMake : List Byte := [0x0F, 0x01, 2, 0, 1, 0, 0, 0, 7, 7, 7, 7]

/-- A directory entry with the tag `9999`, which is not whitelisted. -/
def entryOther : List Byte := [0x99, 0x99, 2, 0, 1, 0, 0, 0, 5, 5, 5, 5]

/-- The string literal `"free"`. -/
def tagFree : List Byte := [0x66, 0x72, 0x65, 0x65]

/-- A source of 24 bytes on which a walk goes round: a box `free` of size 8,
then a header `skip` with size field 1 and extended size `2^64 - 8`. -/
def loopSample : List Byte :=
  Box.encode ⟨tagFree, false, []⟩ ++ headerBytes true (2 ^ 64 - 8) [0x73, 0x6B, 0x69, 0x70]

/-- A source whose `moov` payload is malformed: its only box declares the size
4, smaller than its header. -/
def malformedMoovFile : List Byte :=
  Box.encode ⟨tagMoov, false, be32Bytes 4 ++ tagFree⟩

/-- A source whose `moov` payload is well formed and holds no `uuid` box: its
only box is an empty box `free`. -/
def noUuidFile : List Byte :=
  Box.encode ⟨tagMoov, false, Box.encode ⟨tagFree, false, []⟩⟩

/-- A source that is cut short: a header of 8 bytes that announces an extended
size, and nothing after it. -/
def truncatedFile : List Byte := be32Bytes 1 ++ tagFree

/-- A well-formed source without a `moov` box: an empty box `free`. -/
def noMoovFile : List Byte := Box.encode ⟨tagFree, false, []⟩

/-- An `FF D8` stands at offset `i` of `b` and an `FF D9` at offset `j`. -/
def SoiEoiAt (b : List Byte) (i j : Nat) : Prop :=
  b[i]? = some 0xFF ∧ b[i + 1]? = some 0xD8 ∧ b[j]? = some 0xFF ∧ b[j + 1]? = some 0xD9

instance (b : List Byte) (i j : Nat) : Decidable (SoiEoiAt b i j) :=
  inferInstanceAs (Decidable (_ ∧ _))

/-- No `FF D8` of `b` is followed later by an `FF D9`. -/
def NoSoiThenEoi (b : List Byte) : Prop :=
  ∀ i : Nat, i < b.length → ∀ j : Nat, j < b.length → i < j → ¬ SoiEoiAt b i j

instance (b : List Byte) : Decidable (NoSoiThenEoi b) :=
  inferInstanceAs
    (Decidable (∀ i : Nat, i < b.length → ∀ j : Nat, j < b.length → i < j →
      ¬ SoiEoiAt b i j))

/-- The bytes `[start, end)` of a file. -/
def slice (file : List Byte) (start end_ : Nat) : List Byte :=
  (file.drop start).take (end_ - start)

/-- The index that the specification selects among the ranges: its size is
at least every size, and every earlier range is smaller. -/
def IsFirstLargest (jpegs : List JpegInfo) (idx : Nat) : Prop :=
  idx < jpegs.length ∧
    (∀ i, i < jpegs.length →
      (jpegs.getD i ⟨0, 0, 0⟩).size ≤ (jpegs.getD idx ⟨0, 0, 0⟩).size) ∧
    (∀ i, i < idx → (jpegs.getD i ⟨0, 0, 0⟩).size < (jpegs.getD idx ⟨0, 0, 0⟩).size)

/-! ### Minimal ranges -/

/-- An `FF D8` stands at offset `p` of `b`. -/
def SoiAt (b : List Byte) (p : Nat) : Prop := b[p]? = some 0xFF ∧ b[p + 1]? = some 0xD8

/-- An `FF D9` stands at offset `p` of `b`. -/
def EoiAt (b : List Byte) (p : Nat) : Prop := b[p]? = some 0xFF ∧ b[p + 1]? = some 0xD9

/-- The range `[s, e)` is minimal: no `FF D8` at an offset `p` with
`s < p < e - 2`, and no `FF D9` at an offset `p` with `s <= p < e - 2`. -/
def MinimalRange (b : List Byte) (r : JpegInfo) : Prop :=
  (∀ p, r.start < p → p < r.end_ - 2 → ¬ SoiAt b p) ∧
    (∀ p, r.start ≤ p → p < r.end_ - 2 → ¬ EoiAt b p)

/-- Invariant of the single pass once the pairs at offsets below `pos` have
been examined: the closed ranges are minimal, and since a pending start no
other `FF D8` and no `FF D9` has been seen. -/
def ScanMin (b : List Byte) (pos : Nat) (acc : Option Nat × List JpegInfo) : Prop :=
  (∀ r ∈ acc.2, MinimalRange b r) ∧
    (∀ s, acc.1 = some s →
      (∀ p, s < p → p < pos → ¬ SoiAt b p) ∧ (∀ p, s ≤ p → p < pos → ¬ EoiAt b p))

/-! ### Directory entries of the specification -/

/-- The field type of a directory entry: its bytes 2 and 3. -/
def entryType (entry : List Byte) : Nat := le16 entry 2

/-- The number of values of a directory entry: its bytes 4 to 7. -/
def entryCount (entry : List Byte) : Nat := le32 entry 4

/-- The value field of a directory entry, its bytes 8 to 11: the value itself
when it fits in 4 bytes, else its offset in the TIFF part. -/
def entryValue (entry : List Byte) : Nat := le32 entry 8

/-- The size in bytes of a value of a TIFF field type (BYTE, ASCII, SHORT,
LONG, RATIONAL, SBYTE, UNDEFINED, SSHORT, SLONG, SRATIONAL, FLOAT, DOUBLE). -/
def typeSize : Nat → Nat
  | 1 => 1
  | 2 => 1
  | 3 => 2
  | 4 => 4
  | 5 => 8
  | 6 => 1
  | 7 => 1
  | 8 => 2
  | 9 => 4
  | 10 => 8
  | 11 => 4
  | 12 => 8
  | _ => 0

/-- The value of the entry fits in its 4-byte value field. -/
def FitsInline (entry : List Byte) : Prop := entryCount entry * typeSize (entryType entry) ≤ 4

instance (entry : List Byte) : Decidable (FitsInline entry) :=
  inferInstanceAs (Decidable (_ ≤ _))

/-- The entry Make (tag `010F`), ASCII, 6 characters, stored at offset 50 of
the TIFF part. -/
def entryMakeAt50 : List Byte := [0x0F, 0x01, 2, 0, 6, 0, 0, 0, 50, 0, 0, 0]

/-- The entry Orientation (tag `0112`), one SHORT with the value 6, stored in
the value field. -/
def entryOrientation : List Byte := [0x12, 0x01, 3, 0, 1, 0, 0, 0, 6, 0, 0, 0]

/-- A valid EXIF blob of 62 bytes: the header, the TIFF header `II*\0` with
IFD0 at offset 8, an IFD0 with the three entries Make, `9999` and Orientation,
the next-IFD offset 0, and at offset 50 of the TIFF part the six bytes of
`Canon` and a NUL, to which the entry Make points. -/
def danglingBlob : List Byte :=
  exifHeader ++ [0x49, 0x49, 0x2A, 0, 8, 0, 0, 0, 3, 0] ++ entryMakeAt50 ++ entryOther ++
    entryOrientation ++ [0, 0, 0, 0] ++ [0x43, 0x61, 0x6E, 0x6F, 0x6E, 0]

/-- What `minimizeExifData` makes of `danglingBlob`: 44 bytes. -/
def danglingOut : List Byte :=
  exifHeader ++ [0x49, 0x49, 0x2A, 0, 8, 0, 0, 0, 2, 0] ++ entryMakeAt50 ++
    entryOrientation ++ [0, 0, 0, 0]

/-- The APP1 segment of the specification that carries `x`: the marker
`FF E1`, the big-endian length `len(x) + 2`, and `x`. -/
def app1 (x : List Byte) : List Byte := [0xFF, 0xE1] ++ be16Bytes (x.length + 2) ++ x

/-- An exif blob of 14 bytes: the header, then a bare TIFF header. -/
def bareTiffExif : List Byte := exifHeader ++ bareTiff

/-! ### Index selection -/

/-- There are at least 4 ranges and the first is smaller than 8192 bytes. -/
def SkipsFirst (jpegs : List JpegInfo) : Prop :=
  4 ≤ jpegs.length ∧ (jpegs.getD 0 ⟨0, 0, 0⟩).size < 8192

instance (jpegs : List JpegInfo) : Decidable (SkipsFirst jpegs) :=
  inferInstanceAs (Decidable (_ ∧ _))

/-- Four ranges, the first of 100 bytes. -/
def smallFirstRanges : List JpegInfo :=
  [⟨0, 100, 100⟩, ⟨100, 10100, 10000⟩, ⟨10100, 30100, 20000⟩, ⟨30100, 60100, 30000⟩]

/-- Five ranges, the first of 9000 bytes. -/
def largeFirstRanges : List JpegInfo :=
  [⟨0, 9000, 9000⟩, ⟨9000, 9100, 100⟩, ⟨9100, 9200, 100⟩, ⟨9200, 9300, 100⟩,
    ⟨9300, 9400, 100⟩]

/-- Two ranges, the first of 100 bytes. -/
def twoRanges : List JpegInfo := [⟨0, 100, 100⟩, ⟨100, 10100, 10000⟩]

/-! ### A blob whose IFD0 lies over the TIFF header -/

/-- A blob of 64 bytes: the Exif header, `II*\0`, the IFD0 offset 4 and 50 zero
bytes.  IFD0 starts at offset 10 of the blob, on the offset field itself, so
its count is 4; its four entries have the tag 0. -/
def lowOffsetBlob : List Byte :=
  exifHeader ++ [0x49, 0x49, 0x2A, 0, 4, 0, 0, 0] ++ List.replicate 50 0

/-- The 16 bytes that the minimizer makes of `lowOffsetBlob`: its offset field
is 0, so its IFD0 starts at offset 6 and its count is `49 49`. -/
def lowOffsetOut : List Byte := exifHeader ++ [0x49, 0x49, 0x2A, 0, 0, 0, 0, 0, 0, 0]

/-! ### The two scanners compared -/

/-- A `start` of cr3extract.c as the `long` of cr3thumb.c: the sentinel is
`-1`. -/
def startAsLong : Option Nat → Int
  | none => -1
  | some s => s

/-- A range of cr3extract.c as the triple of `long` of cr3thumb.c. -/
def JpegInfo.asLong (r : JpegInfo) : Cr3thumb.JpegInfo :=
  { start := r.start, end_ := r.end_, size := r.size }

/-- A result of cr3extract.c as a result of cr3thumb.c. -/
def ScanResult.asLong (r : ScanResult) : Cr3thumb.ScanResult :=
  { ret := r.ret, jpegs := r.jpegs.map (List.map JpegInfo.asLong), count := r.count }

/-- The local variables of cr3extract.c as those of cr3thumb.c. -/
def ScanState.asLong (st : ScanState) : Cr3thumb.ScanState :=
  { start := startAsLong st.start
    jpegs := st.jpegs.map JpegInfo.asLong
    last_byte := st.last_byte
    has_last_byte := st.has_last_byte
    file_pos := st.file_pos }

/-- The pair `(start, jpegs)` of cr3extract.c as that of cr3thumb.c. -/
def accAsLong (acc : Option Nat × List JpegInfo) : Int × List Cr3thumb.JpegInfo :=
  (startAsLong acc.1, acc.2.map JpegInfo.asLong)

/-- A source of 10 bytes with two ranges. -/
def twoRangeSource : List Byte := [0xFF, 0xD8, 1, 0xFF, 0xD9, 0xFF, 0xD8, 0xFF, 0xD9, 7]

/-! ## Properties of the scanner -/

theorem markerCheck_of_ne (x y : Byte) (soi eoi : Nat) (acc : Option Nat × List JpegInfo)
    (hx : x ≠ 0xFF) : markerCheck x y soi eoi acc = acc := by
  obtain ⟨start, jpegs⟩ := acc
  cases start <;> simp [markerCheck, hx]

theorem scanBuffer_eq_scanPairs (file_pos : Nat) (l : List Byte) :
    ∀ (i : Nat) (acc : Option Nat × List JpegInfo),
      scanBuffer file_pos i l acc = scanPairs (file_pos + i) l acc := by
  induction l with
  | nil => intro i acc; simp [scanBuffer, scanPairs]
  | cons x t ih =>
    intro i acc
    cases t with
    | nil => simp [scanBuffer, scanPairs]
    | cons y rest =>
      simp only [scanBuffer, scanPairs]
      rw [ih (i + 1)]
      rfl

theorem scanPairs_cons_cons (pos : Nat) (x y : Byte) (rest : List Byte)
    (acc : Option Nat × List JpegInfo) :
    scanPairs pos (x :: y :: rest) acc =
      scanPairs (pos + 1) (y :: rest) (markerCheck x y pos (pos + 2) acc) := rfl

theorem scanPairs_singleton (pos : Nat) (x : Byte) (acc : Option Nat × List JpegInfo) :
    scanPairs pos [x] acc = acc := rfl

theorem scanPairs_nil (pos : Nat) (acc : Option Nat × List JpegInfo) :
    scanPairs pos [] acc = acc := rfl

/-- Scanning `p ++ c` is scanning `p`, then the pair that spans the two parts,
then `c`. -/
theorem scanPairs_append (b0 : Byte) (c : List Byte) :
    ∀ (p : List Byte) (hp : p ≠ []) (pos : Nat) (acc : Option Nat × List JpegInfo),
      scanPairs pos (p ++ b0 :: c) acc =
        scanPairs (pos + p.length) (b0 :: c)
          (markerCheck (p.getLast hp) b0 (pos + p.length - 1) (pos + p.length + 1)
            (scanPairs pos p acc)) := by
  intro p
  induction p with
  | nil => intro hp; exact absurd rfl hp
  | cons x t ih =>
    intro hp pos acc
    cases t with
    | nil =>
      simp only [List.singleton_append, scanPairs_cons_cons, scanPairs_singleton,
        List.length_singleton, List.getLast_singleton, Nat.add_sub_cancel]
    | cons y rest =>
      have h := ih (List.cons_ne_nil y rest) (pos + 1) (markerCheck x y pos (pos + 2) acc)
      rw [List.cons_append, List.cons_append, scanPairs_cons_cons, ← List.cons_append, h,
        scanPairs_cons_cons, List.getLast_cons (List.cons_ne_nil y rest)]
      simp only [List.length_cons]
      have e1 : pos + 1 + (rest.length + 1) = pos + (rest.length + 1 + 1) := by omega
      rw [e1]

theorem stateAfter_nil : stateAfter [] = ScanState.init := rfl

/-- One iteration of the chunked loop takes the state for `p` to the state for
`p ++ c`. -/
theorem processChunk_stateAfter (p c : List Byte) (hc : c ≠ []) :
    processChunk (stateAfter p) c = stateAfter (p ++ c) := by
  obtain ⟨b0, c', rfl⟩ := List.exists_cons_of_ne_nil hc
  have hlast : (b0 :: c').getLastD 0 = (p ++ b0 :: c').getLastD 0 := by
    simp only [List.getLastD_eq_getLast?]
    rw [List.getLast?_append_of_ne_nil p (List.cons_ne_nil b0 c')]
  have hpos : 0 < (b0 :: c').length := by simp
  by_cases hp : p = []
  · subst hp
    simp only [processChunk, stateAfter, scanBuffer_eq_scanPairs, scanPairs_nil,
      List.isEmpty_nil, Bool.not_true, List.length_nil, Nat.add_zero, List.nil_append,
      List.isEmpty_cons, Bool.not_false, zero_add, hpos, if_true, decide_True]
  · have happ := scanPairs_append b0 c' p hp 0 (none, [])
    have hne : p.isEmpty = false := by
      cases p with
      | nil => exact absurd rfl hp
      | cons _ _ => rfl
    have hl : p.getLastD 0 = p.getLast hp := by
      rw [List.getLastD_eq_getLast?, List.getLast?_eq_getLast _ hp]; rfl
    have hne2 : (p ++ b0 :: c').isEmpty = false := by cases p <;> rfl
    simp only [processChunk, stateAfter, scanBuffer_eq_scanPairs, hne, hne2, Bool.not_false,
      Nat.add_zero, List.length_append, Prod.mk.eta, hpos, if_true, decide_True]
    rw [hlast]
    simp only [zero_add] at happ
    rw [happ, hl]

theorem scanLoop_stateAfter (cs : List (List Byte)) :
    ∀ (p : List Byte), (∀ c ∈ cs, c ≠ []) →
      scanLoop (stateAfter p) cs = stateAfter (p ++ cs.flatten) := by
  induction cs with
  | nil => intro p _; simp [scanLoop]
  | cons c rest ih =>
    intro p h
    have hc : c ≠ [] := h c (List.mem_cons_self c rest)
    have hrest : ∀ d ∈ rest, d ≠ [] := fun d hd => h d (List.mem_cons_of_mem c hd)
    simp only [scanLoop, hc, if_false, processChunk_stateAfter p c hc, ih (p ++ c) hrest,
      List.flatten_cons, List.append_assoc]

/-- The chunked scan of non-empty chunks is the single pass over their
concatenation. -/
theorem find_all_jpegs_reads_eq (cs : List (List Byte)) (h : ∀ c ∈ cs, c ≠ []) :
    find_all_jpegs_reads cs false =
      { ret := 0, jpegs := some (scanAll cs.flatten), count := (scanAll cs.flatten).length } := by
  have := scanLoop_stateAfter cs [] h
  rw [stateAfter_nil] at this
  simp [find_all_jpegs_reads, this, stateAfter, scanAll]

theorem freadAll_ne_nil (n : Nat) : ∀ (fuel : Nat) (data : List Byte), 0 < n →
    ∀ c ∈ freadAll n fuel data, c ≠ [] ∧ c.length ≤ n := by
  intro fuel
  induction fuel with
  | zero => intro data _ c hc; simp [freadAll] at hc
  | succ k ih =>
    intro data hn c hc
    by_cases hd : data = []
    · simp [freadAll, hd] at hc
    · simp only [freadAll, hd, if_false, List.mem_cons] at hc
      rcases hc with rfl | hc
      · refine ⟨?_, List.length_take_le n data⟩
        cases data with
        | nil => exact absurd rfl hd
        | cons a t =>
          cases n with
          | zero => omega
          | succ m => simp
      · exact ih _ hn c hc

theorem freadAll_join (n : Nat) : ∀ (fuel : Nat) (data : List Byte), 0 < n →
    data.length ≤ fuel → (freadAll n fuel data).flatten = data := by
  intro fuel
  induction fuel with
  | zero =>
    intro data _ hl
    have : data = [] := List.length_eq_zero.mp (Nat.le_zero.mp hl)
    simp [freadAll, this]
  | succ k ih =>
    intro data hn hl
    by_cases hd : data = []
    · simp [freadAll, hd]
    · have hlen : 0 < data.length := List.length_pos.mpr hd
      have : (data.drop n).length ≤ k := by rw [List.length_drop]; omega
      simp only [freadAll, hd, if_false, List.flatten_cons, ih _ hn this, List.take_append_drop]

/-- On a file, `find_all_jpegs` returns the ranges of the single pass. -/
theorem find_all_jpegs_eq (file : List Byte) :
    find_all_jpegs file =
      { ret := 0, jpegs := some (scanAll file), count := (scanAll file).length } := by
  have hn : 0 < BUFFER_SIZE := by decide
  have h := find_all_jpegs_reads_eq (freadAll BUFFER_SIZE file.length file)
    (fun c hc => (freadAll_ne_nil BUFFER_SIZE file.length file hn c hc).1)
  rw [freadAll_join BUFFER_SIZE file.length file hn (Nat.le_refl _)] at h
  exact h

theorem markerCheck_eq_observePair (pos : Nat) (x y : Byte)
    (acc : Option Nat × List JpegInfo) :
    markerCheck x y pos (pos + 2) acc = observePair pos x y acc := by
  obtain ⟨start, jpegs⟩ := acc
  unfold markerCheck observePair
  by_cases h8 : x = 0xFF ∧ y = 0xD8
  · have h9 : ¬ (x = 0xFF ∧ y = 0xD9) := by
      rintro ⟨_, hy⟩
      rw [h8.2] at hy
      exact absurd hy (by decide)
    simp [h8, h9]
  · by_cases h9 : x = 0xFF ∧ y = 0xD9
    · cases start <;> simp [h8, h9]
    · cases start <;> simp [h8, h9]

theorem observeAll_eq_scanPairs (l : List Byte) :
    ∀ (pos : Nat) (acc : Option Nat × List JpegInfo),
      observeAll pos l acc = scanPairs pos l acc := by
  induction l with
  | nil => intro pos acc; rfl
  | cons x t ih =>
    intro pos acc
    cases t with
    | nil => rfl
    | cons y rest =>
      rw [scanPairs_cons_cons, markerCheck_eq_observePair, ← ih (pos + 1)]
      rfl

/-- The source's marker tests, run over every pair, find the ranges of the
specification's single pass. -/
theorem scanAll_eq_singlePass (b : List Byte) : scanAll b = singlePass b := by
  unfold scanAll singlePass
  rw [observeAll_eq_scanPairs]

theorem scanInv_init (b : List Byte) : ScanInv b 0 (none, []) := by
  refine ⟨?_, List.Pairwise.nil, ?_⟩
  · intro r hr; simp at hr
  · intro s hs; simp at hs

/-- The invariant is kept by the marker tests on the pair at offset `pos`. -/
theorem scanInv_step (b : List Byte) (pos : Nat) (x y : Byte)
    (acc : Option Nat × List JpegInfo) (hx : b[pos]? = some x) (hy : b[pos + 1]? = some y)
    (h : ScanInv b pos acc) : ScanInv b (pos + 1) (markerCheck x y pos (pos + 2) acc) := by
  obtain ⟨start, jpegs⟩ := acc
  obtain ⟨hr, hpw, hs⟩ := h
  simp only at hr hpw hs
  have hlen : pos + 1 < b.length := by
    rcases Nat.lt_or_ge (pos + 1) b.length with h | h
    · exact h
    · rw [List.getElem?_eq_none h] at hy; simp at hy
  have relax : ∀ r ∈ jpegs, WellDelimited b r ∧ r.end_ ≤ pos + 1 + 1 :=
    fun r hm => ⟨(hr r hm).1, Nat.le_succ_of_le (hr r hm).2⟩
  by_cases hxF : x = 0xFF
  · by_cases hy8 : y = 0xD8
    · -- start of image: the pending start becomes `pos`
      subst hxF; subst hy8
      have hmc : markerCheck 0xFF 0xD8 pos (pos + 2) (start, jpegs) = (some pos, jpegs) := by
        simp [markerCheck]
      rw [hmc]
      refine ⟨relax, hpw, ?_⟩
      intro s hs'
      simp only [Option.some.injEq] at hs'
      subst hs'
      refine ⟨Nat.lt_succ_self _, hx, hy, ?_⟩
      intro r hm
      obtain ⟨⟨_, h4, _, _, _, _, h9⟩, hle⟩ := hr r hm
      rcases Nat.lt_or_ge r.end_ (pos + 1) with hlt | hge
      · omega
      · have e : r.end_ - 1 = pos := by omega
        rw [e, hx] at h9
        simp at h9
    · by_cases hy9 : y = 0xD9
      · subst hxF; subst hy9
        cases start with
        | none =>
          have hmc : markerCheck 0xFF 0xD9 pos (pos + 2) (none, jpegs) = (none, jpegs) := by
            simp [markerCheck]
          rw [hmc]
          exact ⟨relax, hpw, fun s hs' => by simp at hs'⟩
        | some s =>
          have hmc : markerCheck 0xFF 0xD9 pos (pos + 2) (some s, jpegs) =
              (none, jpegs ++ [⟨s, pos + 2, pos + 2 - s⟩]) := by
            simp [markerCheck]
          rw [hmc]
          obtain ⟨hslt, hsF, hs8, hsafter⟩ := hs s rfl
          have hs2 : s + 2 ≤ pos := by
            rcases Nat.lt_or_ge (s + 1) pos with h | h
            · omega
            · have e : s + 1 = pos := by omega
              rw [e, hx] at hs8
              simp at hs8
          refine ⟨?_, ?_, fun s hs' => by simp at hs'⟩
          · intro r hm
            simp only [List.mem_append, List.mem_singleton] at hm
            rcases hm with hm | rfl
            · exact relax r hm
            · refine ⟨⟨rfl, by simp only; omega, by simp only; omega, hsF, hs8, ?_, ?_⟩,
                by simp only; omega⟩
              · simpa using hx
              · simpa using hy
          · rw [List.pairwise_append]
            refine ⟨hpw, List.pairwise_singleton _ _, ?_⟩
            intro r hm r' hm'
            simp only [List.mem_singleton] at hm'
            subst hm'
            exact hsafter r hm
      · have hmc : markerCheck x y pos (pos + 2) (start, jpegs) = (start, jpegs) := by
          cases start <;> simp [markerCheck, hy8, hy9]
        rw [hmc]
        refine ⟨relax, hpw, ?_⟩
        intro s hs'
        obtain ⟨h1, h2, h3, h4⟩ := hs s hs'
        exact ⟨Nat.lt_succ_of_lt h1, h2, h3, h4⟩
  · rw [markerCheck_of_ne x y pos (pos + 2) (start, jpegs) hxF]
    refine ⟨relax, hpw, ?_⟩
    intro s hs'
    obtain ⟨h1, h2, h3, h4⟩ := hs s hs'
    exact ⟨Nat.lt_succ_of_lt h1, h2, h3, h4⟩

theorem scanInv_scanPairs (b : List Byte) (l : List Byte) :
    ∀ (pos : Nat) (acc : Option Nat × List JpegInfo), b.drop pos = l → ScanInv b pos acc →
      ∃ q, ScanInv b q (scanPairs pos l acc) := by
  induction l with
  | nil => intro pos acc _ h; exact ⟨pos, h⟩
  | cons x t ih =>
    intro pos acc hd h
    cases t with
    | nil => exact ⟨pos, h⟩
    | cons y rest =>
      have hx : b[pos]? = some x := by
        have := List.getElem?_drop b pos 0
        rw [hd] at this
        simpa using this.symm
      have hy : b[pos + 1]? = some y := by
        have := List.getElem?_drop b pos 1
        rw [hd] at this
        simpa using this.symm
      have hd' : b.drop (pos + 1) = y :: rest := by
        have : b.drop (pos + 1) = (b.drop pos).drop 1 := by
          rw [List.drop_drop]
        rw [this, hd]; rfl
      rw [scanPairs_cons_cons]
      exact ih (pos + 1) _ hd' (scanInv_step b pos x y acc hx hy h)

/-- Every range of the single pass is well delimited, and the ranges follow
one another. -/
theorem scanAll_inv (b : List Byte) :
    (∀ r ∈ scanAll b, WellDelimited b r) ∧
      (scanAll b).Pairwise (fun r r' => r.end_ ≤ r'.start) := by
  obtain ⟨q, h1, h2, _⟩ := scanInv_scanPairs b b 0 (none, []) rfl (scanInv_init b)
  exact ⟨fun r hr => (h1 r hr).1, h2⟩

/-- Bytes other than `FF` are passed over without effect. -/
theorem scanPairs_skip (rest : List Byte) :
    ∀ (g : List Byte) (pos : Nat) (acc : Option Nat × List JpegInfo),
      (∀ x ∈ g, x ≠ 0xFF) →
        scanPairs pos (g ++ rest) acc = scanPairs (pos + g.length) rest acc := by
  intro g
  induction g with
  | nil => intro pos acc _; rfl
  | cons x t ih =>
    intro pos acc h
    have hx : x ≠ 0xFF := h x (List.mem_cons_self x t)
    have ht : ∀ z ∈ t, z ≠ 0xFF := fun z hz => h z (List.mem_cons_of_mem x hz)
    have e : pos + (x :: t).length = pos + 1 + t.length := by
      simp only [List.length_cons]; omega
    rw [e, ← ih (pos + 1) acc ht]
    cases hl : t ++ rest with
    | nil => rw [List.cons_append, hl]; rfl
    | cons y u =>
      rw [List.cons_append, hl, scanPairs_cons_cons, markerCheck_of_ne x y pos (pos + 2) acc hx]

theorem length_segment (body : List Byte) : (segment body).length = body.length + 4 := by
  simp [segment]

/-- A segment followed by a gap closes exactly one range, the extent of the
segment. -/
theorem scanPairs_segment (body gap rest : List Byte) (pos : Nat) (js : List JpegInfo)
    (hb : ∀ x ∈ body, x ≠ 0xFF) (hg : ∀ x ∈ gap, x ≠ 0xFF) :
    scanPairs pos (segment body ++ gap ++ rest) (none, js) =
      scanPairs (pos + body.length + 4 + gap.length) rest
        (none, js ++ [⟨pos, pos + body.length + 4, body.length + 4⟩]) := by
  have h1 : ∀ x ∈ (0xD8 : Byte) :: body, x ≠ 0xFF := by
    intro x hx
    rcases List.mem_cons.mp hx with rfl | hx
    · decide
    · exact hb x hx
  have h2 : ∀ x ∈ (0xD9 : Byte) :: gap, x ≠ 0xFF := by
    intro x hx
    rcases List.mem_cons.mp hx with rfl | hx
    · decide
    · exact hg x hx
  have e : segment body ++ gap ++ rest =
      0xFF :: (((0xD8 : Byte) :: body) ++ (0xFF :: (((0xD9 : Byte) :: gap) ++ rest))) := by
    simp [segment]
  have m1 : markerCheck 0xFF 0xD8 pos (pos + 2) (none, js) = (some pos, js) := by
    simp [markerCheck]
  have m2 : markerCheck 0xFF 0xD9 (pos + 1 + (body.length + 1)) (pos + 1 + (body.length + 1) + 2)
      (some pos, js) = (none, js ++ [⟨pos, pos + body.length + 4, body.length + 4⟩]) := by
    have a1 : pos + 1 + (body.length + 1) + 2 = pos + body.length + 4 := by omega
    have a2 : pos + body.length + 4 - pos = body.length + 4 := by omega
    simp [markerCheck, a1, a2]
  rw [e, List.cons_append, scanPairs_cons_cons, m1, ← List.cons_append,
    scanPairs_skip _ _ _ _ h1, List.length_cons, List.cons_append, scanPairs_cons_cons, m2,
    ← List.cons_append, scanPairs_skip _ _ _ _ h2, List.length_cons]
  have a3 : pos + 1 + (body.length + 1) + 1 + (gap.length + 1) =
      pos + body.length + 4 + gap.length := by omega
  rw [a3]

theorem scanPairs_segments (segs : List (List Byte × List Byte)) :
    ∀ (pos : Nat) (js : List JpegInfo),
      (∀ s ∈ segs, (∀ x ∈ s.1, x ≠ 0xFF) ∧ (∀ x ∈ s.2, x ≠ 0xFF)) →
        scanPairs pos (segs.map fun s => segment s.1 ++ s.2).flatten (none, js) =
          (none, js ++ extents pos segs) := by
  induction segs with
  | nil => intro pos js _; simp [scanPairs_nil, extents]
  | cons s rest ih =>
    intro pos js h
    obtain ⟨hb, hg⟩ := h s (List.mem_cons_self s rest)
    have hrest := fun t ht => h t (List.mem_cons_of_mem s ht)
    rw [List.map_cons, List.flatten_cons, scanPairs_segment s.1 s.2 _ pos js hb hg, ih _ _ hrest]
    simp [extents]

/-- On a well-formed layout the single pass returns the extents of its
segments. -/
theorem scanAll_layout (g0 : List Byte) (segs : List (List Byte × List Byte))
    (h0 : ∀ x ∈ g0, x ≠ 0xFF)
    (h : ∀ s ∈ segs, (∀ x ∈ s.1, x ≠ 0xFF) ∧ (∀ x ∈ s.2, x ≠ 0xFF)) :
    scanAll (layout g0 segs) = extents g0.length segs := by
  unfold scanAll layout
  rw [scanPairs_skip _ g0 0 _ h0, scanPairs_segments segs _ _ h]
  simp

/-- The `i`-th extent of a layout covers exactly the bytes of its `i`-th
segment. -/
theorem extents_cover (segs : List (List Byte × List Byte)) :
    ∀ (pre : List Byte) (i : Nat) (s : List Byte × List Byte), segs[i]? = some s →
      ∃ r, (extents pre.length segs)[i]? = some r ∧
        ((pre ++ (segs.map fun s => segment s.1 ++ s.2).flatten).drop r.start).take r.size =
          segment s.1 := by
  induction segs with
  | nil => intro pre i s hs; simp at hs
  | cons t rest ih =>
    intro pre i s hs
    cases i with
    | zero =>
      simp only [List.getElem?_cons_zero, Option.some.injEq] at hs
      subst hs
      refine ⟨⟨pre.length, pre.length + t.1.length + 4, t.1.length + 4⟩,
        by simp [extents], ?_⟩
      simp only [List.map_cons, List.flatten_cons, List.drop_left, List.append_assoc]
      rw [← length_segment t.1, List.take_left]
    | succ j =>
      simp only [List.getElem?_cons_succ] at hs
      obtain ⟨r, hr, hcov⟩ := ih (pre ++ (segment t.1 ++ t.2)) j s hs
      refine ⟨r, ?_, ?_⟩
      · simp only [extents, List.getElem?_cons_succ]
        rw [← hr]
        congr 2
        simp [length_segment]
        omega
      · simpa [List.append_assoc] using hcov

theorem length_extents (segs : List (List Byte × List Byte)) :
    ∀ off : Nat, (extents off segs).length = segs.length := by
  induction segs with
  | nil => intro off; rfl
  | cons s rest ih => intro off; simp [extents, ih]

theorem pairwise_start_lt (b : List Byte) (js : List JpegInfo)
    (hw : ∀ r ∈ js, WellDelimited b r) (hp : js.Pairwise (fun r r' => r.end_ ≤ r'.start)) :
    js.Pairwise (fun r r' => r.start < r'.start) := by
  refine (List.Pairwise.and_mem.mp hp).imp ?_
  intro r r' h
  obtain ⟨hr, _, hle⟩ := h
  have := (hw r hr).2.1
  omega

/-! ### The claims about `find_all_jpegs` -/

/-- C1: on a well-formed input `g0 ++ s1 ++ g1 ++ ... ++ sN ++ gN`, where each
`s_i` is `FF D8 ++ body_i ++ FF D9` and no gap or body contains `FF`,
`find_all_jpegs` succeeds and returns exactly `N` ranges, in ascending start
order, the `i`-th being the extent of `s_i`: it starts at the offset of its
`FF D8`, ends one past its `FF D9`, has `size = end - start`, and the bytes it
covers are those of `s_i`.  (The gaps between two segments need not even be
non-empty.) -/
theorem find_all_jpegs_layout (g0 : List Byte) (segs : List (List Byte × List Byte))
    (h0 : ∀ x ∈ g0, x ≠ 0xFF)
    (h : ∀ s ∈ segs, (∀ x ∈ s.1, x ≠ 0xFF) ∧ (∀ x ∈ s.2, x ≠ 0xFF)) :
    find_all_jpegs (layout g0 segs) =
        { ret := 0, jpegs := some (extents g0.length segs), count := segs.length } ∧
      (extents g0.length segs).Pairwise (fun r r' => r.start < r'.start) ∧
      ∀ (i : Nat) (s : List Byte × List Byte), segs[i]? = some s →
        ∃ r, (extents g0.length segs)[i]? = some r ∧ r.size = r.end_ - r.start ∧
          ((layout g0 segs).drop r.start).take (r.end_ - r.start) = segment s.1 := by
  have hsp := scanAll_layout g0 segs h0 h
  have hinv := scanAll_inv (layout g0 segs)
  rw [hsp] at hinv
  refine ⟨?_, pairwise_start_lt _ _ hinv.1 hinv.2, ?_⟩
  · rw [find_all_jpegs_eq, hsp, length_extents]
  · intro i s hs
    obtain ⟨r, hr, hcov⟩ := extents_cover segs g0 i s hs
    have hsize := (hinv.1 r (List.getElem?_mem hr)).1
    refine ⟨r, hr, hsize, ?_⟩
    rw [← hsize]
    exact hcov

/-- C1, on the input `00 | FF D8 01 02 FF D9 | 03 | FF D8 FF D9`. -/
theorem find_all_jpegs_layout_witness :
    (∀ x ∈ ([0] : List Byte), x ≠ 0xFF) ∧
      (∀ s ∈ ([([1, 2], [3]), ([], [])] : List (List Byte × List Byte)),
        (∀ x ∈ s.1, x ≠ 0xFF) ∧ (∀ x ∈ s.2, x ≠ 0xFF)) ∧
      find_all_jpegs [0, 0xFF, 0xD8, 1, 2, 0xFF, 0xD9, 3, 0xFF, 0xD8, 0xFF, 0xD9] =
        { ret := 0, jpegs := some [⟨1, 7, 6⟩, ⟨8, 12, 4⟩], count := 2 } :=
  ⟨by simp, by simp,
    (find_all_jpegs_layout [0] [([1, 2], [3]), ([], [])] (by simp) (by simp)).1⟩

/-- C2: chunk-size independence.  However a byte sequence `b` is split into
non-empty chunks of at most `BUFFER_SIZE` bytes (the successive results of
`fread`), also between the two bytes of a marker, the chunked scan, which
carries only the last byte of the previous chunk, returns the ranges of the
single pass over every adjacent byte pair of `b`; this is also what
`find_all_jpegs` returns on the file `b`. -/
theorem find_all_jpegs_chunk_independent (b : List Byte) (chunks : List (List Byte))
    (hsplit : chunks.flatten = b)
    (hchunk : ∀ c ∈ chunks, c ≠ [] ∧ c.length ≤ BUFFER_SIZE) :
    find_all_jpegs_reads chunks false =
        { ret := 0, jpegs := some (singlePass b), count := (singlePass b).length } ∧
      find_all_jpegs_reads chunks false = find_all_jpegs b := by
  have h := find_all_jpegs_reads_eq chunks (fun c hc => (hchunk c hc).1)
  rw [hsplit] at h
  refine ⟨?_, by rw [h, find_all_jpegs_eq]⟩
  rw [h, scanAll_eq_singlePass]

/-- C2, with `00 FF D8 01 FF D9` split inside both of its markers. -/
theorem find_all_jpegs_chunk_independent_witness :
    ([[0, 0xFF], [0xD8, 1, 0xFF], [0xD9]] : List (List Byte)).flatten =
        [0, 0xFF, 0xD8, 1, 0xFF, 0xD9] ∧
      (∀ c ∈ ([[0, 0xFF], [0xD8, 1, 0xFF], [0xD9]] : List (List Byte)),
        c ≠ [] ∧ c.length ≤ BUFFER_SIZE) ∧
      find_all_jpegs_reads [[0, 0xFF], [0xD8, 1, 0xFF], [0xD9]] false =
        { ret := 0, jpegs := some [⟨1, 6, 5⟩], count := 1 } :=
  ⟨by decide, by simp [BUFFER_SIZE],
    (find_all_jpegs_chunk_independent [0, 0xFF, 0xD8, 1, 0xFF, 0xD9]
      [[0, 0xFF], [0xD8, 1, 0xFF], [0xD9]] (by decide) (by simp [BUFFER_SIZE])).1⟩

/-- C3: for every input `b`, well formed or not, every range returned by
`find_all_jpegs` starts on `FF D8` (`b[start] = FF`, `b[start+1] = D8`), ends
on `FF D9` (`b[end-2] = FF`, `b[end-1] = D9`, with `end >= 2`) and lies within
the input (`end <= length b`). -/
theorem find_all_jpegs_markers (b : List Byte) (js : List JpegInfo)
    (hjs : (find_all_jpegs b).jpegs = some js) (r : JpegInfo) (hr : r ∈ js) :
    b[r.start]? = some 0xFF ∧ b[r.start + 1]? = some 0xD8 ∧ 2 ≤ r.end_ ∧
      b[r.end_ - 2]? = some 0xFF ∧ b[r.end_ - 1]? = some 0xD9 ∧ r.end_ ≤ b.length := by
  rw [find_all_jpegs_eq] at hjs
  simp only [Option.some.injEq] at hjs
  subst hjs
  obtain ⟨_, h4, hlen, hsF, hs8, heF, he9⟩ := (scanAll_inv b).1 r hr
  exact ⟨hsF, hs8, by omega, heF, he9, hlen⟩

/-- C3, on the input `D9 FF D8 FF D8 07 FF D9 FF`, whose first `FF D8` is
replaced by the second. -/
theorem find_all_jpegs_markers_witness :
    (find_all_jpegs [0xD9, 0xFF, 0xD8, 0xFF, 0xD8, 7, 0xFF, 0xD9, 0xFF]).jpegs =
        some [⟨3, 8, 5⟩] ∧
      (⟨3, 8, 5⟩ : JpegInfo) ∈ [(⟨3, 8, 5⟩ : JpegInfo)] ∧
      ([0xD9, 0xFF, 0xD8, 0xFF, 0xD8, 7, 0xFF, 0xD9, 0xFF] : List Byte)[3]? = some 0xFF ∧
      ([0xD9, 0xFF, 0xD8, 0xFF, 0xD8, 7, 0xFF, 0xD9, 0xFF] : List Byte)[3 + 1]? = some 0xD8 ∧
      2 ≤ 8 ∧
      ([0xD9, 0xFF, 0xD8, 0xFF, 0xD8, 7, 0xFF, 0xD9, 0xFF] : List Byte)[8 - 2]? = some 0xFF ∧
      ([0xD9, 0xFF, 0xD8, 0xFF, 0xD8, 7, 0xFF, 0xD9, 0xFF] : List Byte)[8 - 1]? = some 0xD9 ∧
      8 ≤ ([0xD9, 0xFF, 0xD8, 0xFF, 0xD8, 7, 0xFF, 0xD9, 0xFF] : List Byte).length :=
  ⟨by decide, by decide,
    find_all_jpegs_markers [0xD9, 0xFF, 0xD8, 0xFF, 0xD8, 7, 0xFF, 0xD9, 0xFF] [⟨3, 8, 5⟩]
      (by decide) ⟨3, 8, 5⟩ (by decide)⟩

/-- C4: the `JpegRange` invariant.  For every input, each range returned by
`find_all_jpegs` has `size = end - start`, `start < end` and `end - start >= 4`;
each range ends at or before the start of the next one, hence of every later
one (the ranges do not overlap), and the starts are strictly increasing. -/
theorem find_all_jpegs_ranges_ordered (b : List Byte) (js : List JpegInfo)
    (hjs : (find_all_jpegs b).jpegs = some js) :
    (∀ r ∈ js, r.size = r.end_ - r.start ∧ r.start < r.end_ ∧ 4 ≤ r.end_ - r.start) ∧
      js.Chain' (fun r r' => r.end_ ≤ r'.start) ∧
      js.Pairwise (fun r r' => r.end_ ≤ r'.start) ∧
      js.Pairwise (fun r r' => r.start < r'.start) := by
  rw [find_all_jpegs_eq] at hjs
  simp only [Option.some.injEq] at hjs
  subst hjs
  obtain ⟨hw, hp⟩ := scanAll_inv b
  refine ⟨?_, hp.chain', hp, pairwise_start_lt b _ hw hp⟩
  intro r hr
  obtain ⟨hsz, h4, _⟩ := hw r hr
  exact ⟨hsz, by omega, by omega⟩

/-- C4, on the input `FF D8 FF D9 FF D8 00 FF D9` of two adjacent segments. -/
theorem find_all_jpegs_ranges_ordered_witness :
    (find_all_jpegs [0xFF, 0xD8, 0xFF, 0xD9, 0xFF, 0xD8, 0, 0xFF, 0xD9]).jpegs =
        some [⟨0, 4, 4⟩, ⟨4, 9, 5⟩] ∧
      ([⟨0, 4, 4⟩, ⟨4, 9, 5⟩] : List JpegInfo).Pairwise (fun r r' => r.end_ ≤ r'.start) :=
  ⟨by decide,
    (find_all_jpegs_ranges_ordered [0xFF, 0xD8, 0xFF, 0xD9, 0xFF, 0xD8, 0, 0xFF, 0xD9]
      [⟨0, 4, 4⟩, ⟨4, 9, 5⟩] (by decide)).2.2.1⟩


/-! ## Properties of the box walker -/

theorem or_shift (a k x : Nat) (hx : x < 2 ^ k) : (a * 2 ^ k) ||| x = a * 2 ^ k + x := by
  rw [Nat.mul_comm]
  exact (Nat.mul_add_lt_is_or hx a).symm

/-- The shifts and ors of `be32` add up the four bytes, most significant
first. -/
theorem be32_eq (h0 h1 h2 h3 : Byte) :
    be32 h0 h1 h2 h3 = h0.val * 2 ^ 24 + h1.val * 2 ^ 16 + h2.val * 2 ^ 8 + h3.val := by
  unfold be32
  simp only [Nat.shiftLeft_eq]
  have b0 := h0.isLt
  have b1 := h1.isLt
  have b2 := h2.isLt
  have b3 := h3.isLt
  rw [or_shift _ 24 _ (by omega)]
  rw [show h0.val * 2 ^ 24 + h1.val * 2 ^ 16 = (h0.val * 2 ^ 8 + h1.val) * 2 ^ 16 by omega,
    or_shift _ 16 _ (by omega)]
  rw [show (h0.val * 2 ^ 8 + h1.val) * 2 ^ 16 + h2.val * 2 ^ 8 =
      ((h0.val * 2 ^ 8 + h1.val) * 2 ^ 8 + h2.val) * 2 ^ 8 by omega,
    or_shift _ 8 _ (by omega)]

theorem be32_lt (h0 h1 h2 h3 : Byte) : be32 h0 h1 h2 h3 < 2 ^ 32 := by
  rw [be32_eq]
  have b0 := h0.isLt
  have b1 := h1.isLt
  have b2 := h2.isLt
  have b3 := h3.isLt
  omega

theorem or_byte (a k : Nat) (h : Byte) :
    (a * 2 ^ (k + 8)) ||| (h.val * 2 ^ k) = (a * 2 ^ 8 + h.val) * 2 ^ k := by
  have hb := h.isLt
  have hlt : h.val * 2 ^ k < 2 ^ (k + 8) := by
    rw [Nat.pow_add, Nat.mul_comm (2 ^ k)]
    exact Nat.mul_lt_mul_of_pos_right (by omega) (Nat.pow_pos (by omega))
  rw [or_shift _ _ _ hlt, Nat.pow_add]
  ring

/-- The shifts and ors of `be64` add up the eight bytes, most significant
first. -/
theorem be64_eq (h0 h1 h2 h3 h4 h5 h6 h7 : Byte) :
    be64 h0 h1 h2 h3 h4 h5 h6 h7 =
      h0.val * 2 ^ 56 + h1.val * 2 ^ 48 + h2.val * 2 ^ 40 + h3.val * 2 ^ 32 +
        h4.val * 2 ^ 24 + h5.val * 2 ^ 16 + h6.val * 2 ^ 8 + h7.val := by
  unfold be64
  simp only [Nat.shiftLeft_eq]
  have e1 := or_byte h0.val 48 h1
  have e2 := or_byte (h0.val * 2 ^ 8 + h1.val) 40 h2
  have e3 := or_byte ((h0.val * 2 ^ 8 + h1.val) * 2 ^ 8 + h2.val) 32 h3
  have e4 := or_byte (((h0.val * 2 ^ 8 + h1.val) * 2 ^ 8 + h2.val) * 2 ^ 8 + h3.val) 24 h4
  have e5 := or_byte
    ((((h0.val * 2 ^ 8 + h1.val) * 2 ^ 8 + h2.val) * 2 ^ 8 + h3.val) * 2 ^ 8 + h4.val) 16 h5
  have e6 := or_byte
    (((((h0.val * 2 ^ 8 + h1.val) * 2 ^ 8 + h2.val) * 2 ^ 8 + h3.val) * 2 ^ 8 + h4.val) * 2 ^ 8 +
      h5.val) 8 h6
  simp only [Nat.reduceAdd] at e1 e2 e3 e4 e5 e6
  rw [e1, e2, e3, e4, e5, e6, or_shift _ 8 _ h7.isLt]
  ring

theorem be64_lt (h0 h1 h2 h3 h4 h5 h6 h7 : Byte) : be64 h0 h1 h2 h3 h4 h5 h6 h7 < 2 ^ 64 := by
  rw [be64_eq]
  have b0 := h0.isLt
  have b1 := h1.isLt
  have b2 := h2.isLt
  have b3 := h3.isLt
  have b4 := h4.isLt
  have b5 := h5.isLt
  have b6 := h6.isLt
  have b7 := h7.isLt
  omega

theorem val_ofNat (a : Nat) : ((Fin.ofNat a : Byte)).val = a % 256 := rfl

/-- Decoding the big-endian bytes of a 32-bit value gives the value back. -/
theorem be32_be32Bytes (n : Nat) (hn : n < 2 ^ 32) :
    be32 (Fin.ofNat (n / 2 ^ 24)) (Fin.ofNat (n / 2 ^ 16)) (Fin.ofNat (n / 2 ^ 8))
      (Fin.ofNat n) = n := by
  rw [be32_eq]
  simp only [val_ofNat]
  omega

/-- Decoding the big-endian bytes of a 64-bit value gives the value back. -/
theorem be64_be64Bytes (n : Nat) (hn : n < 2 ^ 64) :
    be64 (Fin.ofNat (n / 2 ^ 56)) (Fin.ofNat (n / 2 ^ 48)) (Fin.ofNat (n / 2 ^ 40))
      (Fin.ofNat (n / 2 ^ 32)) (Fin.ofNat (n / 2 ^ 24)) (Fin.ofNat (n / 2 ^ 16))
      (Fin.ofNat (n / 2 ^ 8)) (Fin.ofNat n) = n := by
  rw [be64_eq]
  simp only [val_ofNat]
  omega

/-- Every four bytes are the big-endian bytes of the value they decode to. -/
theorem be32Bytes_be32 (h0 h1 h2 h3 : Byte) : be32Bytes (be32 h0 h1 h2 h3) = [h0, h1, h2, h3] := by
  have b0 := h0.isLt
  have b1 := h1.isLt
  have b2 := h2.isLt
  have b3 := h3.isLt
  rw [be32_eq]
  unfold be32Bytes
  simp only [List.cons.injEq, and_true]
  refine ⟨Fin.ext ?_, Fin.ext ?_, Fin.ext ?_, Fin.ext ?_⟩ <;> rw [val_ofNat] <;> omega

/-- Every eight bytes are the big-endian bytes of the value they decode to. -/
theorem be64Bytes_be64 (h0 h1 h2 h3 h4 h5 h6 h7 : Byte) :
    be64Bytes (be64 h0 h1 h2 h3 h4 h5 h6 h7) = [h0, h1, h2, h3, h4, h5, h6, h7] := by
  have b0 := h0.isLt
  have b1 := h1.isLt
  have b2 := h2.isLt
  have b3 := h3.isLt
  have b4 := h4.isLt
  have b5 := h5.isLt
  have b6 := h6.isLt
  have b7 := h7.isLt
  rw [be64_eq]
  unfold be64Bytes
  simp only [List.cons.injEq, and_true]
  refine ⟨Fin.ext ?_, Fin.ext ?_, Fin.ext ?_, Fin.ext ?_, Fin.ext ?_, Fin.ext ?_, Fin.ext ?_,
    Fin.ext ?_⟩ <;> rw [val_ofNat] <;> omega

/-- One iteration of the walk at a header with a 32-bit size `sz` other than 1. -/
theorem findBoxStep_header32 (f : List Byte) (pos end_ : Nat) (target tag : List Byte)
    (sz : Nat) (hpos : pos ≤ PTRDIFF_MAX) (hlen : pos + 8 ≤ f.length)
    (hdr : (f.drop pos).take 8 = be32Bytes sz ++ tag) (htag : tag.length = 4)
    (hsz : sz < 2 ^ 32) (hne : sz ≠ 1) :
    findBoxStep f pos end_ target =
      if sz < 8 then .exit (.invalidSize pos)
      else if (pos + sz) % SIZE_WRAP > end_ then .exit (.beyondBounds pos)
      else if strcmp_eq tag target then
        if PTRDIFF_MAX < sz - 8 then .exit .allocFailed
        else if PTRDIFF_MAX < pos + 8 then .exit .payloadReadFailed
        else if f.length < pos + 8 + (sz - 8) then .exit .payloadReadFailed
        else .exit (.found ((f.drop (pos + 8)).take (sz - 8)))
      else .next ((pos + sz) % SIZE_WRAP) := by
  have h1 : ¬ PTRDIFF_MAX < pos := Nat.not_lt.mpr hpos
  have h2 : ¬ f.length < pos + 8 := Nat.not_lt.mpr hlen
  have hty : ((be32Bytes sz ++ tag).drop 4).take 4 = tag := by
    have : (be32Bytes sz).length = 4 := rfl
    rw [List.drop_left' this, ← htag, List.take_length]
  have hs32 : be32 ((be32Bytes sz ++ tag).getD 0 0) ((be32Bytes sz ++ tag).getD 1 0)
      ((be32Bytes sz ++ tag).getD 2 0) ((be32Bytes sz ++ tag).getD 3 0) = sz := by
    have := be32_be32Bytes sz hsz
    simpa [be32Bytes] using this
  unfold findBoxStep
  simp only [h1, h2, if_false, hdr, hty, hs32, hne, false_and]

/-- One iteration of the walk at a header whose size field is 1, followed by
the extended size `sz`. -/
theorem findBoxStep_header64 (f : List Byte) (pos end_ : Nat) (target tag : List Byte)
    (sz : Nat) (hpos : pos ≤ PTRDIFF_MAX) (hlen : pos + 16 ≤ f.length)
    (hdr : (f.drop pos).take 8 = be32Bytes 1 ++ tag)
    (hext : (f.drop (pos + 8)).take 8 = be64Bytes sz) (htag : tag.length = 4)
    (hsz : sz < 2 ^ 64) :
    findBoxStep f pos end_ target =
      if sz < 16 then .exit (.invalidSize pos)
      else if (pos + sz) % SIZE_WRAP > end_ then .exit (.beyondBounds pos)
      else if strcmp_eq tag target then
        if PTRDIFF_MAX < sz - 16 then .exit .allocFailed
        else if PTRDIFF_MAX < pos + 16 then .exit .payloadReadFailed
        else if f.length < pos + 16 + (sz - 16) then .exit .payloadReadFailed
        else .exit (.found ((f.drop (pos + 16)).take (sz - 16)))
      else .next ((pos + sz) % SIZE_WRAP) := by
  have h1 : ¬ PTRDIFF_MAX < pos := Nat.not_lt.mpr hpos
  have h2 : ¬ f.length < pos + 8 := by omega
  have h3 : ¬ f.length < pos + 16 := Nat.not_lt.mpr hlen
  have hty : ((be32Bytes 1 ++ tag).drop 4).take 4 = tag := by
    have : (be32Bytes 1).length = 4 := rfl
    rw [List.drop_left' this, ← htag, List.take_length]
  have hs32 : be32 ((be32Bytes 1 ++ tag).getD 0 0) ((be32Bytes 1 ++ tag).getD 1 0)
      ((be32Bytes 1 ++ tag).getD 2 0) ((be32Bytes 1 ++ tag).getD 3 0) = 1 := by
    have := be32_be32Bytes 1 (by omega)
    simpa [be32Bytes] using this
  have hs64 : be64 ((be64Bytes sz).getD 0 0) ((be64Bytes sz).getD 1 0)
      ((be64Bytes sz).getD 2 0) ((be64Bytes sz).getD 3 0) ((be64Bytes sz).getD 4 0)
      ((be64Bytes sz).getD 5 0) ((be64Bytes sz).getD 6 0) ((be64Bytes sz).getD 7 0) = sz := by
    have := be64_be64Bytes sz hsz
    simpa [be64Bytes] using this
  unfold findBoxStep
  simp only [h1, h2, h3, if_false, hdr, hext, hty, hs32, hs64, and_false, if_true]

theorem cstr_of_isTag (target : List Byte) (h : IsTag target) : cstr target = target := by
  unfold cstr
  rw [List.takeWhile_eq_self_iff]
  intro c hc
  simpa using h.2 c hc

/-- For a four-byte target without NUL, `strcmp` compares the four tag bytes. -/
theorem strcmp_eq_iff (tag target : List Byte) (htag : tag.length = 4) (h : IsTag target) :
    strcmp_eq tag target = true ↔ tag = target := by
  unfold strcmp_eq
  rw [cstr_of_isTag target h, beq_iff_eq]
  constructor
  · intro e
    have hp : cstr tag <+: tag := List.takeWhile_prefix _
    have hl : (cstr tag).length = tag.length := by rw [e, h.1, htag]
    rw [← e]
    exact (hp.eq_of_length hl).symm
  · intro e
    rw [e, cstr_of_isTag target h]

theorem length_be32Bytes (n : Nat) : (be32Bytes n).length = 4 := rfl

theorem length_be64Bytes (n : Nat) : (be64Bytes n).length = 8 := rfl

theorem length_encode (b : Box) (htag : b.tag.length = 4) : b.encode.length = b.size := by
  unfold Box.encode Box.size Box.headerLen
  cases b.extended <;> simp [length_be32Bytes, length_be64Bytes, htag] <;> omega

theorem headerLen_le_size (b : Box) : 8 ≤ b.size := by
  unfold Box.size Box.headerLen
  cases b.extended
  · simp
  · simp; omega

/-- One iteration of the walk at an encoded box that lies within the range:
the payload is returned on a tag match, else the walk goes on at the end of the
box. -/
theorem findBoxStep_box (pre rest : List Byte) (b : Box) (end_ : Nat) (target : List Byte)
    (hv : b.Valid) (hend : pre.length + b.size ≤ end_) (hmax : end_ ≤ PTRDIFF_MAX) :
    findBoxStep (pre ++ b.encode ++ rest) pre.length end_ target =
      if strcmp_eq b.tag target then .exit (.found b.payload)
      else .next (pre.length + b.size) := by
  obtain ⟨htag, hsize⟩ := hv
  have hlenc := length_encode b htag
  have h8 := headerLen_le_size b
  have hP : PTRDIFF_MAX = 2 ^ 63 - 1 := rfl
  have hW : SIZE_WRAP = 2 ^ 64 := rfl
  have hflen : (pre ++ b.encode ++ rest).length = pre.length + b.size + rest.length := by
    simp [hlenc]; omega
  have hmod : (pre.length + b.size) % SIZE_WRAP = pre.length + b.size :=
    Nat.mod_eq_of_lt (by omega)
  have hdrop : (pre ++ b.encode ++ rest).drop pre.length = b.encode ++ rest := by
    rw [List.append_assoc, List.drop_left]
  cases hext : b.extended with
  | false =>
    have henc : b.encode = be32Bytes b.size ++ b.tag ++ b.payload := by
      simp [Box.encode, hext]
    have hsz : b.size = 8 + b.payload.length := by simp [Box.size, Box.headerLen, hext]
    have hlt : b.size < 2 ^ 32 := by simpa [hext] using hsize
    have hdr : ((pre ++ b.encode ++ rest).drop pre.length).take 8 = be32Bytes b.size ++ b.tag := by
      rw [hdrop, henc, List.append_assoc]
      exact List.take_left' (by simp [length_be32Bytes, htag])
    have hpay : ((pre ++ b.encode ++ rest).drop (pre.length + 8)).take (b.size - 8) =
        b.payload := by
      have e : pre ++ b.encode ++ rest =
          (pre ++ (be32Bytes b.size ++ b.tag)) ++ (b.payload ++ rest) := by
        rw [henc]; simp
      rw [e, List.drop_left' (by simp [length_be32Bytes, htag])]
      exact List.take_left' (by omega)
    rw [findBoxStep_header32 _ _ _ _ b.tag b.size (by omega) (by omega) hdr htag hlt (by omega),
      hmod, hpay]
    have c1 : ¬ b.size < 8 := by omega
    have c2 : ¬ pre.length + b.size > end_ := by omega
    have c3 : ¬ PTRDIFF_MAX < b.size - 8 := by omega
    have c4 : ¬ PTRDIFF_MAX < pre.length + 8 := by omega
    have c5 : ¬ (pre ++ b.encode ++ rest).length < pre.length + 8 + (b.size - 8) := by omega
    simp only [c1, c2, c3, c4, c5, if_false]
  | true =>
    have henc : b.encode = be32Bytes 1 ++ b.tag ++ be64Bytes b.size ++ b.payload := by
      simp [Box.encode, hext]
    have hsz : b.size = 16 + b.payload.length := by simp [Box.size, Box.headerLen, hext]
    have hlt : b.size < 2 ^ 64 := by simpa [hext] using hsize
    have hdr : ((pre ++ b.encode ++ rest).drop pre.length).take 8 = be32Bytes 1 ++ b.tag := by
      rw [hdrop, henc, List.append_assoc, List.append_assoc]
      exact List.take_left' (by simp [length_be32Bytes, htag])
    have hx : ((pre ++ b.encode ++ rest).drop (pre.length + 8)).take 8 = be64Bytes b.size := by
      have e : pre ++ b.encode ++ rest =
          (pre ++ (be32Bytes 1 ++ b.tag)) ++ (be64Bytes b.size ++ (b.payload ++ rest)) := by
        rw [henc]; simp
      rw [e, List.drop_left' (by simp [length_be32Bytes, htag])]
      exact List.take_left' (length_be64Bytes _)
    have hpay : ((pre ++ b.encode ++ rest).drop (pre.length + 16)).take (b.size - 16) =
        b.payload := by
      have e : pre ++ b.encode ++ rest =
          (pre ++ (be32Bytes 1 ++ b.tag ++ be64Bytes b.size)) ++ (b.payload ++ rest) := by
        rw [henc]; simp
      rw [e, List.drop_left' (by simp [length_be32Bytes, length_be64Bytes, htag])]
      exact List.take_left' (by omega)
    rw [findBoxStep_header64 _ _ _ _ b.tag b.size (by omega) (by omega) hdr hx htag hlt,
      hmod, hpay]
    have c1 : ¬ b.size < 16 := by omega
    have c2 : ¬ pre.length + b.size > end_ := by omega
    have c3 : ¬ PTRDIFF_MAX < b.size - 16 := by omega
    have c4 : ¬ PTRDIFF_MAX < pre.length + 16 := by omega
    have c5 : ¬ (pre ++ b.encode ++ rest).length < pre.length + 16 + (b.size - 16) := by omega
    simp only [c1, c2, c3, c4, c5, if_false]

theorem encodeBoxes_cons (b : Box) (bs : List Box) :
    encodeBoxes (b :: bs) = b.encode ++ encodeBoxes bs := by
  simp [encodeBoxes]

theorem encodeBoxes_append (as bs : List Box) :
    encodeBoxes (as ++ bs) = encodeBoxes as ++ encodeBoxes bs := by
  simp [encodeBoxes]

/-- The walk passes over boxes of the range whose tag does not match: each
costs one iteration. -/
theorem findBoxLoop_skip (rest : List Byte) (end_ : Nat) (target : List Byte)
    (hmax : end_ ≤ PTRDIFF_MAX) (boxes : List Box) :
    ∀ (pre : List Byte) (fuel : Nat),
      (∀ b ∈ boxes, b.Valid ∧ strcmp_eq b.tag target = false) →
      pre.length + (encodeBoxes boxes).length ≤ end_ →
      findBoxLoop (pre ++ encodeBoxes boxes ++ rest) end_ target (boxes.length + fuel)
          pre.length =
        findBoxLoop (pre ++ encodeBoxes boxes ++ rest) end_ target fuel
          (pre.length + (encodeBoxes boxes).length) := by
  induction boxes with
  | nil => intro pre fuel _ _; simp [encodeBoxes]
  | cons b bs ih =>
    intro pre fuel h hend
    obtain ⟨hv, hne⟩ := h b (List.mem_cons_self b bs)
    have hbs := fun a ha => h a (List.mem_cons_of_mem b ha)
    have hlenc := length_encode b hv.1
    have h8 := headerLen_le_size b
    have hP : PTRDIFF_MAX = 2 ^ 63 - 1 := rfl
    have hW : SIZE_WRAP = 2 ^ 64 := rfl
    rw [encodeBoxes_cons, List.length_append, hlenc] at hend
    have hcond : (pre.length + 8) % SIZE_WRAP ≤ end_ := by
      rw [Nat.mod_eq_of_lt (by omega)]; omega
    have hstep := findBoxStep_box pre (encodeBoxes bs ++ rest) b end_ target hv (by omega) hmax
    rw [hne] at hstep
    have hf : pre ++ encodeBoxes (b :: bs) ++ rest =
        pre ++ b.encode ++ (encodeBoxes bs ++ rest) := by
      rw [encodeBoxes_cons]; simp
    have hf2 : pre ++ b.encode ++ (encodeBoxes bs ++ rest) =
        (pre ++ b.encode) ++ encodeBoxes bs ++ rest := by simp
    have hl : (pre ++ b.encode).length = pre.length + b.size := by simp [hlenc]
    have hfuel : (b :: bs).length + fuel = (bs.length + fuel) + 1 := by
      simp only [List.length_cons]; omega
    have ih' := ih (pre ++ b.encode) fuel hbs (by rw [hl]; omega)
    rw [hl] at ih'
    rw [hf, hfuel, findBoxLoop, if_pos hcond, hstep]
    simp only [Bool.false_eq_true, if_false]
    rw [hf2, ih', encodeBoxes_cons, List.length_append, hlenc]
    congr 1
    omega

theorem strcmp_eq_false_of_ne (tag target : List Byte) (htag : tag.length = 4)
    (h : IsTag target) (hne : tag ≠ target) : strcmp_eq tag target = false := by
  cases hs : strcmp_eq tag target with
  | false => rfl
  | true => exact absurd ((strcmp_eq_iff tag target htag h).mp hs) hne

/-- The walk over encoded sibling boxes returns the payload of the first box
that carries the target tag, which is the part of the source between the end
of its header and its end. -/
theorem findBox_streaming_found (pre rest target : List Byte) (before after : List Box)
    (b : Box) (end_ fuel : Nat) (htarget : IsTag target)
    (hvalid : ∀ a ∈ before ++ b :: after, a.Valid)
    (hfirst : ∀ a ∈ before, a.tag ≠ target) (hb : b.tag = target)
    (hend : end_ = pre.length + (encodeBoxes (before ++ b :: after)).length)
    (hmax : end_ ≤ PTRDIFF_MAX) (hfuel : before.length < fuel) :
    findBox_streaming fuel (pre ++ encodeBoxes (before ++ b :: after) ++ rest) pre.length end_
        target = some (.found b.payload) ∧
      b.payload =
        ((pre ++ encodeBoxes (before ++ b :: after) ++ rest).drop
          (pre.length + (encodeBoxes before).length + b.headerLen)).take
            (b.size - b.headerLen) ∧
      b.payload.length = b.size - b.headerLen := by
  have hvb : b.Valid := hvalid b (by simp)
  have hlenc := length_encode b hvb.1
  have h8 := headerLen_le_size b
  have hP : PTRDIFF_MAX = 2 ^ 63 - 1 := rfl
  have hW : SIZE_WRAP = 2 ^ 64 := rfl
  have hskip : ∀ a ∈ before, a.Valid ∧ strcmp_eq a.tag target = false := by
    intro a ha
    have hv : a.Valid := hvalid a (by simp [ha])
    exact ⟨hv, strcmp_eq_false_of_ne a.tag target hv.1 htarget (hfirst a ha)⟩
  have hlen : (encodeBoxes (before ++ b :: after)).length =
      (encodeBoxes before).length + b.size + (encodeBoxes after).length := by
    rw [encodeBoxes_append, encodeBoxes_cons]
    simp [hlenc]; omega
  have hf : pre ++ encodeBoxes (before ++ b :: after) ++ rest =
      pre ++ encodeBoxes before ++ (b.encode ++ encodeBoxes after ++ rest) := by
    rw [encodeBoxes_append, encodeBoxes_cons]; simp
  have hf2 : pre ++ encodeBoxes before ++ (b.encode ++ encodeBoxes after ++ rest) =
      (pre ++ encodeBoxes before) ++ b.encode ++ (encodeBoxes after ++ rest) := by simp
  have hl2 : (pre ++ encodeBoxes before).length = pre.length + (encodeBoxes before).length := by
    simp
  have hsize : b.size = b.headerLen + b.payload.length := rfl
  refine ⟨?_, ?_, by omega⟩
  · obtain ⟨k, rfl⟩ : ∃ k, fuel = before.length + (k + 1) :=
      ⟨fuel - before.length - 1, by omega⟩
    unfold findBox_streaming
    rw [hf, findBoxLoop_skip _ end_ target hmax before pre (k + 1) hskip (by omega), hf2, ← hl2,
      findBoxLoop]
    have hcond : ((pre ++ encodeBoxes before).length + 8) % SIZE_WRAP ≤ end_ := by
      rw [Nat.mod_eq_of_lt (by omega)]; omega
    rw [if_pos hcond, findBoxStep_box _ _ b end_ target hvb (by omega) hmax,
      (strcmp_eq_iff b.tag target hvb.1 htarget).mpr hb]
    rfl
  · have e : pre ++ encodeBoxes (before ++ b :: after) ++ rest =
        (pre ++ encodeBoxes before ++ b.encode.take b.headerLen) ++
          (b.payload ++ (encodeBoxes after ++ rest)) := by
      rw [hf]
      have : b.encode = b.encode.take b.headerLen ++ b.payload := by
        unfold Box.encode Box.headerLen
        cases b.extended
        · have : (be32Bytes b.size ++ b.tag).length = 8 := by simp [length_be32Bytes, hvb.1]
          simp only [Bool.false_eq_true, if_false]
          rw [List.take_left' this]
        · have : (be32Bytes 1 ++ b.tag ++ be64Bytes b.size).length = 16 := by
            simp [length_be32Bytes, length_be64Bytes, hvb.1]
          simp only [if_true]
          rw [List.take_left' this]
      conv_lhs => rw [this]
      simp
    have hl3 : (pre ++ encodeBoxes before ++ b.encode.take b.headerLen).length =
        pre.length + (encodeBoxes before).length + b.headerLen := by
      simp [hlenc]; omega
    rw [e, List.drop_left' hl3]
    exact (List.take_left' (by omega)).symm

/-- A walk that has left its loop leaves it the same way with more fuel. -/
theorem findBoxLoop_fuel_mono (f : List Byte) (end_ : Nat) (target : List Byte) (k : Nat) :
    ∀ (fuel pos : Nat) (e : WalkExit), findBoxLoop f end_ target fuel pos = some e →
      findBoxLoop f end_ target (fuel + k) pos = some e := by
  intro fuel
  induction fuel with
  | zero => intro pos e h; simp [findBoxLoop] at h
  | succ n ih =>
    intro pos e h
    rw [show n + 1 + k = (n + k) + 1 by omega]
    unfold findBoxLoop at h ⊢
    by_cases hc : (pos + 8) % SIZE_WRAP ≤ end_
    · rw [if_pos hc] at h ⊢
      cases hs : findBoxStep f pos end_ target with
      | next q =>
        rw [hs] at h
        exact ih q e h
      | exit e' =>
        rw [hs] at h
        exact h
    · rw [if_neg hc] at h ⊢
      exact h

/-! ### The claims about `findBox_streaming` -/

/-- C5: on a well-formed sibling sequence that tiles the range `[start, end)`
and has a box with the target tag, `findBox_streaming` succeeds and returns
the payload of the first such box `b`: the source bytes
`[pos + header_len, pos + size)`, where `pos` is the offset of `b`, of length
`size - header_len`. -/
theorem findBox_streaming_first_match (pre rest target : List Byte) (before after : List Box)
    (b : Box) (end_ fuel : Nat) (htarget : IsTag target)
    (hvalid : ∀ a ∈ before ++ b :: after, a.Valid)
    (hfirst : ∀ a ∈ before, a.tag ≠ target) (hb : b.tag = target)
    (hend : end_ = pre.length + (encodeBoxes (before ++ b :: after)).length)
    (hmax : end_ ≤ PTRDIFF_MAX) (hfuel : before.length < fuel) :
    findBox_streaming fuel (pre ++ encodeBoxes (before ++ b :: after) ++ rest) pre.length end_
        target = some (.found b.payload) ∧
      b.payload =
        ((pre ++ encodeBoxes (before ++ b :: after) ++ rest).drop
          (pre.length + (encodeBoxes before).length + b.headerLen)).take
            (b.size - b.headerLen) ∧
      b.payload.length = b.size - b.headerLen :=
  findBox_streaming_found pre rest target before after b end_ fuel htarget hvalid hfirst hb hend
    hmax hfuel

/-- The target `moov`. -/
theorem isTag_moov : IsTag tagMoov := by
  refine ⟨rfl, ?_⟩
  intro c hc
  simp only [tagMoov, List.mem_cons, List.mem_singleton, List.not_mem_nil, or_false] at hc
  rcases hc with rfl | rfl | rfl | rfl <;> decide

/-- The target `uuid`. -/
theorem isTag_uuid : IsTag tagUuid := by
  refine ⟨rfl, ?_⟩
  intro c hc
  simp only [tagUuid, List.mem_cons, List.mem_singleton, List.not_mem_nil, or_false] at hc
  rcases hc with rfl | rfl | rfl | rfl <;> decide

theorem valid_samples : sampleA.Valid ∧ sampleTarget.Valid ∧ sampleB.Valid := by
  simp [Box.Valid, Box.size, Box.headerLen, sampleA, sampleTarget, sampleB, tagMoov]

/-- C5, on the boxes `[A (size 20), moov (size 16), B (size 8)]` at offset 0:
the walk for `moov` returns the 8 bytes at offsets `[28, 36)`. -/
theorem findBox_streaming_first_match_witness :
    findBox_streaming 2 ([] ++ encodeBoxes ([sampleA] ++ sampleTarget :: [sampleB]) ++ [])
        0 44 tagMoov = some (.found [1, 2, 3, 4, 5, 6, 7, 8]) ∧
      ([1, 2, 3, 4, 5, 6, 7, 8] : List Byte) =
        (([] ++ encodeBoxes ([sampleA] ++ sampleTarget :: [sampleB]) ++ []).drop 28).take 8 ∧
      8 = 16 - 8 :=
  findBox_streaming_first_match [] [] tagMoov [sampleA] [sampleB] sampleTarget 44 2 isTag_moov
    (by
      intro a ha
      simp only [List.singleton_append, List.mem_cons, List.mem_singleton, List.not_mem_nil,
        or_false] at ha
      rcases ha with rfl | rfl | rfl
      · exact valid_samples.1
      · exact valid_samples.2.1
      · exact valid_samples.2.2)
    (by
      intro a ha
      simp only [List.mem_singleton] at ha
      subst ha
      decide)
    rfl (by decide) (by decide) (by decide)

/-- C9: when the range is tiled by boxes with valid in-range sizes, followed
by fewer than 8 trailing bytes, and no tag equals the target,
`findBox_streaming` leaves its loop at the end of the range: it returns 0 and
sets no payload. -/
theorem findBox_streaming_no_match (pre trailing rest target : List Byte) (boxes : List Box)
    (end_ fuel : Nat) (htarget : IsTag target) (hvalid : ∀ a ∈ boxes, a.Valid)
    (hnone : ∀ a ∈ boxes, a.tag ≠ target) (htrail : trailing.length < 8)
    (hend : end_ = pre.length + (encodeBoxes boxes).length + trailing.length)
    (hmax : end_ ≤ PTRDIFF_MAX) (hfuel : boxes.length < fuel) :
    findBox_streaming fuel (pre ++ encodeBoxes boxes ++ trailing ++ rest) pre.length end_ target =
        some .endOfRange ∧
      WalkExit.endOfRange.ret = 0 ∧ WalkExit.endOfRange.result = none := by
  have hP : PTRDIFF_MAX = 2 ^ 63 - 1 := rfl
  have hW : SIZE_WRAP = 2 ^ 64 := rfl
  have hskip : ∀ a ∈ boxes, a.Valid ∧ strcmp_eq a.tag target = false := fun a ha =>
    ⟨hvalid a ha, strcmp_eq_false_of_ne a.tag target (hvalid a ha).1 htarget (hnone a ha)⟩
  refine ⟨?_, rfl, rfl⟩
  obtain ⟨k, rfl⟩ : ∃ k, fuel = boxes.length + (k + 1) :=
    ⟨fuel - boxes.length - 1, by omega⟩
  unfold findBox_streaming
  rw [List.append_assoc (pre ++ encodeBoxes boxes),
    findBoxLoop_skip _ end_ target hmax boxes pre (k + 1) hskip (by omega), findBoxLoop]
  have hcond : ¬ (pre.length + (encodeBoxes boxes).length + 8) % SIZE_WRAP ≤ end_ := by
    rw [Nat.mod_eq_of_lt (by omega)]; omega
  rw [if_neg hcond]

/-- C9, on the boxes `[A (size 20), B (size 8)]` followed by three trailing
bytes. -/
theorem findBox_streaming_no_match_witness :
    findBox_streaming 3 ([] ++ encodeBoxes [sampleA, sampleB] ++ [9, 9, 9] ++ [])
        0 31 tagMoov = some .endOfRange :=
  (findBox_streaming_no_match [] [9, 9, 9] [] tagMoov [sampleA, sampleB] 31 3 isTag_moov
    (by
      intro a ha
      simp only [List.mem_cons, List.mem_singleton, List.not_mem_nil, or_false] at ha
      rcases ha with rfl | rfl
      · exact valid_samples.1
      · exact valid_samples.2.2)
    (by
      intro a ha
      simp only [List.mem_cons, List.mem_singleton, List.not_mem_nil, or_false] at ha
      rcases ha with rfl | rfl <;> decide)
    (by decide) rfl (by decide) (by decide)).1

/-- One iteration of the walk on a header that declares `size`, in the 32-bit
field or, when `ext`, in the extended field: all its branches. -/
theorem findBoxStep_header (f : List Byte) (pos end_ : Nat) (target tag : List Byte)
    (ext : Bool) (size : Nat) (hpos : pos ≤ PTRDIFF_MAX)
    (hhdr : (f.drop pos).take (if ext then 16 else 8) = headerBytes ext size tag)
    (htag : tag.length = 4) (hfield : size < (if ext then 2 ^ 64 else 2 ^ 32))
    (hne : ext = false → size ≠ 1) :
    findBoxStep f pos end_ target =
      if size < (if ext then 16 else 8) then .exit (.invalidSize pos)
      else if (pos + size) % SIZE_WRAP > end_ then .exit (.beyondBounds pos)
      else if strcmp_eq tag target then
        if PTRDIFF_MAX < size - (if ext then 16 else 8) then .exit .allocFailed
        else if PTRDIFF_MAX < pos + (if ext then 16 else 8) then .exit .payloadReadFailed
        else if f.length < pos + (if ext then 16 else 8) + (size - (if ext then 16 else 8)) then
          .exit .payloadReadFailed
        else .exit (.found ((f.drop (pos + (if ext then 16 else 8))).take
          (size - (if ext then 16 else 8))))
      else .next ((pos + size) % SIZE_WRAP) := by
  cases ext with
  | false =>
    simp only [Bool.false_eq_true, if_false, headerBytes] at hhdr hfield ⊢
    have hl : ((f.drop pos).take 8).length = 8 := by
      rw [hhdr]; simp [length_be32Bytes, htag]
    rw [List.length_take, List.length_drop] at hl
    exact findBoxStep_header32 f pos end_ target tag size hpos (by omega) hhdr htag hfield
      (hne rfl)
  | true =>
    simp only [if_true, headerBytes] at hhdr hfield ⊢
    have hl : ((f.drop pos).take 16).length = 16 := by
      rw [hhdr]; simp [length_be32Bytes, length_be64Bytes, htag]
    rw [List.length_take, List.length_drop] at hl
    have h8 : (f.drop pos).take 8 = be32Bytes 1 ++ tag := by
      have : (f.drop pos).take 8 = ((f.drop pos).take 16).take 8 := by
        rw [List.take_take]; rfl
      rw [this, hhdr]
      exact List.take_left' (by simp [length_be32Bytes, htag])
    have hx : (f.drop (pos + 8)).take 8 = be64Bytes size := by
      have : (f.drop (pos + 8)).take 8 = ((f.drop pos).take 16).drop 8 := by
        rw [List.drop_take, List.drop_drop]
      rw [this, hhdr]
      exact List.drop_left' (by simp [length_be32Bytes, htag])
    exact findBoxStep_header64 f pos end_ target tag size hpos (by omega) h8 hx htag hfield

/-- C6: extended-size boxes.  At a header whose 32-bit size field is 1
(`ext`), `findBox_streaming` takes the box size from the following 8 bytes,
read as a 64-bit big-endian integer, and uses a 16-byte header; for every other
value of the size field the size is the 32-bit big-endian value and the header
has 8 bytes.  First part: every branch of the iteration is decided by that size
and header length.  Second part: when the size is valid and the box lies in the
range and in the file, the next sibling is looked up at `pos + size`, and on a
tag match the payload returned is the source bytes
`[pos + header_len, pos + size)`. -/
theorem findBoxStep_size_field (f : List Byte) (pos end_ : Nat) (target tag : List Byte)
    (ext : Bool) (size : Nat) (hpos : pos ≤ PTRDIFF_MAX)
    (hhdr : (f.drop pos).take (if ext then 16 else 8) = headerBytes ext size tag)
    (htag : tag.length = 4) (hfield : size < (if ext then 2 ^ 64 else 2 ^ 32))
    (hne : ext = false → size ≠ 1) :
    (findBoxStep f pos end_ target =
      if size < (if ext then 16 else 8) then .exit (.invalidSize pos)
      else if (pos + size) % SIZE_WRAP > end_ then .exit (.beyondBounds pos)
      else if strcmp_eq tag target then
        if PTRDIFF_MAX < size - (if ext then 16 else 8) then .exit .allocFailed
        else if PTRDIFF_MAX < pos + (if ext then 16 else 8) then .exit .payloadReadFailed
        else if f.length < pos + (if ext then 16 else 8) + (size - (if ext then 16 else 8)) then
          .exit .payloadReadFailed
        else .exit (.found ((f.drop (pos + (if ext then 16 else 8))).take
          (size - (if ext then 16 else 8))))
      else .next ((pos + size) % SIZE_WRAP)) ∧
    ((if ext then 16 else 8) ≤ size → pos + size ≤ end_ → pos + size ≤ f.length →
      end_ ≤ PTRDIFF_MAX →
      findBoxStep f pos end_ target =
        if strcmp_eq tag target then
          .exit (.found ((f.drop (pos + (if ext then 16 else 8))).take
            (size - (if ext then 16 else 8))))
        else .next (pos + size)) := by
  have h := findBoxStep_header f pos end_ target tag ext size hpos hhdr htag hfield hne
  refine ⟨h, ?_⟩
  intro hvalid hin hfile hmax
  have hP : PTRDIFF_MAX = 2 ^ 63 - 1 := rfl
  have hW : SIZE_WRAP = 2 ^ 64 := rfl
  have hmod : (pos + size) % SIZE_WRAP = pos + size := Nat.mod_eq_of_lt (by omega)
  have c1 : ¬ size < (if ext then 16 else 8) := by omega
  have c2 : ¬ pos + size > end_ := by omega
  have c3 : ¬ PTRDIFF_MAX < size - (if ext then 16 else 8) := by omega
  have c4 : ¬ PTRDIFF_MAX < pos + (if ext then 16 else 8) := by omega
  have c5 : ¬ f.length < pos + (if ext then 16 else 8) + (size - (if ext then 16 else 8)) := by
    omega
  rw [h, hmod]
  simp only [c1, c2, c3, c4, c5, if_false]

/-- C6, on a box `uuid` with size field 1, extended size 18 and the payload
`AA BB`: the walk for `uuid` returns the bytes at offsets `[16, 18)`. -/
theorem findBoxStep_size_field_witness :
    findBoxStep (headerBytes true 18 tagUuid ++ [0xAA, 0xBB]) 0 18 tagUuid =
      .exit (.found [0xAA, 0xBB]) :=
  ((findBoxStep_size_field (headerBytes true 18 tagUuid ++ [0xAA, 0xBB]) 0 18 tagUuid tagUuid
    true 18 (by decide) (by decide) (by decide) (by decide) (by decide)).2
    (by decide) (by decide) (by decide) (by decide)).trans (by decide)

/-- C8: an invalid box size is rejected.  When the walk, past boxes that do
not match, reaches a header that declares a size smaller than its header length
(a 32-bit size of 0 or 2..7, or a size field of 1 followed by an extended size
below 16), `findBox_streaming` leaves by the branch `Invalid box size`: it
returns 0 and sets no payload, whatever follows in the range. -/
theorem findBox_streaming_invalid_size (pre rest target tag : List Byte) (boxes : List Box)
    (ext : Bool) (size end_ fuel : Nat) (htarget : IsTag target)
    (hvalid : ∀ a ∈ boxes, a.Valid) (hnone : ∀ a ∈ boxes, a.tag ≠ target)
    (htag : tag.length = 4) (hsmall : if ext then size < 16 else size < 8 ∧ size ≠ 1)
    (hend : pre.length + (encodeBoxes boxes).length + 8 ≤ end_) (hmax : end_ ≤ PTRDIFF_MAX)
    (hfuel : boxes.length < fuel) :
    findBox_streaming fuel (pre ++ encodeBoxes boxes ++ (headerBytes ext size tag ++ rest))
        pre.length end_ target =
        some (.invalidSize (pre.length + (encodeBoxes boxes).length)) ∧
      (WalkExit.invalidSize (pre.length + (encodeBoxes boxes).length)).ret = 0 ∧
      (WalkExit.invalidSize (pre.length + (encodeBoxes boxes).length)).result = none := by
  have hP : PTRDIFF_MAX = 2 ^ 63 - 1 := rfl
  have hW : SIZE_WRAP = 2 ^ 64 := rfl
  have hskip : ∀ a ∈ boxes, a.Valid ∧ strcmp_eq a.tag target = false := fun a ha =>
    ⟨hvalid a ha, strcmp_eq_false_of_ne a.tag target (hvalid a ha).1 htarget (hnone a ha)⟩
  refine ⟨?_, rfl, rfl⟩
  obtain ⟨k, rfl⟩ : ∃ k, fuel = boxes.length + (k + 1) :=
    ⟨fuel - boxes.length - 1, by omega⟩
  unfold findBox_streaming
  rw [findBoxLoop_skip _ end_ target hmax boxes pre (k + 1) hskip (by omega), findBoxLoop]
  have hcond : (pre.length + (encodeBoxes boxes).length + 8) % SIZE_WRAP ≤ end_ := by
    rw [Nat.mod_eq_of_lt (by omega)]; omega
  have hl : (headerBytes ext size tag).length = if ext then 16 else 8 := by
    unfold headerBytes
    cases ext <;> simp [length_be32Bytes, length_be64Bytes, htag]
  have hhdr : ((pre ++ encodeBoxes boxes ++ (headerBytes ext size tag ++ rest)).drop
      (pre.length + (encodeBoxes boxes).length)).take (if ext then 16 else 8) =
      headerBytes ext size tag := by
    rw [List.drop_left' (by simp)]
    exact List.take_left' hl
  have hfield : size < (if ext then 2 ^ 64 else 2 ^ 32) := by
    cases ext
    · simp only [Bool.false_eq_true, if_false] at hsmall ⊢; omega
    · simp only [if_true] at hsmall ⊢; omega
  have hne : ext = false → size ≠ 1 := by
    intro he
    rw [he] at hsmall
    simp only [Bool.false_eq_true, if_false] at hsmall
    exact hsmall.2
  have hlt : size < (if ext then 16 else 8) := by
    cases ext
    · simp only [Bool.false_eq_true, if_false] at hsmall ⊢; omega
    · simpa using hsmall
  rw [if_pos hcond, findBoxStep_header _ _ end_ target tag ext size (by omega) hhdr htag hfield hne,
    if_pos hlt]

/-- C8, on a box `A`, then a header declaring size 7, then a box `moov`. -/
theorem findBox_streaming_invalid_size_witness :
    findBox_streaming 2
        ([] ++ encodeBoxes [sampleA] ++
          (headerBytes false 7 [0x42, 0x42, 0x42, 0x42] ++ sampleTarget.encode))
        0 44 tagMoov = some (.invalidSize 20) :=
  (findBox_streaming_invalid_size [] sampleTarget.encode tagMoov [0x42, 0x42, 0x42, 0x42]
    [sampleA] false 7 44 2 isTag_moov
    (by
      intro a ha
      simp only [List.mem_singleton] at ha
      subst ha
      exact valid_samples.1)
    (by
      intro a ha
      simp only [List.mem_singleton] at ha
      subst ha
      decide)
    rfl (by decide) (by decide) (by decide) (by decide)).1

/-- When `pos + size` does not reach `2^64`, a box that ends beyond the range
is rejected by the branch `extends beyond file bounds`. -/
theorem findBoxStep_overrun_rejected (f : List Byte) (pos end_ : Nat) (target tag : List Byte)
    (ext : Bool) (size : Nat) (hpos : pos ≤ PTRDIFF_MAX)
    (hhdr : (f.drop pos).take (if ext then 16 else 8) = headerBytes ext size tag)
    (htag : tag.length = 4) (hfield : size < (if ext then 2 ^ 64 else 2 ^ 32))
    (hvalid : (if ext then 16 else 8) ≤ size) (hover : end_ < pos + size)
    (hnowrap : pos + size < 2 ^ 64) :
    findBoxStep f pos end_ target = .exit (.beyondBounds pos) := by
  have hne : ext = false → size ≠ 1 := by
    intro he
    rw [he] at hvalid
    simp only [Bool.false_eq_true, if_false] at hvalid
    omega
  have hW : SIZE_WRAP = 2 ^ 64 := rfl
  have hmod : (pos + size) % SIZE_WRAP = pos + size := Nat.mod_eq_of_lt (by omega)
  have c1 : ¬ size < (if ext then 16 else 8) := by omega
  rw [findBoxStep_header f pos end_ target tag ext size hpos hhdr htag hfield hne, hmod,
    if_neg c1, if_pos hover]

/-- C7 fails on the code.  In `overrunSample` the header at offset 24 declares
the extended size `2^64 - 16`, so that `pos + size` exceeds the range end 40;
the sum wraps to 8, the bounds check passes, the walk goes on at offset 8, and
the call returns the bytes `[16, 24)` as the payload of a box `moov`. -/
theorem findBox_streaming_overrun_accepted :
    (overrunSample.drop 24).take 16 = headerBytes true (2 ^ 64 - 16) [0x73, 0x6B, 0x69, 0x70] ∧
      40 < 24 + (2 ^ 64 - 16) ∧
      findBoxStep overrunSample 24 40 tagMoov = .next 8 ∧
      ∀ k, findBox_streaming (3 + k) overrunSample 0 40 tagMoov =
        some (.found [1, 2, 3, 4, 5, 6, 7, 8]) := by
  refine ⟨by decide, by decide, by decide, fun k => ?_⟩
  exact findBoxLoop_fuel_mono overrunSample 40 tagMoov k 3 0 _ (by decide)


/-! ## Properties of the EXIF locator -/

theorem getD_take_drop (m : List Byte) (pos i : Nat) (h : i < 8) :
    ((m.drop pos).take 8).getD i 0 = m.getD (pos + i) 0 := by
  simp [List.getD_eq_getElem?_getD, List.getElem?_take, h]

/-- On a buffer of at most `PTRDIFF_MAX - 8` bytes, an iteration of the
in-memory walk is an iteration of `findBox_streaming` over the whole buffer
with the target `uuid`. -/
theorem uuidWalkStep_eq_findBoxStep (m : List Byte) (pos : Nat) (hpos : pos + 8 ≤ m.length)
    (hmax : m.length ≤ PTRDIFF_MAX) :
    uuidWalkStep m pos = findBoxStep m pos m.length tagUuid := by
  have hP : PTRDIFF_MAX = 2 ^ 63 - 1 := rfl
  have hW : SIZE_WRAP = 2 ^ 64 := rfl
  have ht : (((m.drop pos).take 8).drop 4).take 4 = (m.drop (pos + 4)).take 4 := by
    rw [List.drop_take, List.drop_drop, List.take_take]
    rfl
  have h1 : ¬ PTRDIFF_MAX < pos := by omega
  have h2 : ¬ m.length < pos + 8 := by omega
  unfold uuidWalkStep findBoxStep
  simp only [h1, h2, if_false, ht, getD_take_drop m pos 0 (by omega),
    getD_take_drop m pos 1 (by omega), getD_take_drop m pos 2 (by omega),
    getD_take_drop m pos 3 (by omega), getD_take_drop m (pos + 8) 0 (by omega),
    getD_take_drop m (pos + 8) 1 (by omega), getD_take_drop m (pos + 8) 2 (by omega),
    getD_take_drop m (pos + 8) 3 (by omega), getD_take_drop m (pos + 8) 4 (by omega),
    getD_take_drop m (pos + 8) 5 (by omega), getD_take_drop m (pos + 8) 6 (by omega),
    getD_take_drop m (pos + 8) 7 (by omega), Nat.add_zero, Nat.add_assoc, Nat.reduceAdd]
  have b32 := be32_lt (m.getD pos 0) (m.getD (pos + 1) 0) (m.getD (pos + 2) 0)
    (m.getD (pos + 3) 0)
  have b64 := be64_lt (m.getD (pos + 8) 0) (m.getD (pos + 9) 0) (m.getD (pos + 10) 0)
    (m.getD (pos + 11) 0) (m.getD (pos + 12) 0) (m.getD (pos + 13) 0) (m.getD (pos + 14) 0)
    (m.getD (pos + 15) 0)
  generalize be32 (m.getD pos 0) (m.getD (pos + 1) 0) (m.getD (pos + 2) 0)
    (m.getD (pos + 3) 0) = s32 at b32 ⊢
  generalize be64 (m.getD (pos + 8) 0) (m.getD (pos + 9) 0) (m.getD (pos + 10) 0)
    (m.getD (pos + 11) 0) (m.getD (pos + 12) 0) (m.getD (pos + 13) 0) (m.getD (pos + 14) 0)
    (m.getD (pos + 15) 0) = s64 at b64 ⊢
  rw [hP] at hmax
  simp only [hW, hP]
  split_ifs <;> first | rfl | omega

theorem findBoxStep_next_le (f : List Byte) (pos end_ p : Nat) (target : List Byte)
    (h : findBoxStep f pos end_ target = .next p) : p ≤ end_ := by
  unfold findBoxStep at h
  by_cases c1 : PTRDIFF_MAX < pos
  · rw [if_pos c1] at h; cases h
  rw [if_neg c1] at h
  by_cases c2 : f.length < pos + 8
  · rw [if_pos c2] at h; cases h
  rw [if_neg c2] at h
  dsimp only at h
  generalize be32 _ _ _ _ = s32 at h
  generalize be64 _ _ _ _ _ _ _ _ = s64 at h
  generalize (if s32 = 1 then s64 else s32) = boxSize at h
  generalize (if s32 = 1 then 16 else 8) = headerSize at h
  split_ifs at h
  all_goals cases h
  omega

/-- On a buffer of at most `PTRDIFF_MAX` bytes, the in-memory walk is
`findBox_streaming` over the whole buffer with the target `uuid`. -/
theorem uuidWalkLoop_eq_findBoxLoop (m : List Byte) (hmax : m.length ≤ PTRDIFF_MAX) :
    ∀ (fuel pos : Nat), pos ≤ m.length →
      uuidWalkLoop m fuel pos = findBoxLoop m m.length tagUuid fuel pos := by
  have hP : PTRDIFF_MAX = 2 ^ 63 - 1 := rfl
  have hW : SIZE_WRAP = 2 ^ 64 := rfl
  intro fuel
  induction fuel with
  | zero => intro pos _; rfl
  | succ k ih =>
    intro pos hpos
    have hmod : (pos + 8) % SIZE_WRAP = pos + 8 := Nat.mod_eq_of_lt (by omega)
    unfold uuidWalkLoop findBoxLoop
    rw [hmod]
    by_cases hc : pos + 8 ≤ m.length
    · rw [if_pos hc, if_pos hc, uuidWalkStep_eq_findBoxStep m pos hc hmax]
      cases hs : findBoxStep m pos m.length tagUuid with
      | next p => exact ih p (findBoxStep_next_le m pos m.length p tagUuid hs)
      | exit e => rfl
    · rw [if_neg hc, if_neg hc]

/-- Within the buffer, `read16le` is the little-endian value of two bytes. -/
theorem read16le_eq (data : List Byte) (off : Nat) (h : off + 1 < data.length)
    (hL : data.length < 2 ^ 64) :
    read16le data off data.length = (data.getD off 0).val + 256 * (data.getD (off + 1) 0).val := by
  have hW : SIZE_WRAP = 2 ^ 64 := rfl
  have hmod : (off + 1) % SIZE_WRAP = off + 1 := Nat.mod_eq_of_lt (by omega)
  have hlo := (data.getD off 0).isLt
  have hhi := (data.getD (off + 1) 0).isLt
  unfold read16le
  rw [hmod, if_neg (by omega), Nat.lor_comm, Nat.shiftLeft_eq, or_shift _ 8 _ hlo]
  omega

/-- The test of the scan at offset `q` holds exactly when the signature stands
at `q`. -/
theorem tiffCond_iff (payload : List Byte) (q : Nat) (a b : Byte) (tl : List Byte)
    (hrest : payload.drop q = a :: b :: tl) (hq : q + 4 ≤ payload.length)
    (hL : payload.length < 2 ^ 64) :
    (a = 0x49 ∧ b = 0x49 ∧ read16le payload (q + 2) payload.length = 42) ↔
      HasTiffSignature payload q := by
  have hlen : (payload.drop q).length = payload.length - q := List.length_drop q payload
  rw [hrest] at hlen
  obtain ⟨c, d, tl', rfl⟩ : ∃ c d tl', tl = c :: d :: tl' := by
    match tl, hlen with
    | [], h => simp at h; omega
    | [_], h => simp at h; omega
    | c :: d :: tl', _ => exact ⟨c, d, tl', rfl⟩
  have hc : payload.getD (q + 2) 0 = c := by
    rw [List.getD_eq_getElem?_getD, ← List.getElem?_drop, hrest]; simp
  have hd : payload.getD (q + 2 + 1) 0 = d := by
    rw [List.getD_eq_getElem?_getD, show q + 2 + 1 = q + 3 by omega, ← List.getElem?_drop, hrest]
    simp
  have hcl := c.isLt
  have hdl := d.isLt
  unfold HasTiffSignature
  rw [hrest, read16le_eq payload (q + 2) (by omega) hL, hc, hd]
  simp only [List.take_succ_cons, List.take_zero, List.cons.injEq, and_true]
  constructor
  · rintro ⟨ha, hb, hv⟩
    refine ⟨ha, hb, Fin.ext ?_, Fin.ext ?_⟩
    · show c.val = 42
      omega
    · show d.val = 0
      omega
  · rintro ⟨ha, hb, hc', hd'⟩
    refine ⟨ha, hb, ?_⟩
    rw [hc', hd']
    rfl

theorem tiffScanFrom_cons_cons (uuidBox : List Byte) (uuidSize pos : Nat) (a b : Byte)
    (tl : List Byte) :
    tiffScanFrom uuidBox uuidSize pos (a :: b :: tl) =
      if pos < (uuidSize + SIZE_WRAP - 4) % SIZE_WRAP then
        if a = 0x49 ∧ b = 0x49 ∧ read16le uuidBox (pos + 2) uuidSize = 42 then .found pos
        else tiffScanFrom uuidBox uuidSize (pos + 1) (b :: tl)
      else .notFound := rfl

/-- The scan stops at the first offset that carries the signature, when at
least one byte follows the signature. -/
theorem tiffScanFrom_found (payload : List Byte) (p : Nat) (hsig : HasTiffSignature payload p)
    (hfirst : ∀ q < p, ¬ HasTiffSignature payload q) (hp : p + 4 < payload.length)
    (hL : payload.length < 2 ^ 64) :
    ∀ (n q : Nat), q + n = p →
      tiffScanFrom payload payload.length q (payload.drop q) = .found p := by
  have hW : SIZE_WRAP = 2 ^ 64 := rfl
  have hbound : (payload.length + SIZE_WRAP - 4) % SIZE_WRAP = payload.length - 4 := by
    rw [hW]; omega
  have hcons : ∀ q, q ≤ p → ∃ a b tl, payload.drop q = a :: b :: tl := by
    intro q hq
    have hlen : (payload.drop q).length = payload.length - q := List.length_drop q payload
    match hd : payload.drop q, hlen with
    | [], h => simp at h; omega
    | [_], h => simp at h; omega
    | a :: b :: tl, _ => exact ⟨a, b, tl, rfl⟩
  intro n
  induction n with
  | zero =>
    intro q hq
    have hqp : q = p := by omega
    subst hqp
    obtain ⟨a, b, tl, hrest⟩ := hcons q (Nat.le_refl q)
    rw [hrest, tiffScanFrom_cons_cons, hbound, if_pos (by omega),
      if_pos ((tiffCond_iff payload q a b tl hrest (by omega) hL).mpr hsig)]
  | succ k ih =>
    intro q hq
    obtain ⟨a, b, tl, hrest⟩ := hcons q (by omega)
    have hno := hfirst q (by omega)
    have hnext : payload.drop (q + 1) = b :: tl := by
      have : payload.drop (q + 1) = (payload.drop q).drop 1 := by rw [List.drop_drop]
      rw [this, hrest]; rfl
    rw [hrest, tiffScanFrom_cons_cons, hbound, if_pos (by omega),
      if_neg (fun hc => hno ((tiffCond_iff payload q a b tl hrest (by omega) hL).mp hc)),
      ← hnext]
    exact ih (q + 1) (by omega)

theorem tiffScan_found (payload : List Byte) (p : Nat) (hsig : HasTiffSignature payload p)
    (hfirst : ∀ q < p, ¬ HasTiffSignature payload q) (hp : p + 4 < payload.length)
    (hL : payload.length < 2 ^ 64) : tiffScan payload = .found p := by
  have := tiffScanFrom_found payload p hsig hfirst hp hL p 0 (by omega)
  simpa [tiffScan] using this

/-- On a well-formed source whose first `moov` box holds a well-formed box
sequence with a `uuid` box, `extractCr3Exif_streaming` returns the EXIF header
followed by the payload of the first `uuid` box from the smallest offset of the
TIFF signature on, provided at least one byte follows that signature. -/
theorem extractCr3Exif_streaming_locate (rest payload : List Byte)
    (before after ubefore uafter : List Box) (mext uext : Bool) (p fuel fileSize : Nat)
    (hvalid : ∀ a ∈ before ++
      ⟨tagMoov, mext, encodeBoxes (ubefore ++ ⟨tagUuid, uext, payload⟩ :: uafter)⟩ :: after,
        a.Valid)
    (huvalid : ∀ a ∈ ubefore ++ ⟨tagUuid, uext, payload⟩ :: uafter, a.Valid)
    (hfirst : ∀ a ∈ before, a.tag ≠ tagMoov) (hufirst : ∀ a ∈ ubefore, a.tag ≠ tagUuid)
    (hsize : fileSize = (encodeBoxes (before ++
      ⟨tagMoov, mext, encodeBoxes (ubefore ++ ⟨tagUuid, uext, payload⟩ :: uafter)⟩ ::
        after)).length)
    (hmax : fileSize ≤ PTRDIFF_MAX) (hsig : HasTiffSignature payload p)
    (hsmallest : ∀ q < p, ¬ HasTiffSignature payload q) (hp : p + 4 < payload.length)
    (hfuel : before.length < fuel) (hufuel : ubefore.length < fuel) :
    extractCr3Exif_streaming fuel
        (encodeBoxes (before ++
          ⟨tagMoov, mext, encodeBoxes (ubefore ++ ⟨tagUuid, uext, payload⟩ :: uafter)⟩ ::
            after) ++ rest) fileSize =
      some (.found (exifHeader ++ payload.drop p)) := by
  have hP : PTRDIFF_MAX = 2 ^ 63 - 1 := rfl
  generalize hm : encodeBoxes (ubefore ++ ⟨tagUuid, uext, payload⟩ :: uafter) = moovBox at *
  -- the walk of the file for `moov`
  have h1 := (findBox_streaming_found [] rest tagMoov before after ⟨tagMoov, mext, moovBox⟩
    fileSize fuel isTag_moov hvalid hfirst rfl (by simpa using hsize) hmax hfuel).1
  simp only [List.nil_append, List.length_nil] at h1
  -- the sizes involved
  have hmv : (⟨tagMoov, mext, moovBox⟩ : Box).Valid := hvalid _ (by simp)
  have hlen : (encodeBoxes (before ++ ⟨tagMoov, mext, moovBox⟩ :: after)).length =
      (encodeBoxes before).length + (⟨tagMoov, mext, moovBox⟩ : Box).size +
        (encodeBoxes after).length := by
    rw [encodeBoxes_append, encodeBoxes_cons]
    simp [length_encode _ hmv.1]; omega
  have hms : (⟨tagMoov, mext, moovBox⟩ : Box).size =
      (⟨tagMoov, mext, moovBox⟩ : Box).headerLen + moovBox.length := rfl
  have hh8 : 8 ≤ (⟨tagMoov, mext, moovBox⟩ : Box).headerLen := by
    unfold Box.headerLen; split_ifs <;> omega
  have hmmax : moovBox.length + 8 ≤ PTRDIFF_MAX := by omega
  -- the walk of the `moov` payload for `uuid`
  have h2 := (findBox_streaming_found [] [] tagUuid ubefore uafter ⟨tagUuid, uext, payload⟩
    moovBox.length fuel isTag_uuid huvalid hufirst rfl (by simp [hm]) (by omega) hufuel).1
  simp only [List.nil_append, List.length_nil, List.append_nil, hm] at h2
  unfold findBox_streaming at h2
  rw [← uuidWalkLoop_eq_findBoxLoop moovBox (by omega) fuel 0 (Nat.zero_le _)] at h2
  -- the scan of the `uuid` payload
  have huv : (⟨tagUuid, uext, payload⟩ : Box).Valid := huvalid _ (by simp)
  have hpl : payload.length < 2 ^ 64 := by
    have hsub : (⟨tagUuid, uext, payload⟩ : Box).encode.length ≤ moovBox.length := by
      rw [← hm, encodeBoxes_append, encodeBoxes_cons]
      simp only [List.length_append]; omega
    rw [length_encode _ huv.1] at hsub
    have : (⟨tagUuid, uext, payload⟩ : Box).size =
        (⟨tagUuid, uext, payload⟩ : Box).headerLen + payload.length := rfl
    omega
  have h3 := tiffScan_found payload p hsig hsmallest hp hpl
  unfold extractCr3Exif_streaming
  simp only [h1, h2, h3]

theorem uuidWalkLoop_fuel_mono (moovBox : List Byte) (k : Nat) :
    ∀ (fuel pos : Nat) (e : WalkExit), uuidWalkLoop moovBox fuel pos = some e →
      uuidWalkLoop moovBox (fuel + k) pos = some e := by
  intro fuel
  induction fuel with
  | zero => intro pos e h; simp [uuidWalkLoop] at h
  | succ n ih =>
    intro pos e h
    rw [show n + 1 + k = (n + k) + 1 by omega]
    unfold uuidWalkLoop at h ⊢
    by_cases hc : (pos + 8) % SIZE_WRAP ≤ moovBox.length
    · rw [if_pos hc] at h ⊢
      cases hs : uuidWalkStep moovBox pos with
      | next q =>
        rw [hs] at h
        exact ih q e h
      | exit e' =>
        rw [hs] at h
        exact h
    · rw [if_neg hc] at h ⊢
      exact h

/-- A result of `extractCr3Exif_streaming` does not depend on the fuel beyond
what the walks need. -/
theorem extractCr3Exif_streaming_fuel_mono (f : List Byte) (fileSize fuel k : Nat)
    (r : ExifResult) (h : extractCr3Exif_streaming fuel f fileSize = some r) :
    extractCr3Exif_streaming (fuel + k) f fileSize = some r := by
  unfold extractCr3Exif_streaming findBox_streaming at h ⊢
  cases h1 : findBoxLoop f fileSize tagMoov fuel 0 with
  | none => rw [h1] at h; simp at h
  | some e =>
    rw [h1] at h
    rw [findBoxLoop_fuel_mono f fileSize tagMoov k fuel 0 e h1]
    cases e with
    | found moovBox =>
      simp only at h ⊢
      cases h2 : uuidWalkLoop moovBox fuel 0 with
      | none => rw [h2] at h; simp at h
      | some e2 =>
        rw [h2] at h
        rw [uuidWalkLoop_fuel_mono moovBox k fuel 0 e2 h2]
        exact h
    | _ => exact h

/-- C10 fails on the code.  The source `moovUuidFile [49, 49, 2A, 00]` is a
`moov` box wrapping a `uuid` box whose payload is the TIFF signature, at offset
0; the same with a leading byte has it at offset 1.  In both the signature is
the last four bytes of the payload, the loop `while (pos < uuidSize - 4)` ends
one offset before it, and the call reports that no TIFF header was found,
whatever the fuel.  With one more byte after the signature the call succeeds. -/
theorem extractCr3Exif_streaming_signature_at_end :
    HasTiffSignature [0x49, 0x49, 0x2A, 0x00] 0 ∧
      (∀ k, extractCr3Exif_streaming (2 + k) (moovUuidFile [0x49, 0x49, 0x2A, 0x00]) 20 =
        some .noTiff) ∧
      (∀ k, extractCr3Exif_streaming (2 + k) (moovUuidFile [7, 0x49, 0x49, 0x2A, 0x00]) 21 =
        some .noTiff) ∧
      extractCr3Exif_streaming 2 (moovUuidFile [0x49, 0x49, 0x2A, 0x00, 8]) 21 =
        some (.found (exifHeader ++ [0x49, 0x49, 0x2A, 0x00, 8])) := by
  refine ⟨rfl, fun k => ?_, fun k => ?_, by decide⟩
  · exact extractCr3Exif_streaming_fuel_mono _ _ 2 k _ (by decide)
  · exact extractCr3Exif_streaming_fuel_mono _ _ 2 k _ (by decide)


/-! ## Properties of the EXIF minimizer -/

/-- Where the two bytes lie in the buffer and the offset is a `size_t`,
`read16le` is the little-endian value. -/
theorem read16le_eq_le16 (data : List Byte) (off : Nat) (h : off + 1 < data.length)
    (hoff : off + 1 < 2 ^ 64) : read16le data off data.length = le16 data off := by
  have hW : SIZE_WRAP = 2 ^ 64 := rfl
  have hmod : (off + 1) % SIZE_WRAP = off + 1 := Nat.mod_eq_of_lt (by omega)
  have hlo := (data.getD off 0).isLt
  have hhi := (data.getD (off + 1) 0).isLt
  unfold read16le le16
  rw [hmod, if_neg (by omega), Nat.lor_comm, Nat.shiftLeft_eq, or_shift _ 8 _ hlo]
  omega

/-- Where the four bytes lie in the buffer and the offset is a `size_t`,
`read32le` is the little-endian value. -/
theorem read32le_eq_le32 (data : List Byte) (off : Nat) (h : off + 3 < data.length)
    (hoff : off + 3 < 2 ^ 64) : read32le data off data.length = le32 data off := by
  have hW : SIZE_WRAP = 2 ^ 64 := rfl
  have hmod : (off + 3) % SIZE_WRAP = off + 3 := Nat.mod_eq_of_lt (by omega)
  have h0 := (data.getD off 0).isLt
  have h1 := (data.getD (off + 1) 0).isLt
  have h2 := (data.getD (off + 2) 0).isLt
  have h3 := (data.getD (off + 3) 0).isLt
  unfold read32le le32
  rw [hmod, if_neg (by omega)]
  simp only [Nat.shiftLeft_eq]
  rw [Nat.lor_comm (data.getD off 0).val, or_shift _ 8 _ h0,
    Nat.lor_comm _ ((data.getD (off + 2) 0).val * 2 ^ 16), or_shift _ 16 _ (by omega),
    Nat.lor_comm _ ((data.getD (off + 3) 0).val * 2 ^ 24), or_shift _ 24 _ (by omega)]
  omega

theorem le32_lt (blob : List Byte) (off : Nat) : le32 blob off < 2 ^ 32 := by
  have h0 := (blob.getD off 0).isLt
  have h1 := (blob.getD (off + 1) 0).isLt
  have h2 := (blob.getD (off + 2) 0).isLt
  have h3 := (blob.getD (off + 3) 0).isLt
  unfold le32
  omega

theorem le16_lt (blob : List Byte) (off : Nat) : le16 blob off < 2 ^ 16 := by
  have h0 := (blob.getD off 0).isLt
  have h1 := (blob.getD (off + 1) 0).isLt
  unfold le16
  omega

theorem getD_take_drop_of_lt (m : List Byte) (pos n i : Nat) (h : i < n) :
    ((m.drop pos).take n).getD i 0 = m.getD (pos + i) 0 := by
  simp [List.getD_eq_getElem?_getD, List.getElem?_take, h]

theorem le16_take_drop (exif : List Byte) (off : Nat) :
    le16 ((exif.drop off).take 12) 0 = le16 exif off := by
  unfold le16
  rw [getD_take_drop_of_lt exif off 12 0 (by omega),
    getD_take_drop_of_lt exif off 12 (0 + 1) (by omega)]
  rfl

theorem filterEntries_zero (exif : List Byte) (start i : Nat) (st : List Byte × Nat) :
    filterEntries exif start 0 i st = st := rfl

theorem filterEntries_succ (exif : List Byte) (start left i : Nat) (st : List Byte × Nat) :
    filterEntries exif start (left + 1) i st =
      if start + i * 12 + 12 > exif.length then st
      else if allowed.contains (read16le exif (start + i * 12) exif.length) then
        filterEntries exif start left (i + 1)
          (st.1 ++ (exif.drop (start + i * 12)).take 12, st.2 + 1)
      else filterEntries exif start left (i + 1) st := rfl

/-- The loop of the minimizer appends the whitelisted entries, in order, and
counts them. -/
theorem filterEntries_eq (exif : List Byte) (start : Nat) :
    ∀ (left i : Nat) (st : List Byte × Nat),
      start + (i + left) * 12 ≤ exif.length → start + (i + left) * 12 < 2 ^ 64 →
      filterEntries exif start left i st =
        (st.1 ++ (((List.range' i left).map
            (fun k => (exif.drop (start + k * 12)).take 12)).filter whitelisted).flatten,
          st.2 + (((List.range' i left).map
            (fun k => (exif.drop (start + k * 12)).take 12)).filter whitelisted).length) := by
  intro left
  induction left with
  | zero => intro i st _ _; simp [filterEntries_zero]
  | succ n ih =>
    intro i st hlen hoff
    have hfit : ¬ start + i * 12 + 12 > exif.length := by omega
    have htag : read16le exif (start + i * 12) exif.length =
        le16 ((exif.drop (start + i * 12)).take 12) 0 := by
      rw [le16_take_drop, read16le_eq_le16 exif _ (by omega) (by omega)]
    have hwl : allowed.contains (read16le exif (start + i * 12) exif.length) =
        whitelisted ((exif.drop (start + i * 12)).take 12) := by
      rw [htag]; rfl
    rw [filterEntries_succ, if_neg hfit, hwl, List.range'_succ, List.map_cons, List.filter_cons]
    cases hk : whitelisted ((exif.drop (start + i * 12)).take 12) with
    | true =>
      simp only [if_true]
      rw [ih (i + 1) _ (by omega) (by omega)]
      simp only [List.flatten_cons, List.append_assoc, List.length_cons]
      congr 1
      omega
    | false =>
      simp only [Bool.false_eq_true, if_false]
      rw [ih (i + 1) _ (by omega) (by omega)]

theorem ifdEntries_eq (blob : List Byte) :
    ifdEntries blob = (List.range' 0 (ifdCount blob)).map
      (fun k => (blob.drop (ifdOffset blob + 2 + k * 12)).take 12) := by
  unfold ifdEntries
  rw [List.range_eq_range']
  apply List.map_congr_left
  intro k _
  unfold ifdEntry
  rw [Nat.mul_comm]

/-- The entries of a structurally valid blob have 12 bytes each. -/
theorem length_of_mem_ifdEntries (blob : List Byte)
    (hfit : ifdOffset blob + 2 + 12 * ifdCount blob + 4 ≤ blob.length) :
    ∀ e ∈ ifdEntries blob, e.length = 12 := by
  intro e he
  unfold ifdEntries at he
  rw [List.mem_map] at he
  obtain ⟨k, hk, rfl⟩ := he
  rw [List.mem_range] at hk
  unfold ifdEntry
  rw [List.length_take, List.length_drop]
  omega

theorem length_flatten_of_length (n : Nat) (es : List (List Byte))
    (h : ∀ e ∈ es, e.length = n) :
    es.flatten.length = n * es.length := by
  induction es with
  | nil => simp
  | cons e rest ih =>
    have he := h e (List.mem_cons_self e rest)
    have hr := ih (fun x hx => h x (List.mem_cons_of_mem e hx))
    simp only [List.flatten_cons, List.length_append, List.length_cons, he, hr]
    rw [Nat.mul_succ]
    omega

theorem length_keptEntries_flatten (blob : List Byte)
    (hfit : ifdOffset blob + 2 + 12 * ifdCount blob + 4 ≤ blob.length) :
    (keptEntries blob).flatten.length = 12 * (keptEntries blob).length :=
  length_flatten_of_length 12 _ (fun e he =>
    length_of_mem_ifdEntries blob hfit e (List.mem_of_mem_filter he))

theorem length_keptEntries_le (blob : List Byte) :
    (keptEntries blob).length ≤ ifdCount blob := by
  have h := List.length_filter_le whitelisted (ifdEntries blob)
  have h2 : (ifdEntries blob).length = ifdCount blob := by simp [ifdEntries]
  unfold keptEntries
  omega

theorem countBytes_eq (n : Nat) :
    ([Fin.ofNat (n &&& 0xFF), Fin.ofNat ((n >>> 8) &&& 0xFF)] : List Byte) = le16Bytes n := by
  have h1 : n &&& 0xFF = n % 256 := by
    have := Nat.and_pow_two_sub_one_eq_mod n 8
    simpa using this
  have h2 : (n >>> 8) &&& 0xFF = n / 256 % 256 := by
    have := Nat.and_pow_two_sub_one_eq_mod (n >>> 8) 8
    rw [Nat.shiftRight_eq_div_pow] at this ⊢
    simpa using this
  unfold le16Bytes
  rw [h1, h2]
  simp only [List.cons.injEq, and_true]
  refine ⟨Fin.ext ?_, Fin.ext ?_⟩ <;> simp only [val_ofNat] <;> omega

/-- On a structurally valid blob `minimizeExifData` returns 1 with the
minimized blob of the specification. -/
theorem minimizeExifData_of_valid (blob : List Byte) (h : StructurallyValid blob) :
    minimizeExifData blob = some (minimized blob) := by
  obtain ⟨hhdr, h14, hO, hfit⟩ := h
  have h32 := le32_lt blob 10
  have hrel : read32le blob (6 + 4) blob.length = le32 blob 10 :=
    read32le_eq_le32 blob 10 (by omega) (by omega)
  have hcnt : read16le blob (ifdOffset blob) blob.length = ifdCount blob := by
    unfold ifdCount
    exact read16le_eq_le16 blob _ (by omega) (by unfold ifdOffset; omega)
  have h16 : ifdCount blob < 2 ^ 16 := le16_lt blob _
  have hloop := filterEntries_eq blob (ifdOffset blob + 2) (ifdCount blob) 0 ([], 0)
    (by omega) (by unfold ifdOffset; omega)
  rw [← ifdEntries_eq] at hloop
  have hkept : (List.filter whitelisted (ifdEntries blob)) = keptEntries blob := rfl
  rw [hkept] at hloop
  simp only [List.nil_append, Nat.zero_add] at hloop
  have c1 : ¬ (blob.length < 10 ∨ blob.take 6 ≠ exifHeader) := by
    rintro (h | h)
    · omega
    · exact h hhdr
  have c2 : ¬ 6 + 8 > blob.length := by omega
  have c3 : ¬ ifdOffset blob + 2 > blob.length := by omega
  have c4 : ¬ ifdOffset blob + 2 + ifdCount blob * 12 + 4 > blob.length := by omega
  have htake : (keptEntries blob).flatten.take ((keptEntries blob).length * 12) =
      (keptEntries blob).flatten :=
    List.take_of_length_le (by rw [length_keptEntries_flatten blob hfit]; omega)
  have hO' : 6 + le32 blob 10 = ifdOffset blob := rfl
  unfold minimizeExifData
  simp only [c1, c2, if_false, hrel, hO', c3, hcnt, c4, hloop, htake]
  rw [minimized, ← countBytes_eq]
  simp

/-- On a blob that is not structurally valid `minimizeExifData` returns 0. -/
theorem minimizeExifData_of_invalid (blob : List Byte) (h : ¬ StructurallyValid blob) :
    minimizeExifData blob = none := by
  have h32 := le32_lt blob 10
  have hO' : 6 + le32 blob 10 = ifdOffset blob := rfl
  unfold minimizeExifData
  by_cases c1 : blob.length < 10 ∨ blob.take 6 ≠ exifHeader
  · rw [if_pos c1]
  rw [if_neg c1]
  have hhdr : blob.take 6 = exifHeader := by
    by_contra hne
    exact c1 (Or.inr hne)
  by_cases c2 : 6 + 8 > blob.length
  · simp only [c2, if_true]
  have hrel : read32le blob (6 + 4) blob.length = le32 blob 10 :=
    read32le_eq_le32 blob 10 (by omega) (by omega)
  simp only [c2, if_false, hrel, hO']
  by_cases c3 : ifdOffset blob + 2 > blob.length
  · rw [if_pos c3]
  have hcnt : read16le blob (ifdOffset blob) blob.length = ifdCount blob := by
    unfold ifdCount
    exact read16le_eq_le16 blob _ (by omega) (by unfold ifdOffset; omega)
  rw [if_neg c3, hcnt]
  by_cases c4 : ifdOffset blob + 2 + ifdCount blob * 12 + 4 > blob.length
  · rw [if_pos c4]
  exact absurd ⟨hhdr, by omega, by omega, by omega⟩ h

/-- The blobs that `minimizeExifData` accepts are the structurally valid ones. -/
theorem minimizeExifData_isSome_iff (blob : List Byte) :
    (minimizeExifData blob).isSome = true ↔ StructurallyValid blob := by
  constructor
  · intro h
    by_contra hv
    rw [minimizeExifData_of_invalid blob hv] at h
    simp at h
  · intro hv
    rw [minimizeExifData_of_valid blob hv]
    rfl

theorem valid_of_minimize_eq_some (blob out : List Byte) (h : minimizeExifData blob = some out) :
    StructurallyValid blob ∧ out = minimized blob := by
  have hv : StructurallyValid blob := by
    rw [← minimizeExifData_isSome_iff, h]
    rfl
  rw [minimizeExifData_of_valid blob hv] at h
  exact ⟨hv, (Option.some.inj h).symm⟩

theorem length_minimized (blob : List Byte) (hv : StructurallyValid blob) :
    (minimized blob).length = ifdOffset blob + 2 + 12 * (keptEntries blob).length + 4 := by
  obtain ⟨_, _, hO, hfit⟩ := hv
  unfold minimized
  simp only [List.length_append, List.length_take, length_keptEntries_flatten blob hfit,
    le16Bytes, List.length_cons, List.length_nil]
  omega

/-- On a structurally valid blob every range read lies within the blob. -/
theorem minimizeReadRanges_within (blob : List Byte) (hv : StructurallyValid blob) :
    ∀ r ∈ minimizeReadRanges blob, r.1 ≤ r.2 ∧ r.2 ≤ blob.length := by
  obtain ⟨_, h14, hO, hfit⟩ := hv
  have h32 := le32_lt blob 10
  have hrel : read32le blob (6 + 4) blob.length = le32 blob 10 :=
    read32le_eq_le32 blob 10 (by omega) (by omega)
  have hO' : 6 + le32 blob 10 = ifdOffset blob := rfl
  have hcnt : read16le blob (ifdOffset blob) blob.length = ifdCount blob := by
    unfold ifdCount
    exact read16le_eq_le16 blob _ (by omega) (by unfold ifdOffset; omega)
  intro r hr
  unfold minimizeReadRanges at hr
  simp only [hrel, hO', hcnt, List.mem_append, List.mem_cons, List.mem_singleton,
    List.mem_flatMap, List.mem_range, List.not_mem_nil, or_false] at hr
  rcases hr with ((rfl | rfl | rfl) | ⟨i, hi, rfl | rfl⟩) | rfl <;> constructor <;>
    simp only <;> omega

theorem getD_take_of_lt (l : List Byte) (n i : Nat) (h : i < n) :
    (l.take n).getD i 0 = l.getD i 0 := by
  simp [List.getD_eq_getElem?_getD, List.getElem?_take, h]

/-- Cutting the bytes of consecutive 12-byte entries at multiples of 12 gives
the entries back. -/
theorem map_range_chunks (es : List (List Byte)) (h : ∀ e ∈ es, e.length = 12) :
    ∀ (pre suf : List Byte),
      (List.range es.length).map
        (fun i => ((pre ++ es.flatten ++ suf).drop (pre.length + 12 * i)).take 12) = es := by
  induction es with
  | nil => intro pre suf; rfl
  | cons e rest ih =>
    intro pre suf
    have he : e.length = 12 := h e (List.mem_cons_self e rest)
    have hrest : ∀ x ∈ rest, x.length = 12 := fun x hx => h x (List.mem_cons_of_mem e hx)
    have hf : pre ++ (e :: rest).flatten ++ suf = pre ++ e ++ rest.flatten ++ suf := by simp
    rw [List.length_cons, List.range_succ_eq_map, List.map_cons, List.map_map, hf]
    congr 1
    · rw [Nat.mul_zero, Nat.add_zero, List.append_assoc, List.append_assoc, List.drop_left]
      exact List.take_left' he
    · refine Eq.trans ?_ (ih hrest (pre ++ e) suf)
      apply List.map_congr_left
      intro i _
      simp only [Function.comp, Nat.succ_eq_add_one, List.length_append, he]
      rw [show pre.length + 12 * (i + 1) = pre.length + 12 + 12 * i by omega]

/-- For a structurally valid blob whose IFD0 starts after the TIFF header, the
minimized blob is structurally valid, has its IFD0 at the same offset, and its
entries are the kept entries. -/
theorem minimized_structure (blob : List Byte) (hv : StructurallyValid blob)
    (hoff : 8 ≤ le32 blob 10) :
    StructurallyValid (minimized blob) ∧ ifdOffset (minimized blob) = ifdOffset blob ∧
      ifdEntries (minimized blob) = keptEntries blob := by
  obtain ⟨hhdr, h14, hO, hfit⟩ := hv
  have hlen := length_minimized blob ⟨hhdr, h14, hO, hfit⟩
  have hOdef : ifdOffset blob = 6 + le32 blob 10 := rfl
  have hk12 : ∀ e ∈ keptEntries blob, e.length = 12 := fun e he =>
    length_of_mem_ifdEntries blob hfit e (List.mem_of_mem_filter he)
  have hkl := length_keptEntries_le blob
  have h16 : ifdCount blob < 2 ^ 16 := le16_lt blob _
  have hPlen : (blob.take (ifdOffset blob)).length = ifdOffset blob := by
    rw [List.length_take]; omega
  -- the bytes before IFD0 are those of `blob`
  have hget : ∀ i, i < ifdOffset blob → (minimized blob).getD i 0 = blob.getD i 0 := by
    intro i hi
    unfold minimized
    rw [List.append_assoc, List.append_assoc, List.getD_append _ _ _ _ (by omega),
      getD_take_of_lt _ _ _ hi]
  have hoff' : ifdOffset (minimized blob) = ifdOffset blob := by
    unfold ifdOffset le32
    rw [hget 10 (by omega), hget (10 + 1) (by omega), hget (10 + 2) (by omega),
      hget (10 + 3) (by omega)]
  -- the count is the number of kept entries
  have hcnt : ifdCount (minimized blob) = (keptEntries blob).length := by
    unfold ifdCount
    rw [hoff']
    have hmin : minimized blob = blob.take (ifdOffset blob) ++
        (le16Bytes (keptEntries blob).length ++ ((keptEntries blob).flatten ++ [0, 0, 0, 0])) := by
      unfold minimized
      simp only [List.append_assoc]
    have hg0 : (minimized blob).getD (ifdOffset blob) 0 =
        Fin.ofNat (keptEntries blob).length := by
      rw [hmin, List.getD_append_right _ _ _ _ (by rw [hPlen]), hPlen, Nat.sub_self]
      rfl
    have hg1 : (minimized blob).getD (ifdOffset blob + 1) 0 =
        Fin.ofNat ((keptEntries blob).length / 256) := by
      rw [hmin, List.getD_append_right _ _ _ _ (by rw [hPlen]; omega), hPlen,
        show ifdOffset blob + 1 - ifdOffset blob = 1 by omega]
      rfl
    unfold le16
    rw [hg0, hg1, val_ofNat, val_ofNat]
    omega
  have htake6 : (minimized blob).take 6 = blob.take 6 := by
    unfold minimized
    rw [List.append_assoc, List.append_assoc, List.take_append_of_le_length (by omega),
      List.take_take]
    congr 1
    omega
  have hent : ifdEntries (minimized blob) = keptEntries blob := by
    unfold ifdEntries ifdEntry
    rw [hcnt, hoff']
    have := map_range_chunks (keptEntries blob) hk12
      (blob.take (ifdOffset blob) ++ le16Bytes (keptEntries blob).length) [0, 0, 0, 0]
    have hl : (blob.take (ifdOffset blob) ++ le16Bytes (keptEntries blob).length).length =
        ifdOffset blob + 2 := by
      rw [List.length_append, hPlen]; rfl
    rw [hl] at this
    exact this
  refine ⟨⟨by rw [htake6, hhdr], by omega, by omega, by omega⟩, hoff', hent⟩

/-- Minimizing a minimized blob changes nothing, when IFD0 starts after the
TIFF header. -/
theorem minimized_minimized (blob : List Byte) (hv : StructurallyValid blob)
    (hoff : 8 ≤ le32 blob 10) : minimized (minimized blob) = minimized blob := by
  obtain ⟨_, hoff', hent⟩ := minimized_structure blob hv hoff
  have hkept : keptEntries (minimized blob) = keptEntries blob := by
    unfold keptEntries
    rw [hent]
    exact List.filter_eq_self.mpr (fun a ha => (List.mem_filter.mp ha).2)
  have hPlen : (blob.take (ifdOffset blob)).length = ifdOffset blob := by
    rw [List.length_take]
    have := hv.2.2.1
    omega
  have htake : (minimized blob).take (ifdOffset blob) = blob.take (ifdOffset blob) := by
    unfold minimized
    rw [List.append_assoc, List.append_assoc]
    exact List.take_left' hPlen
  have hdef : ∀ b : List Byte, minimized b = b.take (ifdOffset b) ++
      le16Bytes (keptEntries b).length ++ (keptEntries b).flatten ++ [0, 0, 0, 0] := fun _ => rfl
  rw [hdef (minimized blob), hkept, hoff', htake]
  rfl

/-! ### The claims about `minimizeExifData` -/

/-- C13: the structure of the minimized output.  Whenever `minimizeExifData`
succeeds on `blob`, with `O = 6 + LE32(blob[10..13])`, `c = LE16(blob[O..O+1])`
and the entries `e_i = blob[O+2+12i .. O+14+12i)` for `i < c`, the output is
`blob[0..O)`, then `LE16(n)`, then the entries whose tag is in the whitelist,
each copied as it is, in original order and with duplicates, then
`00 00 00 00`, where `n` is the number of kept entries; its length is
`O + 2 + 12 n + 4`. -/
theorem minimizeExifData_output (blob out : List Byte) (h : minimizeExifData blob = some out) :
    out = blob.take (ifdOffset blob) ++ le16Bytes ((ifdEntries blob).filter whitelisted).length ++
        ((ifdEntries blob).filter whitelisted).flatten ++ [0, 0, 0, 0] ∧
      out.length = ifdOffset blob + 2 + 12 * ((ifdEntries blob).filter whitelisted).length + 4 ∧
      (∀ e ∈ (ifdEntries blob).filter whitelisted, e.length = 12) := by
  obtain ⟨hv, rfl⟩ := valid_of_minimize_eq_some blob out h
  refine ⟨rfl, length_minimized blob hv, ?_⟩
  intro e he
  exact length_of_mem_ifdEntries blob hv.2.2.2 e (List.mem_of_mem_filter he)

/-- C13, on `sampleBlob`: of its two entries the one with tag `010F` is kept. -/
theorem minimizeExifData_output_witness :
    minimizeExifData sampleBlob =
        some (exifHeader ++ [0x49, 0x49, 0x2A, 0, 8, 0, 0, 0, 1, 0,
          0x0F, 0x01, 2, 0, 1, 0, 0, 0, 7, 7, 7, 7, 0, 0, 0, 0]) ∧
      (exifHeader ++ [0x49, 0x49, 0x2A, 0, 8, 0, 0, 0, 1, 0,
          0x0F, 0x01, 2, 0, 1, 0, 0, 0, 7, 7, 7, 7, 0, 0, 0, 0] : List Byte).length =
        ifdOffset sampleBlob + 2 + 12 * ((ifdEntries sampleBlob).filter whitelisted).length + 4 :=
  ⟨by decide, (minimizeExifData_output sampleBlob _ (by decide)).2.1⟩

/-- C15: `minimizeExifData` accepts exactly the structurally valid blobs.  It
succeeds if and only if the blob begins with `45 78 69 66 00 00`, has at least
14 bytes, and with `O = 6 + LE32(blob[10..13])` and `c = LE16(blob[O..O+1])`
satisfies `O + 2 <= length` and `O + 2 + 12 c + 4 <= length`; in particular a
blob shorter than 10 bytes or without the header is rejected; and every range
that an accepted run reads lies within the blob. -/
theorem minimizeExifData_accepts (blob : List Byte) :
    ((minimizeExifData blob).isSome = true ↔
      (blob.take 6 = exifHeader ∧ 14 ≤ blob.length ∧ ifdOffset blob + 2 ≤ blob.length ∧
        ifdOffset blob + 2 + 12 * ifdCount blob + 4 ≤ blob.length)) ∧
      (blob.length < 10 ∨ blob.take 6 ≠ exifHeader → minimizeExifData blob = none) ∧
      ((minimizeExifData blob).isSome = true →
        ∀ r ∈ minimizeReadRanges blob, r.1 ≤ r.2 ∧ r.2 ≤ blob.length) := by
  refine ⟨minimizeExifData_isSome_iff blob, ?_, ?_⟩
  · intro h
    apply minimizeExifData_of_invalid
    rintro ⟨hhdr, h14, _, _⟩
    rcases h with h | h
    · omega
    · exact h hhdr
  · intro h
    exact minimizeReadRanges_within blob ((minimizeExifData_isSome_iff blob).mp h)

/-- C15, on `sampleBlob`, which is accepted, and on `sampleBlob` without its
last six bytes, which is rejected. -/
theorem minimizeExifData_accepts_witness :
    (minimizeExifData sampleBlob).isSome = true ∧
      (∀ r ∈ minimizeReadRanges sampleBlob, r.1 ≤ r.2 ∧ r.2 ≤ sampleBlob.length) ∧
      minimizeExifData (sampleBlob.take 40) = none :=
  ⟨by decide, (minimizeExifData_accepts sampleBlob).2.2 (by decide), by decide⟩

/-- C14, as stated, fails on `overlapBlob`, whose IFD0 offset field is 0 so
that IFD0 lies over the TIFF header: `minimizeExifData` accepts it and returns
12 bytes, and on these 12 bytes it fails. -/
theorem minimizeExifData_not_idempotent :
    minimizeExifData overlapBlob = some (exifHeader ++ [0, 0, 0, 0, 0, 0]) ∧
      minimizeExifData (exifHeader ++ [0, 0, 0, 0, 0, 0]) = none := by
  decide

/-- C14, amended: `minimizeExifData` is idempotent on the blobs whose IFD0
starts after the 8-byte TIFF header.  For every blob `b` on which it succeeds
with output `b'` and whose IFD0 offset field `LE32(b[10..13])` is at least 8,
it also succeeds on `b'` and returns `b'` byte for byte, and every entry of
the IFD0 of `b'` has a whitelisted tag. -/
theorem minimizeExifData_idempotent (b b' : List Byte) (h : minimizeExifData b = some b')
    (hoff : 8 ≤ le32 b 10) :
    minimizeExifData b' = some b' ∧ ∀ e ∈ ifdEntries b', whitelisted e = true := by
  obtain ⟨hv, rfl⟩ := valid_of_minimize_eq_some b b' h
  obtain ⟨hv', _, hent⟩ := minimized_structure b hv hoff
  refine ⟨?_, ?_⟩
  · rw [minimizeExifData_of_valid _ hv', minimized_minimized b hv hoff]
  · intro e he
    rw [hent] at he
    exact (List.mem_filter.mp he).2

/-- C14, amended, on `sampleBlob`, whose IFD0 offset field is 8. -/
theorem minimizeExifData_idempotent_witness :
    minimizeExifData sampleBlob = some (minimized sampleBlob) ∧ 8 ≤ le32 sampleBlob 10 ∧
      minimizeExifData (minimized sampleBlob) = some (minimized sampleBlob) ∧
      ∀ e ∈ ifdEntries (minimized sampleBlob), whitelisted e = true :=
  ⟨by decide, by decide,
    minimizeExifData_idempotent sampleBlob (minimized sampleBlob) (by decide) (by decide)⟩

/-! ## Properties of the splicer -/

/-- The test at the head of `insertExifIntoJpeg` fails exactly on the buffers
that begin with `FF D8`. -/
theorem jpeg_test_iff (j : List Byte) :
    (j.length < 2 ∨ j.getD 0 0 ≠ 0xFF ∨ j.getD 1 0 ≠ 0xD8) ↔ ¬ BeginsWithSoi j := by
  unfold BeginsWithSoi
  match j with
  | [] => simp
  | [a] => simp
  | a :: b :: t =>
    simp only [List.length_cons, List.getD_cons_zero, List.getD_cons_succ, List.take_succ_cons,
      List.take_zero, List.cons.injEq, and_true]
    constructor
    · rintro (h | h | h) ⟨ha, hb⟩
      · omega
      · exact h ha
      · exact h hb
    · intro h
      by_cases ha : a = 0xFF
      · right; right
        exact fun hb => h ⟨ha, hb⟩
      · right; left
        exact ha

theorem length_of_beginsWithSoi (j : List Byte) (h : BeginsWithSoi j) : 2 ≤ j.length := by
  have := congrArg List.length h
  simp only [List.length_take, List.length_cons, List.length_nil] at this
  omega

theorem length_of_hasExifHeader (x : List Byte) (h : HasExifHeader x) : 6 ≤ x.length := by
  have := congrArg List.length h
  simp only [List.length_take, exifHeader, List.length_cons, List.length_nil] at this
  omega

/-- The two length bytes that the splicer writes are the big-endian bytes of
the low 16 bits. -/
theorem segLength_bytes (n : Nat) :
    ([Fin.ofNat (((n % 2 ^ 16) >>> 8) &&& 0xFF), Fin.ofNat ((n % 2 ^ 16) &&& 0xFF)] : List Byte) =
      be16Bytes n := by
  unfold be16Bytes
  have h1 : ((n % 2 ^ 16) >>> 8) &&& 0xFF = (n % 2 ^ 16) / 256 % 256 := by
    rw [show (0xFF : Nat) = 2 ^ 8 - 1 by norm_num, Nat.and_pow_two_sub_one_eq_mod,
      Nat.shiftRight_eq_div_pow]
  have h2 : (n % 2 ^ 16) &&& 0xFF = (n % 2 ^ 16) % 256 := by
    rw [show (0xFF : Nat) = 2 ^ 8 - 1 by norm_num, Nat.and_pow_two_sub_one_eq_mod]
  rw [h1, h2]
  congr 1
  · apply Fin.ext
    rw [val_ofNat, val_ofNat]
    omega
  · congr 1
    apply Fin.ext
    rw [val_ofNat, val_ofNat]
    omega

/-- The output of `insertExifIntoJpeg` on a JPEG buffer, when the output size
is one that `malloc` serves. -/
theorem insertExifIntoJpeg_of_jpeg (j x : List Byte) (hj : BeginsWithSoi j)
    (hfit : j.length + 4 + x.length ≤ PTRDIFF_MAX) :
    insertExifIntoJpeg j x =
      .ok (j.take 2 ++ [0xFF, 0xE1] ++ be16Bytes (x.length + 2) ++ x ++ j.drop 2)
        (j.length + 4 + x.length) := by
  have h2 := length_of_beginsWithSoi j hj
  have hW : SIZE_WRAP = 2 ^ 64 := rfl
  have hP : PTRDIFF_MAX = 2 ^ 63 - 1 := rfl
  have hsz : (2 + 4 + x.length + (j.length - 2)) % SIZE_WRAP = j.length + 4 + x.length := by
    rw [hW, Nat.mod_eq_of_lt (by omega)]
    omega
  have htest : ¬ (j.length < 2 ∨ j.getD 0 0 ≠ 0xFF ∨ j.getD 1 0 ≠ 0xD8) := by
    rw [jpeg_test_iff]
    exact not_not.mpr hj
  unfold insertExifIntoJpeg
  rw [if_neg htest]
  simp only [hsz]
  rw [if_neg (by omega)]
  have htk : (j.drop 2).take (j.length - 2) = j.drop 2 :=
    List.take_of_length_le (by rw [List.length_drop])
  rw [htk]
  congr 1
  rw [← segLength_bytes]
  simp

/-- The splicer of exifcopy.c is that of cr3extract.c after `ensureExifHeader`. -/
theorem exifcopy_insertExifIntoJpeg_eq (j x : List Byte) :
    Exifcopy.insertExifIntoJpeg j x = insertExifIntoJpeg j (Exifcopy.ensureExifHeader x) := by
  unfold Exifcopy.insertExifIntoJpeg insertExifIntoJpeg
  rfl

theorem ensureExifHeader_of_header (x : List Byte) (hx : HasExifHeader x) :
    Exifcopy.ensureExifHeader x = x := by
  have h6 := length_of_hasExifHeader x hx
  unfold Exifcopy.ensureExifHeader
  rw [if_neg]
  rintro (h | h)
  · omega
  · exact h hx

theorem ensureExifHeader_of_no_header (x : List Byte) (hx : ¬ HasExifHeader x)
    (hfit : x.length + 6 ≤ PTRDIFF_MAX) :
    Exifcopy.ensureExifHeader x = exifHeader ++ x := by
  have hW : SIZE_WRAP = 2 ^ 64 := rfl
  have hP : PTRDIFF_MAX = 2 ^ 63 - 1 := rfl
  unfold Exifcopy.ensureExifHeader
  have hx' : x.length < 6 ∨ x.take 6 ≠ exifHeader := Or.inr hx
  rw [if_pos hx']
  simp only
  rw [hW, Nat.mod_eq_of_lt (by omega), if_neg (by omega)]

theorem hasExifHeader_append (x : List Byte) : HasExifHeader (exifHeader ++ x) := by
  unfold HasExifHeader
  exact List.take_left' rfl

theorem ensureExifHeader_cases (x : List Byte) :
    Exifcopy.ensureExifHeader x = x ∨ Exifcopy.ensureExifHeader x = exifHeader ++ x := by
  unfold Exifcopy.ensureExifHeader
  dsimp only
  split_ifs
  · exact Or.inl rfl
  · exact Or.inr rfl
  · exact Or.inl rfl

theorem ensureExifHeader_idem (x : List Byte) :
    Exifcopy.ensureExifHeader (Exifcopy.ensureExifHeader x) = Exifcopy.ensureExifHeader x := by
  rcases ensureExifHeader_cases x with e | e
  · rw [e, e]
  · rw [e, ensureExifHeader_of_header _ (hasExifHeader_append x)]

theorem length_ensureExifHeader_le (x : List Byte) :
    (Exifcopy.ensureExifHeader x).length ≤ x.length + 6 := by
  rcases ensureExifHeader_cases x with e | e
  · rw [e]; omega
  · rw [e, List.length_append]
    simp [exifHeader]
    omega

theorem drop_two_appends (A M D : List Byte) :
    (A ++ (M ++ D)).drop (A.length + M.length) = D := by
  rw [← List.append_assoc, ← List.length_append, List.drop_left]

/-- The bytes of a spliced buffer, one by one up to the payload. -/
theorem splice_shape (j : List Byte) (hj : BeginsWithSoi j) (n : Nat) (rest : List Byte) :
    j.take 2 ++ [0xFF, 0xE1] ++ be16Bytes n ++ rest =
      0xFF :: 0xD8 :: 0xFF :: 0xE1 :: Fin.ofNat (n / 256) :: Fin.ofNat n :: rest := by
  unfold BeginsWithSoi at hj
  rw [hj]
  rfl

theorem be16_splice (n : Nat) (rest : List Byte) :
    be16 (0xFF :: 0xD8 :: 0xFF :: 0xE1 :: Fin.ofNat (n / 256) :: Fin.ofNat n :: rest) 4 =
      n % 65536 := by
  unfold be16
  simp only [List.getD_cons_succ, List.getD_cons_zero, val_ofNat]
  omega

/-- Reading a spliced buffer back: the payload is what the length field
announces, not what was written. -/
theorem readApp1_splice (n : Nat) (rest : List Byte) :
    readApp1 (0xFF :: 0xD8 :: 0xFF :: 0xE1 :: Fin.ofNat (n / 256) :: Fin.ofNat n :: rest) =
      if 2 ≤ n % 65536 ∧ n % 65536 ≤ rest.length + 2 then some (rest.take (n % 65536 - 2))
      else none := by
  unfold readApp1
  rw [be16_splice]
  simp only [List.getD_cons_succ, List.getD_cons_zero, and_self, if_true, List.length_cons,
    List.drop_succ_cons, List.drop_zero]
  by_cases h : 2 ≤ n % 65536 ∧ n % 65536 ≤ rest.length + 2
  · rw [if_pos h, if_pos ⟨h.1, by omega⟩]
  · rw [if_neg h, if_neg]
    rintro ⟨h1, h2⟩
    exact h ⟨h1, by omega⟩

/-- The round trip for blobs of at most 65533 bytes: reading the output of
`insertExifIntoJpeg` as an APP1 segment gives the blob back. -/
theorem readApp1_insertExifIntoJpeg (j x : List Byte) (hj : BeginsWithSoi j)
    (hx : x.length ≤ 65533) (hfit : j.length + 4 + x.length ≤ PTRDIFF_MAX) :
    ∃ out, insertExifIntoJpeg j x = .ok out (j.length + 4 + x.length) ∧
      readApp1 out = some x := by
  refine ⟨_, insertExifIntoJpeg_of_jpeg j x hj hfit, ?_⟩
  rw [List.append_assoc _ x, splice_shape j hj, readApp1_splice,
    Nat.mod_eq_of_lt (by omega), if_pos ⟨by omega, by rw [List.length_append]; omega⟩]
  congr 1
  rw [show x.length + 2 - 2 = x.length by omega]
  exact List.take_left' rfl

/-! ### The claims about `insertExifIntoJpeg` -/

/-- C16: the structure of the spliced output.  For every JPEG buffer `j` that
begins with `FF D8` and every exif blob `x` that begins with
`45 78 69 66 00 00`, of a combined size that `malloc` serves,
`insertExifIntoJpeg` of cr3extract.c and of exifcopy.c succeed with the output
`j[0..2) ++ FF E1 ++ BE16(len(x) + 2) ++ x ++ j[2..)`, where `BE16` writes the
low 16 bits, of length `len(j) + 4 + len(x)`; deleting the `4 + len(x)` bytes
at offset 2 gives back `j`. -/
theorem insertExifIntoJpeg_structure (j x : List Byte) (hj : BeginsWithSoi j)
    (hx : HasExifHeader x) (hfit : j.length + 4 + x.length ≤ PTRDIFF_MAX) :
    ∃ out, out = j.take 2 ++ [0xFF, 0xE1] ++ be16Bytes (x.length + 2) ++ x ++ j.drop 2 ∧
      insertExifIntoJpeg j x = .ok out (j.length + 4 + x.length) ∧
      Exifcopy.insertExifIntoJpeg j x = .ok out (j.length + 4 + x.length) ∧
      out.length = j.length + 4 + x.length ∧
      out.take 2 ++ out.drop (2 + (4 + x.length)) = j := by
  have h2 := length_of_beginsWithSoi j hj
  have hl2 : (j.take 2).length = 2 := by rw [List.length_take]; omega
  refine ⟨_, rfl, insertExifIntoJpeg_of_jpeg j x hj hfit, ?_, ?_, ?_⟩
  · rw [exifcopy_insertExifIntoJpeg_eq, ensureExifHeader_of_header x hx]
    exact insertExifIntoJpeg_of_jpeg j x hj hfit
  · simp only [List.length_append, hl2, List.length_drop, be16Bytes, List.length_cons,
      List.length_nil]
    omega
  · have hmid : ([0xFF, 0xE1] ++ be16Bytes (x.length + 2) ++ x : List Byte).length =
        4 + x.length := by
      simp only [List.length_append, be16Bytes, List.length_cons, List.length_nil]
    have hassoc : j.take 2 ++ [0xFF, 0xE1] ++ be16Bytes (x.length + 2) ++ x ++ j.drop 2 =
        j.take 2 ++ (([0xFF, 0xE1] ++ be16Bytes (x.length + 2) ++ x) ++ j.drop 2) := by
      simp only [List.append_assoc]
    have hdrop := drop_two_appends (j.take 2)
      ([0xFF, 0xE1] ++ be16Bytes (x.length + 2) ++ x) (j.drop 2)
    rw [hl2, hmid] at hdrop
    rw [hassoc, List.take_left' hl2, hdrop, List.take_append_drop]

/-- C16, on the six-byte `sampleJpeg` and the ten-byte `smallExif`. -/
theorem insertExifIntoJpeg_structure_witness :
    ∃ out, out = sampleJpeg.take 2 ++ [0xFF, 0xE1] ++ be16Bytes (smallExif.length + 2) ++
        smallExif ++ sampleJpeg.drop 2 ∧
      insertExifIntoJpeg sampleJpeg smallExif =
        .ok out (sampleJpeg.length + 4 + smallExif.length) ∧
      Exifcopy.insertExifIntoJpeg sampleJpeg smallExif =
        .ok out (sampleJpeg.length + 4 + smallExif.length) ∧
      out.length = sampleJpeg.length + 4 + smallExif.length ∧
      out.take 2 ++ out.drop (2 + (4 + smallExif.length)) = sampleJpeg :=
  insertExifIntoJpeg_structure sampleJpeg smallExif (by decide) (by decide) (by decide)

/-- C17 fails on the JPEG `FF D8` and the blob `bigExif` of 65542 bytes:
`segLength` is `65544 mod 65536 = 8`, the splicer writes the length bytes
`00 08` before the 65542 bytes of the blob, and reading the output as an APP1
segment gives the six bytes `45 78 69 66 00 00`, not the blob.  The splicer of
exifcopy.c does the same, since the blob has the header. -/
theorem insertExifIntoJpeg_round_trip_fails :
    HasExifHeader bigExif ∧ bigExif.length = 65542 ∧
      insertExifIntoJpeg soiOnly bigExif =
        .ok (0xFF :: 0xD8 :: 0xFF :: 0xE1 :: 0 :: 8 :: bigExif) 65548 ∧
      Exifcopy.insertExifIntoJpeg soiOnly bigExif = insertExifIntoJpeg soiOnly bigExif ∧
      readApp1 (0xFF :: 0xD8 :: 0xFF :: 0xE1 :: 0 :: 8 :: bigExif) = some exifHeader ∧
      some exifHeader ≠ some bigExif := by
  have h6 : exifHeader.length = 6 := rfl
  have hlen : bigExif.length = 65542 := by
    unfold bigExif
    rw [List.length_append, List.length_replicate, h6]
  have hP : PTRDIFF_MAX = 2 ^ 63 - 1 := rfl
  have hsoi : BeginsWithSoi soiOnly := by decide
  have hshape := splice_shape soiOnly hsoi 65544 bigExif
  have hb : ((Fin.ofNat (65544 / 256) : Byte) = 0) ∧ ((Fin.ofNat 65544 : Byte) = 8) := by
    constructor <;> rfl
  rw [hb.1, hb.2] at hshape
  refine ⟨hasExifHeader_append _, hlen, ?_, ?_, ?_, ?_⟩
  rotate_left
  · have hhdr : HasExifHeader bigExif := hasExifHeader_append _
    rw [exifcopy_insertExifIntoJpeg_eq, ensureExifHeader_of_header bigExif hhdr]
  rotate_right
  · rw [insertExifIntoJpeg_of_jpeg soiOnly bigExif hsoi (by rw [hlen, hP]; decide), hlen]
    have hd : soiOnly.drop 2 = [] := rfl
    rw [hd, List.append_nil, hshape]
    rfl
  · have := readApp1_splice 65544 bigExif
    rw [hb.1, hb.2, hlen] at this
    rw [this, if_pos (by decide)]
    exact congrArg some (List.take_left' h6)
  · intro h
    have := congrArg (Option.map List.length) h
    simp only [Option.map_some', hlen, Option.some.injEq] at this
    exact absurd this (by decide)

/-- The only `return 0` of the splicer that a buffer pair of servable size
reaches is the one of the JPEG test. -/
theorem insertExifIntoJpeg_ret (j x : List Byte) (hfit : j.length + 4 + x.length ≤ PTRDIFF_MAX) :
    (BeginsWithSoi j → (insertExifIntoJpeg j x).ret = 1) ∧
      (¬ BeginsWithSoi j → insertExifIntoJpeg j x = .rejected) := by
  constructor
  · intro hj
    rw [insertExifIntoJpeg_of_jpeg j x hj hfit]
    rfl
  · intro hj
    unfold insertExifIntoJpeg
    rw [if_pos ((jpeg_test_iff j).mpr hj)]

/-- The splicer of cr3extract.c is `insertExifIntoJpegWith` for the allocator
that serves the sizes up to `PTRDIFF_MAX`. -/
theorem insertExifIntoJpeg_eq_with (j x : List Byte) :
    insertExifIntoJpeg j x = insertExifIntoJpegWith mallocUpToMax j x := by
  unfold insertExifIntoJpeg insertExifIntoJpegWith mallocUpToMax
  by_cases hj : j.length < 2 ∨ j.getD 0 0 ≠ 0xFF ∨ j.getD 1 0 ≠ 0xD8
  · rw [if_pos hj, if_pos hj]
  · rw [if_neg hj, if_neg hj]
    by_cases hm : (2 + 4 + x.length + (j.length - 2)) % SIZE_WRAP > PTRDIFF_MAX
    · simp only [if_pos hm]
      rw [if_pos (decide_eq_false (by omega))]
    · simp only [if_neg hm]
      rw [if_neg (by simp only [decide_eq_false_iff_not, not_not]; omega)]

theorem exifcopy_ensureExifHeader_eq_with (x : List Byte) :
    Exifcopy.ensureExifHeader x = Exifcopy.ensureExifHeaderWith mallocUpToMax x := by
  unfold Exifcopy.ensureExifHeader Exifcopy.ensureExifHeaderWith mallocUpToMax
  by_cases hx : x.length < 6 ∨ x.take 6 ≠ exifHeader
  · rw [if_pos hx, if_pos hx]
    by_cases hm : (6 + x.length) % SIZE_WRAP > PTRDIFF_MAX
    · simp only [if_pos hm]
      rw [if_pos (decide_eq_false (by omega))]
    · simp only [if_neg hm]
      rw [if_neg (by simp only [decide_eq_false_iff_not, not_not]; omega)]
  · rw [if_neg hx, if_neg hx]

theorem exifcopy_insertExifIntoJpegWith_eq (mallocHeader mallocOk : Nat → Bool)
    (j x : List Byte) :
    Exifcopy.insertExifIntoJpegWith mallocHeader mallocOk j x =
      insertExifIntoJpegWith mallocOk j (Exifcopy.ensureExifHeaderWith mallocHeader x) := by
  unfold Exifcopy.insertExifIntoJpegWith insertExifIntoJpegWith
  rfl

/-- The splicer of exifcopy.c is `Exifcopy.insertExifIntoJpegWith` for the
allocator that serves the sizes up to `PTRDIFF_MAX`. -/
theorem exifcopy_insertExifIntoJpeg_eq_with (j x : List Byte) :
    Exifcopy.insertExifIntoJpeg j x =
      Exifcopy.insertExifIntoJpegWith mallocUpToMax mallocUpToMax j x := by
  rw [exifcopy_insertExifIntoJpeg_eq, exifcopy_insertExifIntoJpegWith_eq,
    insertExifIntoJpeg_eq_with, exifcopy_ensureExifHeader_eq_with]

theorem not_jpeg_iff (j : List Byte) :
    (j.length < 2 ∨ j.take 2 ≠ [0xFF, 0xD8]) ↔ ¬ BeginsWithSoi j := by
  constructor
  · rintro (h | h) hj
    · have := length_of_beginsWithSoi j hj
      omega
    · exact h hj
  · exact fun h => Or.inr h

/-- The three exits of the splicer. -/
theorem insertExifIntoJpegWith_cases (mallocOk : Nat → Bool) (j x : List Byte) :
    (¬ BeginsWithSoi j ∧ insertExifIntoJpegWith mallocOk j x = .rejected) ∨
      (BeginsWithSoi j ∧ mallocOk ((2 + 4 + x.length + (j.length - 2)) % SIZE_WRAP) = false ∧
        insertExifIntoJpegWith mallocOk j x =
          .allocFailed ((2 + 4 + x.length + (j.length - 2)) % SIZE_WRAP)) ∨
      (BeginsWithSoi j ∧ mallocOk ((2 + 4 + x.length + (j.length - 2)) % SIZE_WRAP) = true ∧
        (insertExifIntoJpegWith mallocOk j x).ret = 1) := by
  by_cases hj : BeginsWithSoi j
  · right
    have ht : ¬ (j.length < 2 ∨ j.getD 0 0 ≠ 0xFF ∨ j.getD 1 0 ≠ 0xD8) :=
      fun h => (jpeg_test_iff j).mp h hj
    cases hm : mallocOk ((2 + 4 + x.length + (j.length - 2)) % SIZE_WRAP) with
    | false =>
      left
      refine ⟨hj, rfl, ?_⟩
      unfold insertExifIntoJpegWith
      rw [if_neg ht]
      simp only [hm, if_true]
    | true =>
      right
      refine ⟨hj, rfl, ?_⟩
      unfold insertExifIntoJpegWith
      rw [if_neg ht]
      simp only [hm, Bool.true_eq_false, if_false]
      rfl
  · left
    refine ⟨hj, ?_⟩
    unfold insertExifIntoJpegWith
    rw [if_pos ((jpeg_test_iff j).mpr hj)]

/-- When `malloc` returns `NULL`, the splicer returns 0 on a buffer that begins
with `FF D8`, after it has assigned 20 to `*outputSize` and `NULL` to
`*outputData`; so do both versions. -/
theorem insertExifIntoJpeg_alloc_failure :
    ¬ (sampleJpeg.length < 2 ∨ sampleJpeg.take 2 ≠ [0xFF, 0xD8]) ∧
      insertExifIntoJpegWith mallocNone sampleJpeg smallExif = .allocFailed 20 ∧
      (insertExifIntoJpegWith mallocNone sampleJpeg smallExif).ret = 0 ∧
      (insertExifIntoJpegWith mallocNone sampleJpeg smallExif).outputSize = some 20 ∧
      Exifcopy.insertExifIntoJpegWith mallocNone mallocNone sampleJpeg smallExif =
        .allocFailed 20 ∧
      (Exifcopy.insertExifIntoJpegWith mallocNone mallocNone sampleJpeg smallExif).ret = 0 ∧
      (Exifcopy.insertExifIntoJpegWith mallocNone mallocNone sampleJpeg smallExif).outputSize =
        some 20 := by
  decide

/-- C18, with the failure of the allocation: for every outcome of `malloc`,
`insertExifIntoJpeg` of cr3extract.c and of exifcopy.c return 0 if and only if
the JPEG buffer is shorter than 2 bytes or its first two bytes are not `FF D8`,
or the allocation of the output fails.  In the first case neither
`*outputData` nor `*outputSize` has been written; in the second `*outputSize`
holds the size `2 + 4 + exifSize + (jpegSize - 2)` and `*outputData` is `NULL`.
In exifcopy.c, `exifSize` is the size that `ensureExifHeader` leaves. -/
theorem insertExifIntoJpeg_rejects (mallocHeader mallocOk : Nat → Bool) (j x : List Byte) :
    ((insertExifIntoJpegWith mallocOk j x).ret = 0 ↔
      ((j.length < 2 ∨ j.take 2 ≠ [0xFF, 0xD8]) ∨
        mallocOk ((2 + 4 + x.length + (j.length - 2)) % SIZE_WRAP) = false)) ∧
      ((j.length < 2 ∨ j.take 2 ≠ [0xFF, 0xD8]) →
        insertExifIntoJpegWith mallocOk j x = .rejected ∧
          (insertExifIntoJpegWith mallocOk j x).outputData = none ∧
          (insertExifIntoJpegWith mallocOk j x).outputSize = none) ∧
      (¬ (j.length < 2 ∨ j.take 2 ≠ [0xFF, 0xD8]) →
        mallocOk ((2 + 4 + x.length + (j.length - 2)) % SIZE_WRAP) = false →
          insertExifIntoJpegWith mallocOk j x =
            .allocFailed ((2 + 4 + x.length + (j.length - 2)) % SIZE_WRAP)) ∧
      ((Exifcopy.insertExifIntoJpegWith mallocHeader mallocOk j x).ret = 0 ↔
        ((j.length < 2 ∨ j.take 2 ≠ [0xFF, 0xD8]) ∨
          mallocOk ((2 + 4 + (Exifcopy.ensureExifHeaderWith mallocHeader x).length +
            (j.length - 2)) % SIZE_WRAP) = false)) ∧
      ((j.length < 2 ∨ j.take 2 ≠ [0xFF, 0xD8]) →
        Exifcopy.insertExifIntoJpegWith mallocHeader mallocOk j x = .rejected ∧
          (Exifcopy.insertExifIntoJpegWith mallocHeader mallocOk j x).outputData = none ∧
          (Exifcopy.insertExifIntoJpegWith mallocHeader mallocOk j x).outputSize = none) ∧
      (¬ (j.length < 2 ∨ j.take 2 ≠ [0xFF, 0xD8]) →
        mallocOk ((2 + 4 + (Exifcopy.ensureExifHeaderWith mallocHeader x).length +
          (j.length - 2)) % SIZE_WRAP) = false →
          Exifcopy.insertExifIntoJpegWith mallocHeader mallocOk j x =
            .allocFailed ((2 + 4 + (Exifcopy.ensureExifHeaderWith mallocHeader x).length +
              (j.length - 2)) % SIZE_WRAP)) := by
  have key : ∀ y : List Byte,
      ((insertExifIntoJpegWith mallocOk j y).ret = 0 ↔
        ((j.length < 2 ∨ j.take 2 ≠ [0xFF, 0xD8]) ∨
          mallocOk ((2 + 4 + y.length + (j.length - 2)) % SIZE_WRAP) = false)) ∧
        ((j.length < 2 ∨ j.take 2 ≠ [0xFF, 0xD8]) →
          insertExifIntoJpegWith mallocOk j y = .rejected ∧
            (insertExifIntoJpegWith mallocOk j y).outputData = none ∧
            (insertExifIntoJpegWith mallocOk j y).outputSize = none) ∧
        (¬ (j.length < 2 ∨ j.take 2 ≠ [0xFF, 0xD8]) →
          mallocOk ((2 + 4 + y.length + (j.length - 2)) % SIZE_WRAP) = false →
            insertExifIntoJpegWith mallocOk j y =
              .allocFailed ((2 + 4 + y.length + (j.length - 2)) % SIZE_WRAP)) := by
    intro y
    rw [not_jpeg_iff]
    rcases insertExifIntoJpegWith_cases mallocOk j y with
      ⟨hj, e⟩ | ⟨hj, hm, e⟩ | ⟨hj, hm, e⟩
    · rw [e]
      exact ⟨⟨fun _ => Or.inl hj, fun _ => rfl⟩, fun _ => ⟨rfl, rfl, rfl⟩,
        fun h => absurd hj h⟩
    · refine ⟨⟨fun _ => Or.inr hm, fun _ => by rw [e]; rfl⟩, fun h => absurd hj h,
        fun _ _ => e⟩
    · refine ⟨⟨fun h => ?_, fun h => ?_⟩, fun h => absurd hj h, fun _ h => ?_⟩
      · rw [e] at h
        exact absurd h (by decide)
      · rcases h with h | h
        · exact absurd hj h
        · rw [hm] at h
          exact absurd h (by decide)
      · rw [hm] at h
        exact absurd h (by decide)
  obtain ⟨a, b, c⟩ := key x
  obtain ⟨d, e, f⟩ := key (Exifcopy.ensureExifHeaderWith mallocHeader x)
  rw [← exifcopy_insertExifIntoJpegWith_eq] at d e f
  exact ⟨a, b, c, d, e, f⟩

/-- C18, on the two-byte buffer `FF D9`, which is rejected, and the JPEG
`sampleJpeg` with an allocator that serves at most 16 bytes, where the
allocation of the 20 bytes of the output fails. -/
theorem insertExifIntoJpeg_rejects_witness :
    insertExifIntoJpegWith mallocUpToMax [0xFF, 0xD9] smallExif = .rejected ∧
      (insertExifIntoJpegWith (fun n => decide (n ≤ 16)) sampleJpeg smallExif).ret = 0 ∧
      insertExifIntoJpegWith (fun n => decide (n ≤ 16)) sampleJpeg smallExif =
        .allocFailed 20 ∧
      (insertExifIntoJpegWith mallocUpToMax sampleJpeg smallExif).ret ≠ 0 :=
  ⟨((insertExifIntoJpeg_rejects mallocUpToMax mallocUpToMax [0xFF, 0xD9] smallExif).2.1
      (by decide)).1,
    (insertExifIntoJpeg_rejects mallocUpToMax (fun n => decide (n ≤ 16)) sampleJpeg
      smallExif).1.mpr (Or.inr (by decide)),
    (insertExifIntoJpeg_rejects mallocUpToMax (fun n => decide (n ≤ 16)) sampleJpeg
      smallExif).2.2.1 (by decide) (by decide),
    fun h => absurd ((insertExifIntoJpeg_rejects mallocUpToMax mallocUpToMax sampleJpeg
      smallExif).1.mp h) (by decide)⟩

/-- C19: the APP1 length field has 16 bits and wraps around.  For every JPEG
buffer `j` and every exif blob `x`, of a combined size that `malloc` serves,
the two length bytes that `insertExifIntoJpeg` writes at offsets 4 and 5 encode
`(len(x) + 2) mod 65536` in big-endian; this is `len(x) + 2` exactly when
`len(x) <= 65533`, and for a larger `x` the field is smaller than the segment,
while the `len(x)` bytes of `x` are all emitted after it. -/
theorem insertExifIntoJpeg_length_field (j x : List Byte) (hj : BeginsWithSoi j)
    (hfit : j.length + 4 + x.length ≤ PTRDIFF_MAX) :
    ∃ out, insertExifIntoJpeg j x = .ok out (j.length + 4 + x.length) ∧
      be16 out 4 = (x.length + 2) % 65536 ∧
      (be16 out 4 = x.length + 2 ↔ x.length ≤ 65533) ∧
      (65533 < x.length → be16 out 4 < x.length + 2) ∧
      (out.drop 6).take x.length = x := by
  refine ⟨_, insertExifIntoJpeg_of_jpeg j x hj hfit, ?_⟩
  rw [List.append_assoc _ x, splice_shape j hj, be16_splice]
  refine ⟨rfl, by omega, by omega, ?_⟩
  exact List.take_left' rfl

/-- C19, on `sampleJpeg` and `smallExif`, whose length field is 12. -/
theorem insertExifIntoJpeg_length_field_witness :
    ∃ out, insertExifIntoJpeg sampleJpeg smallExif =
        .ok out (sampleJpeg.length + 4 + smallExif.length) ∧
      be16 out 4 = (smallExif.length + 2) % 65536 ∧
      (be16 out 4 = smallExif.length + 2 ↔ smallExif.length ≤ 65533) ∧
      (65533 < smallExif.length → be16 out 4 < smallExif.length + 2) ∧
      (out.drop 6).take smallExif.length = smallExif :=
  insertExifIntoJpeg_length_field sampleJpeg smallExif (by decide) (by decide)

/-- C20: the splicer of exifcopy.c ensures the Exif header.  For every JPEG
buffer `j` that begins with `FF D8` and every exif input `x`, of a combined
size that `malloc` serves: when `x` is shorter than 6 bytes or does not begin
with `45 78 69 66 00 00`, the output is
`j[0..2) ++ FF E1 ++ BE16(len(x) + 8) ++ 45 78 69 66 00 00 ++ x ++ j[2..)`;
when `x` begins with the header, nothing is prepended; and
`ensureExifHeader` applied twice is `ensureExifHeader` applied once. -/
theorem exifcopy_insertExifIntoJpeg_header (j x : List Byte) (hj : BeginsWithSoi j)
    (hfit : j.length + 10 + x.length ≤ PTRDIFF_MAX) :
    (x.length < 6 ∨ x.take 6 ≠ exifHeader →
      Exifcopy.insertExifIntoJpeg j x =
        .ok (j.take 2 ++ [0xFF, 0xE1] ++ be16Bytes (x.length + 8) ++ exifHeader ++ x ++ j.drop 2)
          (j.length + 10 + x.length)) ∧
      (x.take 6 = exifHeader →
        Exifcopy.ensureExifHeader x = x ∧
        Exifcopy.insertExifIntoJpeg j x =
          .ok (j.take 2 ++ [0xFF, 0xE1] ++ be16Bytes (x.length + 2) ++ x ++ j.drop 2)
            (j.length + 4 + x.length)) ∧
      Exifcopy.ensureExifHeader (Exifcopy.ensureExifHeader x) = Exifcopy.ensureExifHeader x := by
  have h6 : exifHeader.length = 6 := rfl
  refine ⟨fun h => ?_, fun h => ?_, ensureExifHeader_idem x⟩
  · have hno : ¬ HasExifHeader x := by
      rcases h with h | h
      · intro hx
        have := length_of_hasExifHeader x hx
        omega
      · exact h
    rw [exifcopy_insertExifIntoJpeg_eq, ensureExifHeader_of_no_header x hno (by omega),
      insertExifIntoJpeg_of_jpeg j _ hj (by rw [List.length_append, h6]; omega),
      List.length_append, h6]
    congr 1
    · rw [show 6 + x.length + 2 = x.length + 8 by omega]
      simp only [List.append_assoc]
    · omega
  · rw [exifcopy_insertExifIntoJpeg_eq, ensureExifHeader_of_header x h]
    exact ⟨rfl, insertExifIntoJpeg_of_jpeg j x hj (by omega)⟩

/-- C20, on `sampleJpeg` and the bare TIFF header `bareTiff`, which gets the
header, and on `smallExif`, which has it. -/
theorem exifcopy_insertExifIntoJpeg_header_witness :
    Exifcopy.insertExifIntoJpeg sampleJpeg bareTiff =
        .ok (sampleJpeg.take 2 ++ [0xFF, 0xE1] ++ be16Bytes (bareTiff.length + 8) ++ exifHeader ++
          bareTiff ++ sampleJpeg.drop 2) (sampleJpeg.length + 10 + bareTiff.length) ∧
      Exifcopy.ensureExifHeader smallExif = smallExif :=
  ⟨(exifcopy_insertExifIntoJpeg_header sampleJpeg bareTiff (by decide) (by decide)).1 (by decide),
    ((exifcopy_insertExifIntoJpeg_header sampleJpeg smallExif (by decide) (by decide)).2.1
      (by decide)).1⟩

/-! ## Properties of the TIFF scan -/

theorem tiffScanFrom_nil (uuidBox : List Byte) (uuidSize pos : Nat) :
    tiffScanFrom uuidBox uuidSize pos [] =
      if pos < (uuidSize + SIZE_WRAP - 4) % SIZE_WRAP then .outOfBounds pos else .notFound := rfl

theorem tiffScanFrom_singleton (uuidBox : List Byte) (uuidSize pos : Nat) (a : Byte) :
    tiffScanFrom uuidBox uuidSize pos [a] =
      if pos < (uuidSize + SIZE_WRAP - 4) % SIZE_WRAP then .outOfBounds pos else .notFound := rfl

/-- A value 42 read by `read16le` comes from two bytes inside the buffer. -/
theorem read16le_inside (data : List Byte) (off : Nat) (h : read16le data off data.length = 42)
    (hoff : off + 1 < 2 ^ 64) : off + 1 < data.length := by
  have hW : SIZE_WRAP = 2 ^ 64 := rfl
  by_contra hc
  unfold read16le at h
  rw [hW, Nat.mod_eq_of_lt hoff, if_pos (by omega)] at h
  exact absurd h (by decide)

/-- The shape of what is left of the buffer at an offset. -/
theorem drop_shape (payload : List Byte) (q : Nat) :
    (payload.length ≤ q ∧ payload.drop q = []) ∨
      (q + 1 = payload.length ∧ ∃ a, payload.drop q = [a]) ∨
      (q + 2 ≤ payload.length ∧ ∃ a b tl, payload.drop q = a :: b :: tl) := by
  have hlen : (payload.drop q).length = payload.length - q := List.length_drop q payload
  match hd : payload.drop q, hlen with
  | [], h => simp at h; exact Or.inl ⟨by omega, rfl⟩
  | [a], h => simp at h; exact Or.inr (Or.inl ⟨by omega, a, rfl⟩)
  | a :: b :: tl, h => simp at h; exact Or.inr (Or.inr ⟨by omega, a, b, tl, rfl⟩)

theorem drop_succ_of_drop (payload : List Byte) (q : Nat) (a : Byte) (tl : List Byte)
    (h : payload.drop q = a :: tl) : payload.drop (q + 1) = tl := by
  have : payload.drop (q + 1) = (payload.drop q).drop 1 := by rw [List.drop_drop]
  rw [this, h]
  rfl

/-- An offset that the scan reports carries the signature, which lies within
the buffer. -/
theorem tiffScanFrom_sound (payload : List Byte) (hL : payload.length ≤ PTRDIFF_MAX) (p : Nat) :
    ∀ (n q : Nat), payload.length ≤ q + n →
      tiffScanFrom payload payload.length q (payload.drop q) = .found p →
      q ≤ p ∧ p + 4 ≤ payload.length ∧ HasTiffSignature payload p := by
  have hP : PTRDIFF_MAX = 2 ^ 63 - 1 := rfl
  intro n
  induction n with
  | zero =>
    intro q hq h
    rcases drop_shape payload q with ⟨_, e⟩ | ⟨h1, _⟩ | ⟨h2, _⟩
    · rw [e, tiffScanFrom_nil] at h
      split_ifs at h
    · omega
    · omega
  | succ k ih =>
    intro q hq h
    rcases drop_shape payload q with ⟨_, e⟩ | ⟨_, a, e⟩ | ⟨h2, a, b, tl, e⟩
    · rw [e, tiffScanFrom_nil] at h
      split_ifs at h
    · rw [e, tiffScanFrom_singleton] at h
      split_ifs at h
    · rw [e, tiffScanFrom_cons_cons] at h
      by_cases hb : q < (payload.length + SIZE_WRAP - 4) % SIZE_WRAP
      · rw [if_pos hb] at h
        by_cases hc : a = 0x49 ∧ b = 0x49 ∧ read16le payload (q + 2) payload.length = 42
        · rw [if_pos hc] at h
          have hqp : q = p := by injection h
          subst hqp
          have hin := read16le_inside payload (q + 2) hc.2.2 (by omega)
          exact ⟨Nat.le_refl q, by omega,
            (tiffCond_iff payload q a b tl e (by omega) (by omega)).mp hc⟩
        · rw [if_neg hc, ← drop_succ_of_drop payload q a (b :: tl) e] at h
          obtain ⟨h1, h2, h3⟩ := ih (q + 1) (by omega) h
          exact ⟨by omega, h2, h3⟩
      · rw [if_neg hb] at h
        exact absurd h (by simp)

theorem tiffScan_sound (payload : List Byte) (hL : payload.length ≤ PTRDIFF_MAX) (p : Nat)
    (h : tiffScan payload = .found p) :
    p + 4 ≤ payload.length ∧ HasTiffSignature payload p := by
  have := tiffScanFrom_sound payload hL p payload.length 0 (by omega)
    (by simpa [tiffScan] using h)
  exact ⟨this.2.1, this.2.2⟩

/-- Without a signature the scan of a payload of at least 4 bytes ends with
`found = 0`, and the scan of a shorter payload runs past the end of the buffer:
the bound `uuidSize - 4` is then at least `2^64 - 4`. -/
theorem tiffScanFrom_no_signature (payload : List Byte) (hL : payload.length ≤ PTRDIFF_MAX)
    (hno : ∀ p, ¬ HasTiffSignature payload p) :
    ∀ (n q : Nat), payload.length ≤ q + n → q ≤ payload.length →
      tiffScanFrom payload payload.length q (payload.drop q) =
        if payload.length < 4 then .outOfBounds (max q (payload.length - 1)) else .notFound := by
  have hW : SIZE_WRAP = 2 ^ 64 := rfl
  have hP : PTRDIFF_MAX = 2 ^ 63 - 1 := rfl
  have hmax : ∀ q, payload.length ≤ q + 1 → q = max q (payload.length - 1) := by
    intro q h
    rw [Nat.max_def]
    split_ifs <;> omega
  have hbound : (payload.length + SIZE_WRAP - 4) % SIZE_WRAP =
      if payload.length < 4 then payload.length + 2 ^ 64 - 4 else payload.length - 4 := by
    rw [hW]
    split_ifs <;> omega
  have hnil : ∀ q, payload.length ≤ q + 1 → q ≤ payload.length →
      (if q < (payload.length + SIZE_WRAP - 4) % SIZE_WRAP then TiffScan.outOfBounds q
        else TiffScan.notFound) =
        if payload.length < 4 then .outOfBounds (max q (payload.length - 1)) else .notFound := by
    intro q h1 h2
    rw [hbound]
    by_cases h4 : payload.length < 4
    · rw [if_pos h4, if_pos h4, if_pos (by omega)]
      exact congrArg TiffScan.outOfBounds (hmax q h1)
    · rw [if_neg h4, if_neg h4, if_neg (by omega)]
  intro n
  induction n with
  | zero =>
    intro q hq hq'
    rcases drop_shape payload q with ⟨_, e⟩ | ⟨h1, _⟩ | ⟨h2, _⟩
    · rw [e, tiffScanFrom_nil]
      exact hnil q (by omega) hq'
    · omega
    · omega
  | succ k ih =>
    intro q hq hq'
    rcases drop_shape payload q with ⟨_, e⟩ | ⟨h1, a, e⟩ | ⟨h2, a, b, tl, e⟩
    · rw [e, tiffScanFrom_nil]
      exact hnil q (by omega) hq'
    · rw [e, tiffScanFrom_singleton]
      exact hnil q (by omega) hq'
    · rw [e, tiffScanFrom_cons_cons]
      have hc : ¬ (a = 0x49 ∧ b = 0x49 ∧ read16le payload (q + 2) payload.length = 42) := by
        intro hc
        have hin := read16le_inside payload (q + 2) hc.2.2 (by omega)
        exact hno q ((tiffCond_iff payload q a b tl e (by omega) (by omega)).mp hc)
      rw [if_neg hc, ← drop_succ_of_drop payload q a (b :: tl) e,
        ih (q + 1) (by omega) (by omega), hbound]
      by_cases h4 : payload.length < 4
      · simp only [if_pos h4]
        rw [if_pos (by omega)]
        refine congrArg TiffScan.outOfBounds ?_
        rw [Nat.max_def, Nat.max_def]
        split_ifs <;> omega
      · simp only [if_neg h4]
        split_ifs <;> rfl

theorem tiffScan_no_signature (payload : List Byte) (hL : payload.length ≤ PTRDIFF_MAX)
    (hno : ∀ p, ¬ HasTiffSignature payload p) :
    tiffScan payload =
      if payload.length < 4 then .outOfBounds (payload.length - 1) else .notFound := by
  have := tiffScanFrom_no_signature payload hL hno payload.length 0 (by omega) (by omega)
  rw [Nat.zero_max] at this
  simpa [tiffScan] using this

/-- The payload that the walk of the `moov` payload copies is one that `malloc`
served. -/
theorem uuidWalkStep_found_length (m : List Byte) (pos : Nat) (u : List Byte)
    (h : uuidWalkStep m pos = .exit (.found u)) : u.length ≤ PTRDIFF_MAX := by
  unfold uuidWalkStep at h
  dsimp only at h
  generalize be32 (m.getD pos 0) (m.getD (pos + 1) 0) (m.getD (pos + 2) 0)
    (m.getD (pos + 3) 0) = size32 at h
  generalize be64 (m.getD (pos + 8) 0) (m.getD (pos + 9) 0) (m.getD (pos + 10) 0)
    (m.getD (pos + 11) 0) (m.getD (pos + 12) 0) (m.getD (pos + 13) 0)
    (m.getD (pos + 14) 0) (m.getD (pos + 15) 0) = size64 at h
  generalize (if size32 = 1 then size64 else size32) = boxSize at h
  generalize (if size32 = 1 then 16 else 8) = headerSize at h
  split_ifs at h with h1 h2 h3 h4 h5
  · exact absurd h (by simp)
  · exact absurd h (by simp)
  · exact absurd h (by simp)
  · exact absurd h (by simp)
  · have hu : (m.drop (pos + headerSize)).take (boxSize - headerSize) = u := by
      injection h with h
      injection h
    rw [← hu, List.length_take]
    omega

theorem uuidWalkLoop_found_length (m : List Byte) (u : List Byte) :
    ∀ (fuel pos : Nat), uuidWalkLoop m fuel pos = some (.found u) →
      u.length ≤ PTRDIFF_MAX := by
  intro fuel
  induction fuel with
  | zero => intro pos h; simp [uuidWalkLoop] at h
  | succ n ih =>
    intro pos h
    unfold uuidWalkLoop at h
    by_cases hc : (pos + 8) % SIZE_WRAP ≤ m.length
    · rw [if_pos hc] at h
      cases hs : uuidWalkStep m pos with
      | next q =>
        rw [hs] at h
        exact ih q h
      | exit e =>
        rw [hs] at h
        have he : e = .found u := by injection h
        rw [he] at hs
        exact uuidWalkStep_found_length m pos u hs
    · rw [if_neg hc] at h
      exact absurd h (by simp)

/-- A successful call of `extractCr3Exif_streaming` went through the three
steps: the `moov` box, the `uuid` box in its payload, the signature in the
payload of that box. -/
theorem extractCr3Exif_streaming_found (fuel : Nat) (f : List Byte) (fileSize : Nat)
    (blob : List Byte) (h : extractCr3Exif_streaming fuel f fileSize = some (.found blob)) :
    ∃ moovBox uuidBox pos, findBox_streaming fuel f 0 fileSize tagMoov = some (.found moovBox) ∧
      uuidWalkLoop moovBox fuel 0 = some (.found uuidBox) ∧ tiffScan uuidBox = .found pos ∧
      blob = exifHeader ++ uuidBox.drop pos := by
  unfold extractCr3Exif_streaming at h
  cases h1 : findBox_streaming fuel f 0 fileSize tagMoov with
  | none => rw [h1] at h; simp at h
  | some e =>
    rw [h1] at h
    cases e with
    | found moovBox =>
      simp only at h
      cases h2 : uuidWalkLoop moovBox fuel 0 with
      | none => rw [h2] at h; simp at h
      | some e2 =>
        rw [h2] at h
        cases e2 with
        | found uuidBox =>
          simp only at h
          cases h3 : tiffScan uuidBox with
          | found pos =>
            rw [h3] at h
            simp only [Option.some.injEq, ExifResult.found.injEq] at h
            exact ⟨moovBox, uuidBox, pos, rfl, h2, h3, h.symm⟩
          | notFound => rw [h3] at h; simp at h
          | outOfBounds pos => rw [h3] at h; simp at h
        | _ => simp at h
    | _ => simp at h

/-! ### The claims about the TIFF scan of `extractCr3Exif_streaming` -/

/-- C11 fails on the code.  The source `moovUuidFile [49]` is a `moov` box
wrapping a `uuid` box whose payload is the single byte `49`, which holds no
signature.  The bound `uuidSize - 4` of the loop is `2^64 - 3`, the loop is
entered at `pos = 0`, and `memcmp(uuidBox + pos, "II", 2)` reads the byte at
offset 1 of a buffer of one byte: the call does not report not-found, whatever
the fuel.  The same happens at `pos = 2` for the payload `00 00 00`, and at
`pos = 0` for the empty payload.  A payload of four bytes without a signature
is reported as not found. -/
theorem extractCr3Exif_streaming_short_payload :
    (∀ p, ¬ HasTiffSignature [0x49] p) ∧
      (∀ k, extractCr3Exif_streaming (2 + k) (moovUuidFile [0x49]) 17 =
        some (.outOfBounds 0)) ∧
      (∀ k, extractCr3Exif_streaming (2 + k) (moovUuidFile [0, 0, 0]) 19 =
        some (.outOfBounds 2)) ∧
      (∀ k, extractCr3Exif_streaming (2 + k) (moovUuidFile []) 16 = some (.outOfBounds 0)) ∧
      extractCr3Exif_streaming 2 (moovUuidFile [0, 0, 0, 0]) 20 = some .noTiff := by
  refine ⟨fun p h => ?_, fun k => ?_, fun k => ?_, fun k => ?_, by decide⟩
  · have := congrArg List.length h
    simp only [HasTiffSignature, List.length_take, List.length_drop, List.length_cons,
      List.length_nil] at this
    omega
  · exact extractCr3Exif_streaming_fuel_mono _ _ 2 k _ (by decide)
  · exact extractCr3Exif_streaming_fuel_mono _ _ 2 k _ (by decide)
  · exact extractCr3Exif_streaming_fuel_mono _ _ 2 k _ (by decide)

/-- C12: the blob that the locator returns.  Whenever
`extractCr3Exif_streaming` succeeds, the blob it returns has at least 6 bytes,
its first six bytes are `45 78 69 66 00 00`, its bytes 6 to 9 are
`49 49 2A 00`, and its length is 6 plus the length of the `uuid` payload minus
the offset of the signature; the blob is the header followed by the payload
from the signature on. -/
theorem extractCr3Exif_streaming_blob (fuel : Nat) (f : List Byte) (fileSize : Nat)
    (blob : List Byte) (h : extractCr3Exif_streaming fuel f fileSize = some (.found blob)) :
    6 ≤ blob.length ∧ blob.take 6 = exifHeader ∧
      (blob.drop 6).take 4 = [0x49, 0x49, 0x2A, 0x00] ∧
      ∃ moovBox uuidBox pos,
        findBox_streaming fuel f 0 fileSize tagMoov = some (.found moovBox) ∧
        uuidWalkLoop moovBox fuel 0 = some (.found uuidBox) ∧
        HasTiffSignature uuidBox pos ∧ pos + 4 ≤ uuidBox.length ∧
        blob = exifHeader ++ uuidBox.drop pos ∧
        blob.length = 6 + (uuidBox.length - pos) := by
  obtain ⟨moovBox, uuidBox, pos, h1, h2, h3, rfl⟩ :=
    extractCr3Exif_streaming_found fuel f fileSize blob h
  have hL := uuidWalkLoop_found_length moovBox uuidBox fuel 0 h2
  obtain ⟨hp, hsig⟩ := tiffScan_sound uuidBox hL pos h3
  have h6 : exifHeader.length = 6 := rfl
  have hlen : (exifHeader ++ uuidBox.drop pos).length = 6 + (uuidBox.length - pos) := by
    rw [List.length_append, List.length_drop, h6]
  refine ⟨by omega, List.take_left' h6, ?_, moovBox, uuidBox, pos, h1, h2, hsig, hp, rfl, hlen⟩
  rw [← h6, List.drop_left]
  exact hsig

/-- C12, on a `moov` box wrapping a `uuid` box whose payload is the signature
followed by one byte. -/
theorem extractCr3Exif_streaming_blob_witness :
    extractCr3Exif_streaming 2 (moovUuidFile [0x49, 0x49, 0x2A, 0x00, 8]) 21 =
        some (.found (exifHeader ++ [0x49, 0x49, 0x2A, 0x00, 8])) ∧
      6 ≤ (exifHeader ++ [0x49, 0x49, 0x2A, 0x00, 8] : List Byte).length ∧
      (exifHeader ++ [0x49, 0x49, 0x2A, 0x00, 8] : List Byte).take 6 = exifHeader ∧
      ((exifHeader ++ [0x49, 0x49, 0x2A, 0x00, 8] : List Byte).drop 6).take 4 =
        [0x49, 0x49, 0x2A, 0x00] :=
  ⟨by decide,
    (extractCr3Exif_streaming_blob 2 (moovUuidFile [0x49, 0x49, 0x2A, 0x00, 8]) 21 _
      (by decide)).1,
    (extractCr3Exif_streaming_blob 2 (moovUuidFile [0x49, 0x49, 0x2A, 0x00, 8]) 21 _
      (by decide)).2.1,
    (extractCr3Exif_streaming_blob 2 (moovUuidFile [0x49, 0x49, 0x2A, 0x00, 8]) 21 _
      (by decide)).2.2.1⟩

/-! ## Properties of the scanner on a stream -/

theorem scanLoop_cons (st : ScanState) (buffer : List Byte) (rest : List (List Byte)) :
    scanLoop st (buffer :: rest) =
      if buffer = [] then st else scanLoop (processChunk st buffer) rest := rfl

theorem scanStream_succ (fuel : Nat) (st : ScanState) (s : Stream) :
    scanStream (fuel + 1) st s =
      if (s.fread BUFFER_SIZE).1 = [] then (st, (s.fread BUFFER_SIZE).2)
      else scanStream fuel (processChunk st (s.fread BUFFER_SIZE).1) (s.fread BUFFER_SIZE).2 :=
  rfl

theorem freadAll_succ (n fuel : Nat) (data : List Byte) :
    freadAll n (fuel + 1) data =
      if data = [] then [] else data.take n :: freadAll n fuel (data.drop n) := rfl

/-- The loop on a stream processes the chunks of the bytes that the device
delivers from the read position on, and leaves the stream at their end, with
the error indicator set when the device has not delivered the whole file. -/
theorem scanStream_eq (data : List Byte) (failAt : Option Nat) :
    ∀ (fuel : Nat) (st : ScanState) (pos : Nat) (err : Bool),
      pos ≤ (Stream.readable ⟨data, pos, failAt, err⟩).length →
      (Stream.readable ⟨data, pos, failAt, err⟩).length ≤ pos + fuel →
      scanStream (fuel + 1) st ⟨data, pos, failAt, err⟩ =
        (scanLoop st (freadAll BUFFER_SIZE fuel
            ((Stream.readable ⟨data, pos, failAt, err⟩).drop pos)),
          ⟨data, (Stream.readable ⟨data, pos, failAt, err⟩).length, failAt,
            err ||
              decide ((Stream.readable ⟨data, pos, failAt, err⟩).length < data.length)⟩) := by
  have hR : ∀ pos err, Stream.readable ⟨data, pos, failAt, err⟩ =
      Stream.readable ⟨data, 0, failAt, false⟩ := fun _ _ => rfl
  generalize hRd : Stream.readable ⟨data, 0, failAt, false⟩ = R at hR
  have hB : BUFFER_SIZE = 4096 := rfl
  have hfread : ∀ pos err, Stream.fread BUFFER_SIZE ⟨data, pos, failAt, err⟩ =
      ((R.drop pos).take BUFFER_SIZE,
        ⟨data, pos + ((R.drop pos).take BUFFER_SIZE).length, failAt,
          err || (decide (((R.drop pos).take BUFFER_SIZE).length < BUFFER_SIZE) &&
            decide (R.length < data.length))⟩) := by
    intro pos err
    unfold Stream.fread
    simp only [hR]
  intro fuel
  induction fuel with
  | zero =>
    intro st pos err h1 h2
    rw [hR] at h1 h2 ⊢
    have hpos : pos = R.length := by omega
    have hnil : R.drop pos = [] := List.drop_eq_nil_of_le (by omega)
    rw [scanStream_succ, hfread, hnil]
    simp only [List.take_nil, if_true, List.length_nil, Nat.add_zero, freadAll, scanLoop, hpos,
      hB]
    simp
  | succ k ih =>
    intro st pos err h1 h2
    rw [hR] at h1 h2 ⊢
    rw [scanStream_succ, hfread, freadAll_succ]
    by_cases hnil : R.drop pos = []
    · have hpos : pos = R.length := by
        have := congrArg List.length hnil
        rw [List.length_drop, List.length_nil] at this
        omega
      rw [hnil]
      simp only [List.take_nil, if_true, List.length_nil, Nat.add_zero, scanLoop, hpos, hB]
      simp
    · have hlt : pos < R.length := by
        by_contra hc
        exact hnil (List.drop_eq_nil_of_le (by omega))
      have hbl : ((R.drop pos).take BUFFER_SIZE).length = min BUFFER_SIZE (R.length - pos) := by
        rw [List.length_take, List.length_drop]
      have hne : (R.drop pos).take BUFFER_SIZE ≠ [] := by
        intro hc
        have := congrArg List.length hc
        rw [hbl, hB, List.length_nil] at this
        omega
      rw [if_neg hne, if_neg hnil, scanLoop_cons, if_neg hne]
      have hdrop : (R.drop pos).drop BUFFER_SIZE =
          R.drop (pos + ((R.drop pos).take BUFFER_SIZE).length) := by
        rw [List.drop_drop, hbl]
        by_cases hs : BUFFER_SIZE ≤ R.length - pos
        · rw [Nat.min_eq_left hs, Nat.add_comm]
        · rw [Nat.min_eq_right (by omega), List.drop_eq_nil_of_le (by omega),
            List.drop_eq_nil_of_le (by omega)]
      have ih' := ih (processChunk st ((R.drop pos).take BUFFER_SIZE))
        (pos + ((R.drop pos).take BUFFER_SIZE).length)
        (err || (decide (((R.drop pos).take BUFFER_SIZE).length < BUFFER_SIZE) &&
            decide (R.length < data.length)))
        (by rw [hR, hbl]; omega) (by rw [hR, hbl, hB]; omega)
      rw [hR] at ih'
      rw [ih', hdrop]
      congr 2
      cases err <;> cases decide (R.length < data.length) <;> simp

/-- On a stream, `find_all_jpegs` rewinds, scans what the device delivers, and
discards the ranges when the device has not delivered the whole file. -/
theorem find_all_jpegs_stream_eq (s : Stream) :
    find_all_jpegs_stream s =
      if s.readable.length < s.data.length then
        ({ ret := -1, jpegs := none, count := 0 },
          ⟨s.data, s.readable.length, s.failAt, true⟩)
      else
        ({ ret := 0, jpegs := some (scanAll s.readable), count := (scanAll s.readable).length },
          ⟨s.data, 0, s.failAt, false⟩) := by
  obtain ⟨data, pos, failAt, err⟩ := s
  have hR : ∀ pos err, Stream.readable ⟨data, pos, failAt, err⟩ =
      Stream.readable ⟨data, 0, failAt, false⟩ := fun _ _ => rfl
  have hle : (Stream.readable ⟨data, 0, failAt, false⟩).length ≤ data.length := by
    unfold Stream.readable
    cases failAt with
    | none => exact Nat.le_refl _
    | some k => exact List.length_take_le' k data
  have hn : 0 < BUFFER_SIZE := by decide
  have hloop := scanStream_eq data failAt data.length ScanState.init 0 false (Nat.zero_le _)
    (by omega)
  have hreads := find_all_jpegs_reads_eq
    (freadAll BUFFER_SIZE data.length (Stream.readable ⟨data, 0, failAt, false⟩))
    (fun c hc => (freadAll_ne_nil BUFFER_SIZE data.length _ hn c hc).1)
  rw [freadAll_join BUFFER_SIZE data.length _ hn hle] at hreads
  simp only [find_all_jpegs_reads, Bool.false_eq_true, if_false, ScanResult.mk.injEq,
    Option.some.injEq, true_and] at hreads
  unfold find_all_jpegs_stream Stream.rewind
  simp only [hR] at hloop ⊢
  rw [List.drop_zero] at hloop
  rw [hloop]
  simp only [Bool.false_or, decide_eq_true_eq]
  by_cases hlt : (Stream.readable ⟨data, 0, failAt, false⟩).length < data.length
  · rw [if_pos hlt, if_pos hlt]
    simp [hlt]
  · rw [if_neg hlt, if_neg hlt, hreads.1]

/-- Without an `FF D8` followed later by an `FF D9` the single pass closes no
range. -/
theorem scanAll_eq_nil (b : List Byte) (h : NoSoiThenEoi b) : scanAll b = [] := by
  apply List.eq_nil_iff_forall_not_mem.mpr
  intro r hr
  obtain ⟨_, h4, hlen, hsF, hs8, heF, he9⟩ := (scanAll_inv b).1 r hr
  refine h r.start (by omega) (r.end_ - 2) (by omega) (by omega) ⟨hsF, hs8, heF, ?_⟩
  rw [show r.end_ - 2 + 1 = r.end_ - 1 by omega]
  exact he9

/-! ### The claims about the results and the read position of `find_all_jpegs` -/

/-- C26: an empty scan result is a success.  For every source in which no
`FF D8` is followed later by an `FF D9`, `find_all_jpegs` returns 0 with an
array of zero ranges and the count 0. -/
theorem find_all_jpegs_empty (b : List Byte) (h : NoSoiThenEoi b) :
    find_all_jpegs b = { ret := 0, jpegs := some [], count := 0 } := by
  rw [find_all_jpegs_eq, scanAll_eq_nil b h]
  rfl

/-- C26, on the empty source, a source with an `FF D8` and no later `FF D9`,
and a source whose only `FF D9` comes before its `FF D8`. -/
theorem find_all_jpegs_empty_witness :
    find_all_jpegs [] = { ret := 0, jpegs := some [], count := 0 } ∧
      find_all_jpegs [1, 0xFF, 0xD8, 2, 0xFF] = { ret := 0, jpegs := some [], count := 0 } ∧
      find_all_jpegs [0xFF, 0xD9, 0xFF, 0xD8, 0] = { ret := 0, jpegs := some [], count := 0 } :=
  ⟨find_all_jpegs_empty [] (by decide), find_all_jpegs_empty [1, 0xFF, 0xD8, 2, 0xFF] (by decide),
    find_all_jpegs_empty [0xFF, 0xD9, 0xFF, 0xD8, 0] (by decide)⟩

/-- C28: a read error discards the partial results.  When the device stops
delivering bytes at an offset `k` before the end of the file, whatever the read
position and the error indicator before the call, `find_all_jpegs` returns -1
with the count 0 and no array, although its loop has closed every range of the
first `k` bytes; and on any sequence of results of `fread` after which `ferror`
holds, it returns -1 with the count 0 and no array. -/
theorem find_all_jpegs_read_error (data : List Byte) (pos k : Nat) (err : Bool)
    (hk : k < data.length) :
    (find_all_jpegs_stream ⟨data, pos, some k, err⟩).1 =
        { ret := -1, jpegs := none, count := 0 } ∧
      (scanStream (data.length + 1) ScanState.init
        (Stream.rewind ⟨data, pos, some k, err⟩)).1.jpegs = scanAll (data.take k) ∧
      ∀ reads, find_all_jpegs_reads reads true = { ret := -1, jpegs := none, count := 0 } := by
  have hlen : (data.take k).length = k := by rw [List.length_take]; omega
  have hn : 0 < BUFFER_SIZE := by decide
  refine ⟨?_, ?_, fun _ => rfl⟩
  · rw [find_all_jpegs_stream_eq]
    have hr : (Stream.readable ⟨data, pos, some k, err⟩) = data.take k := rfl
    simp only [hr, hlen]
    rw [if_pos hk]
  · have hloop := scanStream_eq data (some k) data.length ScanState.init 0 false (Nat.zero_le _)
      (by
        have hr : (Stream.readable ⟨data, 0, some k, false⟩) = data.take k := rfl
        rw [hr, hlen]; omega)
    have hr : (Stream.readable ⟨data, 0, some k, false⟩) = data.take k := rfl
    rw [hr, List.drop_zero] at hloop
    have hreads := find_all_jpegs_reads_eq (freadAll BUFFER_SIZE data.length (data.take k))
      (fun c hc => (freadAll_ne_nil BUFFER_SIZE data.length _ hn c hc).1)
    rw [freadAll_join BUFFER_SIZE data.length _ hn (by rw [hlen]; omega)] at hreads
    simp only [find_all_jpegs_reads, Bool.false_eq_true, if_false, ScanResult.mk.injEq,
      Option.some.injEq, true_and] at hreads
    unfold Stream.rewind
    simp only
    rw [hloop]
    exact hreads.1

/-- C28, on a file of six bytes whose first four are a complete range, read by
a device that fails from offset 4 on. -/
theorem find_all_jpegs_read_error_witness :
    (find_all_jpegs_stream ⟨[0xFF, 0xD8, 0xFF, 0xD9, 1, 2], 0, some 4, false⟩).1 =
        { ret := -1, jpegs := none, count := 0 } ∧
      scanAll (([0xFF, 0xD8, 0xFF, 0xD9, 1, 2] : List Byte).take 4) = [⟨0, 4, 4⟩] :=
  ⟨(find_all_jpegs_read_error [0xFF, 0xD8, 0xFF, 0xD9, 1, 2] 0 4 false (by decide)).1,
    by decide⟩

/-- C29: the scanner and the read position.  The result of `find_all_jpegs`
depends neither on the read position nor on the error indicator that the
stream has before the call; on a stream that is read without error it is the
result on the contents of the file; and after every call that returns 0 the
read position of the stream is 0. -/
theorem find_all_jpegs_stream_position (data : List Byte) (pos pos' : Nat)
    (failAt : Option Nat) (err err' : Bool) :
    (find_all_jpegs_stream ⟨data, pos, failAt, err⟩).1 =
        (find_all_jpegs_stream ⟨data, pos', failAt, err'⟩).1 ∧
      (find_all_jpegs_stream ⟨data, pos, none, err⟩).1 = find_all_jpegs data ∧
      ((find_all_jpegs_stream ⟨data, pos, failAt, err⟩).1.ret = 0 →
        (find_all_jpegs_stream ⟨data, pos, failAt, err⟩).2.pos = 0) := by
  refine ⟨rfl, ?_, ?_⟩
  · rw [find_all_jpegs_stream_eq, find_all_jpegs_eq]
    have hr : (Stream.readable ⟨data, pos, none, err⟩) = data := rfl
    simp only [hr]
    rw [if_neg (Nat.lt_irrefl _)]
  · rw [find_all_jpegs_stream_eq]
    by_cases hlt : (Stream.readable ⟨data, pos, failAt, err⟩).length < data.length
    · simp only [if_pos hlt]
      intro h
      exact absurd h (by decide)
    · simp only [if_neg hlt]
      intro _
      trivial

/-- C29, on a file of five bytes read from the position 3. -/
theorem find_all_jpegs_stream_position_witness :
    (find_all_jpegs_stream ⟨[0xFF, 0xD8, 0xFF, 0xD9, 3], 3, none, true⟩).1 =
        { ret := 0, jpegs := some [⟨0, 4, 4⟩], count := 1 } ∧
      (find_all_jpegs_stream ⟨[0xFF, 0xD8, 0xFF, 0xD9, 3], 3, none, true⟩).2.pos = 0 :=
  ⟨by decide,
    (find_all_jpegs_stream_position [0xFF, 0xD8, 0xFF, 0xD9, 3] 3 0 none true false).2.2
      (by decide)⟩

/-! ## Properties of the default mode -/

theorem largestLoop_zero (jpegs : List JpegInfo) (i idx : Nat) :
    largestLoop jpegs 0 i idx = idx := rfl

theorem largestLoop_succ (jpegs : List JpegInfo) (left i idx : Nat) :
    largestLoop jpegs (left + 1) i idx =
      if (jpegs.getD i ⟨0, 0, 0⟩).size > (jpegs.getD idx ⟨0, 0, 0⟩).size then
        largestLoop jpegs left (i + 1) i
      else largestLoop jpegs left (i + 1) idx := rfl

/-- The loop keeps in `largest_idx` the first index of the largest size among
the ranges it has passed. -/
theorem largestLoop_spec (jpegs : List JpegInfo) :
    ∀ (left i idx : Nat), idx < i → i + left = jpegs.length →
      (∀ k, k < i →
        (jpegs.getD k ⟨0, 0, 0⟩).size ≤ (jpegs.getD idx ⟨0, 0, 0⟩).size) →
      (∀ k, k < idx →
        (jpegs.getD k ⟨0, 0, 0⟩).size < (jpegs.getD idx ⟨0, 0, 0⟩).size) →
      IsFirstLargest jpegs (largestLoop jpegs left i idx) := by
  intro left
  induction left with
  | zero =>
    intro i idx hidx hlen hle hlt
    rw [largestLoop_zero]
    exact ⟨by omega, fun k hk => hle k (by omega), hlt⟩
  | succ n ih =>
    intro i idx hidx hlen hle hlt
    rw [largestLoop_succ]
    by_cases hc : (jpegs.getD i ⟨0, 0, 0⟩).size > (jpegs.getD idx ⟨0, 0, 0⟩).size
    · rw [if_pos hc]
      refine ih (i + 1) i (by omega) (by omega) ?_ ?_
      · intro k hk
        by_cases hki : k = i
        · rw [hki]
        · have := hle k (by omega)
          omega
      · intro k hk
        have := hle k hk
        omega
    · rw [if_neg hc]
      refine ih (i + 1) idx (by omega) (by omega) ?_ hlt
      intro k hk
      by_cases hki : k = i
      · rw [hki]; omega
      · exact hle k (by omega)

theorem largest_idx_spec (jpegs : List JpegInfo) (h : jpegs ≠ []) :
    IsFirstLargest jpegs (largest_idx jpegs) := by
  have hpos : 0 < jpegs.length := List.length_pos.mpr h
  unfold largest_idx
  refine largestLoop_spec jpegs (jpegs.length - 1) 1 0 (by omega) (by omega) ?_ ?_
  · intro k hk
    have : k = 0 := by omega
    rw [this]
  · intro k hk
    omega

theorem streamCopy_zero (file : List Byte) (pos remaining : Nat) (out : List Byte) :
    streamCopy file 0 pos remaining out =
      if remaining > 0 then none else some ⟨0, some out⟩ := rfl

theorem streamCopy_succ (file : List Byte) (fuel pos remaining : Nat) (out : List Byte) :
    streamCopy file (fuel + 1) pos remaining out =
      if remaining > 0 then
        if ((file.drop pos).take
            (if remaining < STREAM_BUFFER_SIZE then remaining else STREAM_BUFFER_SIZE)).length = 0
        then some ⟨-1, some out⟩
        else streamCopy file fuel
          (pos + ((file.drop pos).take
            (if remaining < STREAM_BUFFER_SIZE then remaining else STREAM_BUFFER_SIZE)).length)
          (remaining - ((file.drop pos).take
            (if remaining < STREAM_BUFFER_SIZE then remaining else STREAM_BUFFER_SIZE)).length)
          (out ++ (file.drop pos).take
            (if remaining < STREAM_BUFFER_SIZE then remaining else STREAM_BUFFER_SIZE))
      else some ⟨0, some out⟩ := rfl

/-- The copy loop writes the `remaining` bytes that follow the position, when
the file holds them. -/
theorem streamCopy_eq (file : List Byte) :
    ∀ (fuel pos remaining : Nat) (out : List Byte), pos + remaining ≤ file.length →
      remaining ≤ fuel →
      streamCopy file fuel pos remaining out =
        some ⟨0, some (out ++ (file.drop pos).take remaining)⟩ := by
  have hS : STREAM_BUFFER_SIZE = 4096 := rfl
  intro fuel
  induction fuel with
  | zero =>
    intro pos remaining out _ hr
    have h0 : remaining = 0 := by omega
    rw [streamCopy_zero, h0, if_neg (by omega), List.take_zero, List.append_nil]
  | succ n ih =>
    intro pos remaining out hfit hr
    rw [streamCopy_succ]
    by_cases hpos : remaining > 0
    · rw [if_pos hpos]
      generalize hto : (if remaining < STREAM_BUFFER_SIZE then remaining
        else STREAM_BUFFER_SIZE) = to_read
      have hto1 : 0 < to_read ∧ to_read ≤ remaining := by
        rw [← hto, hS]
        split_ifs <;> omega
      have hbl : ((file.drop pos).take to_read).length = to_read := by
        rw [List.length_take, List.length_drop]
        omega
      rw [hbl, if_neg (by omega), ih (pos + to_read) (remaining - to_read) _ (by omega) (by omega),
        List.append_assoc]
      have hsplit : (file.drop pos).take remaining =
          (file.drop pos).take to_read ++
            (file.drop (pos + to_read)).take (remaining - to_read) := by
        have hrem : remaining = to_read + (remaining - to_read) := by omega
        conv_lhs => rw [hrem]
        rw [List.take_add, List.drop_drop]
      rw [hsplit]
    · have h0 : remaining = 0 := by omega
      rw [if_neg hpos, h0, List.take_zero, List.append_nil]

/-- On a file, the default mode copies the range at `largest_idx`, and fails
when the scan has found no range. -/
theorem extract_largest_jpeg_eq (fuel : Nat) (file : List Byte)
    (hmax : file.length ≤ PTRDIFF_MAX) (hfuel : file.length ≤ fuel) :
    extract_largest_jpeg fuel file =
      if scanAll file = [] then some ⟨-1, none⟩
      else some ⟨0, some (slice file
        ((scanAll file).getD (largest_idx (scanAll file)) ⟨0, 0, 0⟩).start
        ((scanAll file).getD (largest_idx (scanAll file)) ⟨0, 0, 0⟩).end_)⟩ := by
  unfold extract_largest_jpeg
  rw [find_all_jpegs_eq]
  simp only [ne_eq, not_true_eq_false, if_false, Option.getD_some]
  unfold extractLargestFrom
  by_cases hnil : scanAll file = []
  · rw [if_pos hnil, hnil]
    rfl
  · have hlenpos : 0 < (scanAll file).length := List.length_pos.mpr hnil
    rw [if_neg hnil, if_neg (by omega)]
    have hidx := (largest_idx_spec (scanAll file) hnil).1
    have hmem :
        (scanAll file).getD (largest_idx (scanAll file)) ⟨0, 0, 0⟩ ∈ scanAll file := by
      rw [List.getD_eq_getElem _ _ hidx]
      exact List.getElem_mem hidx
    obtain ⟨hsz, h4, hlen, _⟩ := (scanAll_inv file).1 _ hmem
    simp only
    rw [if_neg (by omega), streamCopy_eq file fuel _ _ [] (by omega) (by omega), List.nil_append,
      hsz]
    rfl

/-! ### The claim about `extract_largest_jpeg` -/

/-- C27: the default mode picks the largest preview.  For every non-empty list
of ranges, the index that `extract_largest_jpeg` selects has a size at least
that of every range and is the earliest index of that size; on a file whose
scan gives the non-empty list `jpegs`, `extract_largest_jpeg` returns 0 and
writes the bytes `[start, end)` of the selected range as they are in the file;
with zero ranges it returns -1 and writes nothing. -/
theorem extract_largest_jpeg_largest (fuel : Nat) (file : List Byte)
    (hmax : file.length ≤ PTRDIFF_MAX) (hfuel : file.length ≤ fuel) :
    (∀ jpegs : List JpegInfo, jpegs ≠ [] → IsFirstLargest jpegs (largest_idx jpegs)) ∧
      (∀ jpegs, (find_all_jpegs file).jpegs = some jpegs → jpegs ≠ [] →
        extract_largest_jpeg fuel file =
          some ⟨0, some (slice file (jpegs.getD (largest_idx jpegs) ⟨0, 0, 0⟩).start
            (jpegs.getD (largest_idx jpegs) ⟨0, 0, 0⟩).end_)⟩) ∧
      ((find_all_jpegs file).count = 0 →
        extract_largest_jpeg fuel file = some ⟨-1, none⟩) := by
  refine ⟨largest_idx_spec, ?_, ?_⟩
  · intro jpegs hj hne
    rw [find_all_jpegs_eq] at hj
    simp only [Option.some.injEq] at hj
    subst hj
    rw [extract_largest_jpeg_eq fuel file hmax hfuel, if_neg hne]
  · intro hc
    rw [find_all_jpegs_eq] at hc
    simp only at hc
    rw [extract_largest_jpeg_eq fuel file hmax hfuel, if_pos (List.length_eq_zero.mp hc)]

/-- C27, on a file of three ranges of the sizes 4, 5 and 5: the second is
selected and copied; and on a file without a range. -/
theorem extract_largest_jpeg_largest_witness :
    (find_all_jpegs [0xFF, 0xD8, 0xFF, 0xD9, 0xFF, 0xD8, 0, 0xFF, 0xD9,
        0xFF, 0xD8, 1, 0xFF, 0xD9]).jpegs = some [⟨0, 4, 4⟩, ⟨4, 9, 5⟩, ⟨9, 14, 5⟩] ∧
      largest_idx [⟨0, 4, 4⟩, ⟨4, 9, 5⟩, ⟨9, 14, 5⟩] = 1 ∧
      extract_largest_jpeg 14 [0xFF, 0xD8, 0xFF, 0xD9, 0xFF, 0xD8, 0, 0xFF, 0xD9,
        0xFF, 0xD8, 1, 0xFF, 0xD9] = some ⟨0, some [0xFF, 0xD8, 0, 0xFF, 0xD9]⟩ ∧
      extract_largest_jpeg 3 [1, 2, 3] = some ⟨-1, none⟩ :=
  ⟨by decide, by decide,
    (extract_largest_jpeg_largest 14 [0xFF, 0xD8, 0xFF, 0xD9, 0xFF, 0xD8, 0, 0xFF, 0xD9,
      0xFF, 0xD8, 1, 0xFF, 0xD9] (by decide) (by decide)).2.1
        [⟨0, 4, 4⟩, ⟨4, 9, 5⟩, ⟨9, 14, 5⟩] (by decide) (by decide),
    (extract_largest_jpeg_largest 3 [1, 2, 3] (by decide) (by decide)).2.2 (by decide)⟩

/-! ## Further properties of the walks and of the locator -/

/-- The walk over encoded sibling boxes none of which carries the target tag,
followed by fewer than 8 trailing bytes, leaves its loop at the end of the
range. -/
theorem findBox_streaming_end_of_range (pre trailing rest target : List Byte)
    (boxes : List Box) (end_ fuel : Nat) (htarget : IsTag target)
    (hvalid : ∀ a ∈ boxes, a.Valid) (hnone : ∀ a ∈ boxes, a.tag ≠ target)
    (htrail : trailing.length < 8)
    (hend : end_ = pre.length + (encodeBoxes boxes).length + trailing.length)
    (hmax : end_ ≤ PTRDIFF_MAX) (hfuel : boxes.length < fuel) :
    findBox_streaming fuel (pre ++ encodeBoxes boxes ++ trailing ++ rest) pre.length end_ target =
      some .endOfRange := by
  have hP : PTRDIFF_MAX = 2 ^ 63 - 1 := rfl
  have hW : SIZE_WRAP = 2 ^ 64 := rfl
  have hskip : ∀ a ∈ boxes, a.Valid ∧ strcmp_eq a.tag target = false := fun a ha =>
    ⟨hvalid a ha, strcmp_eq_false_of_ne a.tag target (hvalid a ha).1 htarget (hnone a ha)⟩
  obtain ⟨k, rfl⟩ : ∃ k, fuel = boxes.length + (k + 1) :=
    ⟨fuel - boxes.length - 1, by omega⟩
  unfold findBox_streaming
  rw [List.append_assoc (pre ++ encodeBoxes boxes),
    findBoxLoop_skip _ end_ target hmax boxes pre (k + 1) hskip (by omega), findBoxLoop]
  have hcond : ¬ (pre.length + (encodeBoxes boxes).length + 8) % SIZE_WRAP ≤ end_ := by
    rw [Nat.mod_eq_of_lt (by omega)]; omega
  rw [if_neg hcond]

/-- When the walk for `moov` ends without a payload, whatever the way,
`extractCr3Exif_streaming` takes its branch `No 'moov' box found`. -/
theorem extractCr3Exif_streaming_noMoov (fuel : Nat) (f : List Byte) (fileSize : Nat)
    (e : WalkExit) (h : findBox_streaming fuel f 0 fileSize tagMoov = some e)
    (hne : e.result = none) : extractCr3Exif_streaming fuel f fileSize = some .noMoov := by
  unfold extractCr3Exif_streaming
  rw [h]
  cases e with
  | found p => simp [WalkExit.result] at hne
  | _ => rfl

/-- When the in-memory walk for `uuid` ends without a payload, whatever the
way but a failed allocation, `extractCr3Exif_streaming` takes its branch
`No 'uuid' box found`. -/
theorem extractCr3Exif_streaming_noUuid (fuel : Nat) (f : List Byte) (fileSize : Nat)
    (moovBox : List Byte) (e : WalkExit)
    (h1 : findBox_streaming fuel f 0 fileSize tagMoov = some (.found moovBox))
    (h2 : uuidWalkLoop moovBox fuel 0 = some e) (hne : e.result = none)
    (halloc : e ≠ .allocFailed) : extractCr3Exif_streaming fuel f fileSize = some .noUuid := by
  unfold extractCr3Exif_streaming
  rw [h1]
  simp only
  rw [h2]
  cases e with
  | found p => simp [WalkExit.result] at hne
  | allocFailed => exact absurd rfl halloc
  | _ => rfl

theorem ret_of_result_none (e : WalkExit) (h : e.result = none) : e.ret = 0 := by
  cases e with
  | found p => simp [WalkExit.result] at h
  | _ => rfl

/-- On `loopSample` the walk goes from offset 0 to offset 8 and back. -/
theorem findBoxLoop_loopSample (target : List Byte)
    (h0 : findBoxStep loopSample 0 24 target = .next 8)
    (h8 : findBoxStep loopSample 8 24 target = .next 0) :
    ∀ fuel, findBoxLoop loopSample 24 target fuel 0 = none ∧
      findBoxLoop loopSample 24 target fuel 8 = none := by
  intro fuel
  induction fuel with
  | zero => exact ⟨rfl, rfl⟩
  | succ n ih =>
    constructor
    · unfold findBoxLoop
      rw [if_pos (by decide), h0]
      exact ih.2
    · unfold findBoxLoop
      rw [if_pos (by decide), h8]
      exact ih.1

theorem uuidWalkLoop_loopSample :
    ∀ fuel, uuidWalkLoop loopSample fuel 0 = none ∧ uuidWalkLoop loopSample fuel 8 = none := by
  have h0 : uuidWalkStep loopSample 0 = .next 8 := by decide
  have h8 : uuidWalkStep loopSample 8 = .next 0 := by decide
  intro fuel
  induction fuel with
  | zero => exact ⟨rfl, rfl⟩
  | succ n ih =>
    constructor
    · unfold uuidWalkLoop
      rw [if_pos (by decide), h0]
      exact ih.2
    · unfold uuidWalkLoop
      rw [if_pos (by decide), h8]
      exact ih.1

/-- An iteration of the walk that continues either advances by at least 8 or,
when `pos + boxSize` wraps, goes backwards. -/
theorem findBoxStep_next_cases (f : List Byte) (pos end_ p : Nat) (target : List Byte)
    (h : findBoxStep f pos end_ target = .next p) : pos + 8 ≤ p ∨ p < pos := by
  have hW : SIZE_WRAP = 2 ^ 64 := rfl
  unfold findBoxStep at h
  by_cases c1 : PTRDIFF_MAX < pos
  · rw [if_pos c1] at h; cases h
  rw [if_neg c1] at h
  by_cases c2 : f.length < pos + 8
  · rw [if_pos c2] at h; cases h
  rw [if_neg c2] at h
  dsimp only at h
  have b32 := be32_lt (((f.drop pos).take 8).getD 0 0) (((f.drop pos).take 8).getD 1 0)
    (((f.drop pos).take 8).getD 2 0) (((f.drop pos).take 8).getD 3 0)
  have b64 := be64_lt (((f.drop (pos + 8)).take 8).getD 0 0) (((f.drop (pos + 8)).take 8).getD 1 0)
    (((f.drop (pos + 8)).take 8).getD 2 0) (((f.drop (pos + 8)).take 8).getD 3 0)
    (((f.drop (pos + 8)).take 8).getD 4 0) (((f.drop (pos + 8)).take 8).getD 5 0)
    (((f.drop (pos + 8)).take 8).getD 6 0) (((f.drop (pos + 8)).take 8).getD 7 0)
  generalize be32 _ _ _ _ = s32 at h b32
  generalize be64 _ _ _ _ _ _ _ _ = s64 at h b64
  have hP : PTRDIFF_MAX = 2 ^ 63 - 1 := rfl
  rw [hW] at h
  split_ifs at h
  all_goals cases h
  all_goals omega

/-! ### The claims about the two splicers, the failures of the locator and the walks -/

/-- C21, as stated, fails on the JPEG `sampleJpeg` and the bare TIFF header
`bareTiff`: the splicer of cr3extract.c writes the 8 bytes as they are, with
the length bytes `00 0A`, and the splicer of exifcopy.c writes the header
`45 78 69 66 00 00` before them, with the length bytes `00 10`. -/
theorem insertExifIntoJpeg_versions_differ :
    insertExifIntoJpeg sampleJpeg bareTiff =
        .ok [0xFF, 0xD8, 0xFF, 0xE1, 0, 10, 0x49, 0x49, 0x2A, 0, 8, 0, 0, 0,
          0xFF, 0xDB, 0xFF, 0xD9] 18 ∧
      Exifcopy.insertExifIntoJpeg sampleJpeg bareTiff =
        .ok [0xFF, 0xD8, 0xFF, 0xE1, 0, 16, 0x45, 0x78, 0x69, 0x66, 0, 0,
          0x49, 0x49, 0x2A, 0, 8, 0, 0, 0, 0xFF, 0xDB, 0xFF, 0xD9] 24 ∧
      insertExifIntoJpeg sampleJpeg bareTiff ≠
        Exifcopy.insertExifIntoJpeg sampleJpeg bareTiff := by
  decide

/-- C21, amended: the two splicers agree on the exif inputs that carry the
header.  For every jpeg buffer `j` and every exif input `x`, of a combined size
that `malloc` serves, `insertExifIntoJpeg` of cr3extract.c and of exifcopy.c
hand back the same flag, bytes and size if and only if `x` begins with
`45 78 69 66 00 00` or `j` does not begin with `FF D8`; for a JPEG `j` and an
`x` without the header only exifcopy.c prepends it. -/
theorem insertExifIntoJpeg_versions_agree (j x : List Byte)
    (hfit : j.length + 10 + x.length ≤ PTRDIFF_MAX) :
    (Exifcopy.insertExifIntoJpeg j x = insertExifIntoJpeg j x ↔
      (HasExifHeader x ∨ ¬ BeginsWithSoi j)) ∧
      (BeginsWithSoi j → ¬ HasExifHeader x →
        Exifcopy.insertExifIntoJpeg j x = insertExifIntoJpeg j (exifHeader ++ x)) := by
  have h6 : exifHeader.length = 6 := rfl
  have hins : BeginsWithSoi j → ¬ HasExifHeader x →
      Exifcopy.insertExifIntoJpeg j x = insertExifIntoJpeg j (exifHeader ++ x) := by
    intro _ hx
    rw [exifcopy_insertExifIntoJpeg_eq, ensureExifHeader_of_no_header x hx (by omega)]
  refine ⟨⟨?_, ?_⟩, hins⟩
  · intro heq
    by_contra hc
    rw [not_or, not_not] at hc
    obtain ⟨hx, hj⟩ := hc
    rw [hins hj hx,
      insertExifIntoJpeg_of_jpeg j _ hj (by rw [List.length_append, h6]; omega),
      insertExifIntoJpeg_of_jpeg j x hj (by omega), List.length_append, h6] at heq
    simp only [SpliceResult.ok.injEq] at heq
    omega
  · rintro (hx | hj)
    · rw [exifcopy_insertExifIntoJpeg_eq, ensureExifHeader_of_header x hx]
    · rw [exifcopy_insertExifIntoJpeg_eq, (insertExifIntoJpeg_ret j x (by omega)).2 hj]
      unfold insertExifIntoJpeg
      rw [if_pos ((jpeg_test_iff j).mpr hj)]

/-- C21, amended, on `sampleJpeg` and `smallExif`, which carries the header. -/
theorem insertExifIntoJpeg_versions_agree_witness :
    Exifcopy.insertExifIntoJpeg sampleJpeg smallExif = insertExifIntoJpeg sampleJpeg smallExif ∧
      Exifcopy.insertExifIntoJpeg sampleJpeg bareTiff =
        insertExifIntoJpeg sampleJpeg (exifHeader ++ bareTiff) :=
  ⟨(insertExifIntoJpeg_versions_agree sampleJpeg smallExif (by decide)).1.mpr
      (Or.inl (by decide)),
    (insertExifIntoJpeg_versions_agree sampleJpeg bareTiff (by decide)).2 (by decide)
      (by decide)⟩

/-- C22, as stated, fails on the code.  The `moov` payload of
`malformedMoovFile` is malformed (a box of declared size 4) and that of
`noUuidFile` is well formed without a `uuid` box: the in-memory walk leaves its
loop differently, and `extractCr3Exif_streaming` takes the same branch and
returns the same value for both.  `truncatedFile` is cut short in a header and
`noMoovFile` is well formed without a `moov` box: `findBox_streaming` returns 0
without a payload for both, and `extractCr3Exif_streaming` takes the same
branch for both. -/
theorem extractCr3Exif_streaming_same_failure :
    uuidWalkLoop (be32Bytes 4 ++ tagFree) 2 0 = some (.invalidSize 0) ∧
      uuidWalkLoop (Box.encode ⟨tagFree, false, []⟩) 2 0 = some .endOfRange ∧
      (∀ k, extractCr3Exif_streaming (2 + k) malformedMoovFile 16 = some .noUuid) ∧
      (∀ k, extractCr3Exif_streaming (2 + k) noUuidFile 16 = some .noUuid) ∧
      findBox_streaming 2 truncatedFile 0 8 tagMoov = some .shortRead ∧
      findBox_streaming 2 noMoovFile 0 8 tagMoov = some .endOfRange ∧
      WalkExit.shortRead.ret = WalkExit.endOfRange.ret ∧
      WalkExit.shortRead.result = WalkExit.endOfRange.result ∧
      (∀ k, extractCr3Exif_streaming (2 + k) truncatedFile 8 = some .noMoov) ∧
      (∀ k, extractCr3Exif_streaming (2 + k) noMoovFile 8 = some .noMoov) := by
  refine ⟨by decide, by decide, fun k => ?_, fun k => ?_, by decide, by decide, rfl, rfl,
    fun k => ?_, fun k => ?_⟩
  · exact extractCr3Exif_streaming_fuel_mono _ _ 2 k _ (by decide)
  · exact extractCr3Exif_streaming_fuel_mono _ _ 2 k _ (by decide)
  · exact extractCr3Exif_streaming_fuel_mono _ _ 2 k _ (by decide)
  · exact extractCr3Exif_streaming_fuel_mono _ _ 2 k _ (by decide)

/-- C22, amended: not-found and malformed give the same result.  For every
source, whenever the walk of `findBox_streaming` for `moov` ends without a
payload, be it at the end of the range or on a box size smaller than the
header, a box beyond the range or a short read, `findBox_streaming` returns 0
and `extractCr3Exif_streaming` returns 0 without a blob by its branch
`No 'moov' box found`; and whenever the in-memory walk for `uuid` ends without
a payload, in any of these ways, `extractCr3Exif_streaming` returns 0 without
a blob by its branch `No 'uuid' box found`. -/
theorem extractCr3Exif_streaming_failure_result (fuel : Nat) (f : List Byte) (fileSize : Nat) :
    (∀ e, findBox_streaming fuel f 0 fileSize tagMoov = some e → e.result = none →
      e.ret = 0 ∧ extractCr3Exif_streaming fuel f fileSize = some .noMoov) ∧
      (∀ moovBox e, findBox_streaming fuel f 0 fileSize tagMoov = some (.found moovBox) →
        uuidWalkLoop moovBox fuel 0 = some e → e.result = none → e ≠ .allocFailed →
        extractCr3Exif_streaming fuel f fileSize = some .noUuid) ∧
      ExifResult.noMoov.ret = some 0 ∧ ExifResult.noMoov.exifSegment = none ∧
      ExifResult.noUuid.ret = some 0 ∧ ExifResult.noUuid.exifSegment = none := by
  refine ⟨fun e h hne => ⟨ret_of_result_none e hne, ?_⟩, fun moovBox e h1 h2 hne halloc => ?_,
    rfl, rfl, rfl, rfl⟩
  · exact extractCr3Exif_streaming_noMoov fuel f fileSize e h hne
  · exact extractCr3Exif_streaming_noUuid fuel f fileSize moovBox e h1 h2 hne halloc

/-- C22, amended, on `truncatedFile`, whose walk ends on a short read, and on
`malformedMoovFile`, whose in-memory walk ends on an invalid size. -/
theorem extractCr3Exif_streaming_failure_result_witness :
    extractCr3Exif_streaming 2 truncatedFile 8 = some .noMoov ∧
      extractCr3Exif_streaming 2 malformedMoovFile 16 = some .noUuid :=
  ⟨((extractCr3Exif_streaming_failure_result 2 truncatedFile 8).1 .shortRead (by decide)
      rfl).2,
    (extractCr3Exif_streaming_failure_result 2 malformedMoovFile 16).2.1 (be32Bytes 4 ++ tagFree)
      (.invalidSize 0) (by decide) (by decide) rfl (by decide)⟩

/-- C24: the stream walker and the in-memory walker are the same algorithm.
For every buffer `b` of at most `PTRDIFF_MAX` bytes and every bound on the
iterations, the in-memory walk of `extractCr3Exif_streaming` over `b` and
`findBox_streaming` over a source with contents `b`, the range `[0, len(b))`
and the target `uuid` leave their loops in the same way: both find nothing,
or both yield the same payload. -/
theorem uuidWalk_eq_findBox_streaming (b : List Byte) (hmax : b.length ≤ PTRDIFF_MAX)
    (fuel : Nat) :
    uuidWalkLoop b fuel 0 = findBox_streaming fuel b 0 b.length tagUuid ∧
      (∀ payload, uuidWalkLoop b fuel 0 = some (.found payload) ↔
        findBox_streaming fuel b 0 b.length tagUuid = some (.found payload)) ∧
      ((uuidWalkLoop b fuel 0).map WalkExit.result =
        (findBox_streaming fuel b 0 b.length tagUuid).map WalkExit.result) := by
  have h := uuidWalkLoop_eq_findBoxLoop b hmax fuel 0 (Nat.zero_le _)
  unfold findBox_streaming
  rw [h]
  exact ⟨rfl, fun _ => Iff.rfl, rfl⟩

/-- C24, on a buffer that holds a box `free` and a box `uuid` with the payload
`01 02 03`. -/
theorem uuidWalk_eq_findBox_streaming_witness :
    uuidWalkLoop (encodeBoxes [⟨tagFree, false, []⟩, ⟨tagUuid, false, [1, 2, 3]⟩]) 3 0 =
        some (.found [1, 2, 3]) ∧
      findBox_streaming 3
        (encodeBoxes [⟨tagFree, false, []⟩, ⟨tagUuid, false, [1, 2, 3]⟩]) 0
        (encodeBoxes [⟨tagFree, false, []⟩, ⟨tagUuid, false, [1, 2, 3]⟩]).length tagUuid =
        some (.found [1, 2, 3]) :=
  ⟨by decide,
    ((uuidWalk_eq_findBox_streaming
      (encodeBoxes [⟨tagFree, false, []⟩, ⟨tagUuid, false, [1, 2, 3]⟩]) (by decide) 3).2.1
        [1, 2, 3]).mp (by decide)⟩

/-- C25: absent boxes yield not-found.  For every source whose range is
tiled by boxes with valid sizes none of which is tagged `moov`, followed by
fewer than 8 trailing bytes, and for every source whose first `moov` box has a
payload tiled by boxes with valid sizes none of which is tagged `uuid`,
followed by fewer than 8 trailing bytes, `extractCr3Exif_streaming` returns 0
and produces no blob. -/
theorem extractCr3Exif_streaming_absent (rest trailing utrailing : List Byte)
    (boxes before after uboxes : List Box) (mext : Bool) (fuel : Nat)
    (hvalid : ∀ a ∈ boxes, a.Valid) (hnone : ∀ a ∈ boxes, a.tag ≠ tagMoov)
    (htrail : trailing.length < 8)
    (hmax : (encodeBoxes boxes).length + trailing.length ≤ PTRDIFF_MAX)
    (hfuel : boxes.length < fuel)
    (hmvalid : ∀ a ∈ before ++ ⟨tagMoov, mext, encodeBoxes uboxes ++ utrailing⟩ :: after,
      a.Valid)
    (hfirst : ∀ a ∈ before, a.tag ≠ tagMoov)
    (huvalid : ∀ a ∈ uboxes, a.Valid) (hunone : ∀ a ∈ uboxes, a.tag ≠ tagUuid)
    (hutrail : utrailing.length < 8)
    (hmmax : (encodeBoxes (before ++
      ⟨tagMoov, mext, encodeBoxes uboxes ++ utrailing⟩ :: after)).length ≤ PTRDIFF_MAX)
    (hmfuel : before.length < fuel) (hufuel : uboxes.length < fuel) :
    (extractCr3Exif_streaming fuel (encodeBoxes boxes ++ trailing ++ rest)
        ((encodeBoxes boxes).length + trailing.length) = some .noMoov ∧
      ExifResult.noMoov.ret = some 0 ∧ ExifResult.noMoov.exifSegment = none) ∧
    (extractCr3Exif_streaming fuel
        (encodeBoxes (before ++
          ⟨tagMoov, mext, encodeBoxes uboxes ++ utrailing⟩ :: after) ++ rest)
        (encodeBoxes (before ++
          ⟨tagMoov, mext, encodeBoxes uboxes ++ utrailing⟩ :: after)).length = some .noUuid ∧
      ExifResult.noUuid.ret = some 0 ∧ ExifResult.noUuid.exifSegment = none) := by
  have hP : PTRDIFF_MAX = 2 ^ 63 - 1 := rfl
  refine ⟨⟨?_, rfl, rfl⟩, ⟨?_, rfl, rfl⟩⟩
  · have h := findBox_streaming_end_of_range [] trailing rest tagMoov boxes
      ((encodeBoxes boxes).length + trailing.length) fuel isTag_moov hvalid hnone htrail
      (by simp) hmax hfuel
    simp only [List.nil_append, List.length_nil] at h
    exact extractCr3Exif_streaming_noMoov fuel _ _ _ h rfl
  · generalize hm : encodeBoxes uboxes ++ utrailing = moovBox at *
    have h1 := (findBox_streaming_found [] rest tagMoov before after ⟨tagMoov, mext, moovBox⟩
      _ fuel isTag_moov hmvalid hfirst rfl (by simp) hmmax hmfuel).1
    simp only [List.nil_append, List.length_nil] at h1
    have hmv : (⟨tagMoov, mext, moovBox⟩ : Box).Valid := hmvalid _ (by simp)
    have hlen : (encodeBoxes (before ++ ⟨tagMoov, mext, moovBox⟩ :: after)).length =
        (encodeBoxes before).length + (⟨tagMoov, mext, moovBox⟩ : Box).size +
          (encodeBoxes after).length := by
      rw [encodeBoxes_append, encodeBoxes_cons]
      simp [length_encode _ hmv.1]; omega
    have hms : (⟨tagMoov, mext, moovBox⟩ : Box).size =
        (⟨tagMoov, mext, moovBox⟩ : Box).headerLen + moovBox.length := rfl
    have hml : moovBox.length ≤ PTRDIFF_MAX := by omega
    have h2 := findBox_streaming_end_of_range [] utrailing [] tagUuid uboxes moovBox.length fuel
      isTag_uuid huvalid hunone hutrail (by rw [← hm]; simp) hml hufuel
    simp only [List.nil_append, List.length_nil, List.append_nil, hm] at h2
    unfold findBox_streaming at h2
    rw [← uuidWalkLoop_eq_findBoxLoop moovBox hml fuel 0 (Nat.zero_le _)] at h2
    exact extractCr3Exif_streaming_noUuid fuel _ _ moovBox _ h1 h2 rfl (by simp)

/-- C25, on the source `noMoovFile`, an empty box `free`, and on the source
`noUuidFile`, a `moov` box that wraps an empty box `free`. -/
theorem extractCr3Exif_streaming_absent_witness :
    extractCr3Exif_streaming 2 (encodeBoxes [⟨tagFree, false, []⟩] ++ [] ++ []) (8 + 0) =
        some .noMoov ∧
      extractCr3Exif_streaming 2
        (encodeBoxes
          ([] ++ [⟨tagMoov, false, encodeBoxes [⟨tagFree, false, []⟩] ++ []⟩]) ++ [])
        16 = some .noUuid :=
  ⟨(extractCr3Exif_streaming_absent [] [] [] [⟨tagFree, false, []⟩] [] []
      [⟨tagFree, false, []⟩] false 2
      (by simp [Box.Valid, tagFree, Box.size, Box.headerLen])
      (by simp [tagFree, tagMoov]) (by decide) (by decide) (by decide)
      (by simp [Box.Valid, tagFree, tagMoov, Box.size, Box.headerLen, encodeBoxes, Box.encode,
        be32Bytes])
      (by simp) (by simp [Box.Valid, tagFree, Box.size, Box.headerLen])
      (by simp [tagFree, tagUuid]) (by decide) (by decide) (by decide) (by decide)).1.1,
    (extractCr3Exif_streaming_absent [] [] [] [⟨tagFree, false, []⟩] [] []
      [⟨tagFree, false, []⟩] false 2
      (by simp [Box.Valid, tagFree, Box.size, Box.headerLen])
      (by simp [tagFree, tagMoov]) (by decide) (by decide) (by decide)
      (by simp [Box.Valid, tagFree, tagMoov, Box.size, Box.headerLen, encodeBoxes, Box.encode,
        be32Bytes])
      (by simp) (by simp [Box.Valid, tagFree, Box.size, Box.headerLen])
      (by simp [tagFree, tagUuid]) (by decide) (by decide) (by decide) (by decide)).2.1⟩

/-- C30 fails on the code.  On `loopSample`, a box `free` of size 8 followed by
a header with the extended size `2^64 - 8`, the iteration at offset 0 goes on
at offset 8, and the iteration at offset 8 computes `pos + boxSize = 2^64` in
64 bits, which is 0, passes the test `boxEnd > end` and goes on at offset 0:
the walk of `findBox_streaming` and the in-memory walk never leave their loops,
whatever the bound on the iterations, and neither does
`extractCr3Exif_streaming` on a `moov` box that wraps these bytes. -/
theorem box_walk_goes_round :
    findBoxStep loopSample 0 24 tagMoov = .next 8 ∧
      findBoxStep loopSample 8 24 tagMoov = .next 0 ∧
      (∀ fuel, findBox_streaming fuel loopSample 0 24 tagMoov = none) ∧
      (∀ fuel, uuidWalkLoop loopSample fuel 0 = none) ∧
      (∀ fuel, extractCr3Exif_streaming fuel (Box.encode ⟨tagMoov, false, loopSample⟩) 32 =
        none) := by
  have h0 : findBoxStep loopSample 0 24 tagMoov = .next 8 := by decide
  have h8 : findBoxStep loopSample 8 24 tagMoov = .next 0 := by decide
  refine ⟨h0, h8, fun fuel => (findBoxLoop_loopSample tagMoov h0 h8 fuel).1,
    fun fuel => (uuidWalkLoop_loopSample fuel).1, fun fuel => ?_⟩
  cases fuel with
  | zero => rfl
  | succ n =>
    have h1 : findBox_streaming (n + 1) (Box.encode ⟨tagMoov, false, loopSample⟩) 0 32 tagMoov =
        some (.found loopSample) := by
      unfold findBox_streaming
      rw [show n + 1 = 1 + n by omega]
      exact findBoxLoop_fuel_mono (Box.encode ⟨tagMoov, false, loopSample⟩) 32 tagMoov n 1 0
        (.found loopSample) (by decide)
    unfold extractCr3Exif_streaming
    rw [h1]
    simp only
    rw [(uuidWalkLoop_loopSample (n + 1)).1]

/-! ## The end-to-end example -/

theorem length_ifdEntries (blob : List Byte) : (ifdEntries blob).length = ifdCount blob := by
  unfold ifdEntries
  rw [List.length_map, List.length_range]

/-- The blob that the locator returns on the end-to-end example with the IFD0
offset field `08 00 00 00`: its IFD0 is at offset 14 and holds the two
entries. -/
theorem syntheticBlob_structure (e1 e2 : List Byte) (h1 : e1.length = 12)
    (h2 : e2.length = 12) :
    StructurallyValid (exifHeader ++ syntheticPayload [8, 0, 0, 0] e1 e2) ∧
      le32 (exifHeader ++ syntheticPayload [8, 0, 0, 0] e1 e2) 10 = 8 ∧
      ifdEntries (exifHeader ++ syntheticPayload [8, 0, 0, 0] e1 e2) = [e1, e2] := by
  have hblob : exifHeader ++ syntheticPayload [8, 0, 0, 0] e1 e2 =
      0x45 :: 0x78 :: 0x69 :: 0x66 :: 0 :: 0 :: 0x49 :: 0x49 :: 0x2A :: 0 :: 8 :: 0 :: 0 :: 0 ::
        2 :: 0 :: (e1 ++ e2 ++ [0, 0, 0, 0]) := by
    simp [exifHeader, syntheticPayload]
  have hpre : exifHeader ++ syntheticPayload [8, 0, 0, 0] e1 e2 =
      ([0x45, 0x78, 0x69, 0x66, 0, 0, 0x49, 0x49, 0x2A, 0, 8, 0, 0, 0, 2, 0] : List Byte) ++
        [e1, e2].flatten ++ [0, 0, 0, 0] := by
    simp [exifHeader, syntheticPayload]
  have hlen : (exifHeader ++ syntheticPayload [8, 0, 0, 0] e1 e2).length = 44 := by
    rw [hblob]
    simp only [List.length_cons, List.length_append, List.length_nil, h1, h2]
  have hoff : le32 (exifHeader ++ syntheticPayload [8, 0, 0, 0] e1 e2) 10 = 8 := by
    rw [hblob]
    unfold le32
    simp only [List.getD_cons_succ, List.getD_cons_zero]
    rfl
  have hO : ifdOffset (exifHeader ++ syntheticPayload [8, 0, 0, 0] e1 e2) = 14 := by
    unfold ifdOffset
    rw [hoff]
  have hcnt : ifdCount (exifHeader ++ syntheticPayload [8, 0, 0, 0] e1 e2) = 2 := by
    unfold ifdCount
    rw [hO, hblob]
    unfold le16
    simp only [List.getD_cons_succ, List.getD_cons_zero]
    rfl
  refine ⟨⟨?_, by omega, by omega, by omega⟩, hoff, ?_⟩
  · rw [hblob]
    rfl
  · have hchunks := map_range_chunks [e1, e2]
      (by
        intro e he
        simp only [List.mem_cons, List.mem_singleton, List.not_mem_nil, or_false] at he
        rcases he with rfl | rfl
        · exact h1
        · exact h2)
      ([0x45, 0x78, 0x69, 0x66, 0, 0, 0x49, 0x49, 0x2A, 0, 8, 0, 0, 0, 2, 0] : List Byte)
      [0, 0, 0, 0]
    rw [← hpre] at hchunks
    unfold ifdEntries ifdEntry
    rw [hcnt, hO]
    exact hchunks

/-- Minimizing that blob gives an IFD0 with the one whitelisted entry. -/
theorem syntheticBlob_minimized (e1 e2 : List Byte) (h1 : e1.length = 12)
    (h2 : e2.length = 12) (hone : whitelisted e1 ≠ whitelisted e2) :
    ∃ out, minimizeExifData (exifHeader ++ syntheticPayload [8, 0, 0, 0] e1 e2) = some out ∧
      ifdCount out = 1 ∧ ifdEntries out = [if whitelisted e1 = true then e1 else e2] := by
  obtain ⟨hv, hoff, hent⟩ := syntheticBlob_structure e1 e2 h1 h2
  obtain ⟨_, _, hent'⟩ := minimized_structure _ hv (by omega)
  have hkept : keptEntries (exifHeader ++ syntheticPayload [8, 0, 0, 0] e1 e2) =
      [if whitelisted e1 = true then e1 else e2] := by
    unfold keptEntries
    rw [hent]
    cases hw1 : whitelisted e1 <;> cases hw2 : whitelisted e2
    · rw [hw1, hw2] at hone; exact absurd rfl hone
    · simp [List.filter, hw1, hw2]
    · simp [List.filter, hw1, hw2]
    · rw [hw1, hw2] at hone; exact absurd rfl hone
  refine ⟨_, minimizeExifData_of_valid _ hv, ?_, ?_⟩
  · rw [← length_ifdEntries, hent', hkept]
    rfl
  · rw [hent', hkept]

/-- The locator on the end-to-end example, whatever the offset field. -/
theorem syntheticSource_located (off e1 e2 : List Byte) (h0 : off.length = 4)
    (h1 : e1.length = 12) (h2 : e2.length = 12) (fuel : Nat) (hfuel : 0 < fuel) :
    extractCr3Exif_streaming fuel (syntheticSource off e1 e2) 54 =
      some (.found (exifHeader ++ syntheticPayload off e1 e2)) := by
  have hP : PTRDIFF_MAX = 2 ^ 63 - 1 := rfl
  have hpl : (syntheticPayload off e1 e2).length = 38 := by
    simp only [syntheticPayload, List.length_append, List.length_cons, List.length_nil, h0, h1,
      h2]
  have hsig : HasTiffSignature (syntheticPayload off e1 e2) 0 := by
    simp [HasTiffSignature, syntheticPayload]
  have hsrc : encodeBoxes ([] ++
      (⟨tagMoov, false, encodeBoxes ([] ++
        (⟨tagUuid, false, syntheticPayload off e1 e2⟩ : Box) :: [])⟩ : Box) :: []) ++ [] =
      syntheticSource off e1 e2 := by
    simp [encodeBoxes, syntheticSource, moovUuidFile]
  have hul : (Box.encode ⟨tagUuid, false, syntheticPayload off e1 e2⟩).length = 46 := by
    rw [length_encode ⟨tagUuid, false, syntheticPayload off e1 e2⟩ (by rfl)]
    simp only [Box.size, Box.headerLen, hpl]
    rfl
  have huv : ∀ a ∈ ([] : List Box) ++
      (⟨tagUuid, false, syntheticPayload off e1 e2⟩ : Box) :: [], a.Valid := by
    intro a ha
    simp only [List.nil_append, List.mem_singleton] at ha
    subst ha
    refine ⟨rfl, ?_⟩
    simp [Box.size, Box.headerLen, hpl]
  have hml : (encodeBoxes [(⟨tagUuid, false, syntheticPayload off e1 e2⟩ : Box)]).length =
      46 := by
    simp only [encodeBoxes, List.map_cons, List.map_nil, List.flatten_cons,
      List.flatten_nil, List.append_nil, hul]
  have hmv : ∀ a ∈ ([] : List Box) ++
      (⟨tagMoov, false, encodeBoxes ([] ++
        (⟨tagUuid, false, syntheticPayload off e1 e2⟩ : Box) :: [])⟩ : Box) :: [],
        a.Valid := by
    intro a ha
    simp only [List.nil_append, List.mem_singleton] at ha
    subst ha
    refine ⟨rfl, ?_⟩
    simp [Box.size, Box.headerLen, hml]
  have hsize : 54 = (encodeBoxes ([] ++
      (⟨tagMoov, false, encodeBoxes ([] ++
        (⟨tagUuid, false, syntheticPayload off e1 e2⟩ : Box) :: [])⟩ :
          Box) :: [])).length := by
    simp only [List.nil_append]
    rw [show encodeBoxes [(⟨tagMoov, false, encodeBoxes
        [(⟨tagUuid, false, syntheticPayload off e1 e2⟩ : Box)]⟩ : Box)] =
        Box.encode ⟨tagMoov, false, encodeBoxes
          [(⟨tagUuid, false, syntheticPayload off e1 e2⟩ : Box)]⟩ by simp [encodeBoxes],
      length_encode _ (by rfl)]
    simp only [Box.size, Box.headerLen, hml]
    rfl
  have h := extractCr3Exif_streaming_locate [] (syntheticPayload off e1 e2) [] [] [] [] false
    false 0 fuel 54 hmv huv (by simp) (by simp) hsize (by rw [hP]; decide) hsig
    (fun q hq => absurd hq (Nat.not_lt_zero q)) (by rw [hpl]; decide) hfuel hfuel
  rw [hsrc, List.drop_zero] at h
  exact h

/-! ### The claim about the end-to-end example -/

/-- C23, as stated, fails: with four zero bytes after the signature the IFD0
offset field of the blob is 0.  The locator succeeds on the source, and
`minimizeExifData` reads IFD0 at the TIFF header itself, finds the entry count
`49 49` (18761), and rejects the blob, whether the whitelisted entry is the
first or the second. -/
theorem end_to_end_zero_offset :
    whitelisted entryMake = true ∧ whitelisted entryOther = false ∧
      extractCr3Exif_streaming 2 (syntheticSource [0, 0, 0, 0] entryMake entryOther) 54 =
        some (.found (exifHeader ++ syntheticPayload [0, 0, 0, 0] entryMake entryOther)) ∧
      ifdCount (exifHeader ++ syntheticPayload [0, 0, 0, 0] entryMake entryOther) = 18761 ∧
      minimizeExifData (exifHeader ++ syntheticPayload [0, 0, 0, 0] entryMake entryOther) =
        none ∧
      minimizeExifData (exifHeader ++ syntheticPayload [0, 0, 0, 0] entryOther entryMake) =
        none := by
  refine ⟨by decide, by decide, ?_, by decide, by decide, by decide⟩
  exact syntheticSource_located [0, 0, 0, 0] entryMake entryOther rfl rfl rfl 2 (by decide)

/-- C23, amended: the end-to-end example with the IFD0 offset `08 00 00 00`.
For the source that consists of a `moov` box wrapping a `uuid` box whose
payload is `49 49 2A 00`, then `08 00 00 00`, then an IFD0 with the count
`02 00`, two 12-byte entries of which exactly one has a whitelisted tag, and
the next-IFD offset `00 00 00 00`, `extractCr3Exif_streaming` succeeds with a
blob whose TIFF part starts with `49 49 2A 00`, and `minimizeExifData` succeeds
on that blob and yields an IFD0 whose entry count is 1 and whose entry is the
whitelisted one. -/
theorem end_to_end_minimize (e1 e2 : List Byte) (h1 : e1.length = 12) (h2 : e2.length = 12)
    (hone : whitelisted e1 ≠ whitelisted e2) (fuel : Nat) (hfuel : 0 < fuel) :
    extractCr3Exif_streaming fuel (syntheticSource [8, 0, 0, 0] e1 e2) 54 =
        some (.found (exifHeader ++ syntheticPayload [8, 0, 0, 0] e1 e2)) ∧
      ((exifHeader ++ syntheticPayload [8, 0, 0, 0] e1 e2).drop 6).take 4 =
        [0x49, 0x49, 0x2A, 0x00] ∧
      ∃ out, minimizeExifData (exifHeader ++ syntheticPayload [8, 0, 0, 0] e1 e2) = some out ∧
        ifdCount out = 1 ∧ ifdEntries out = [if whitelisted e1 = true then e1 else e2] := by
  refine ⟨syntheticSource_located [8, 0, 0, 0] e1 e2 rfl h1 h2 fuel hfuel, ?_,
    syntheticBlob_minimized e1 e2 h1 h2 hone⟩
  simp [exifHeader, syntheticPayload]

/-- C23, amended, on the entries `entryMake` (tag `010F`) and `entryOther`
(tag `9999`). -/
theorem end_to_end_minimize_witness :
    extractCr3Exif_streaming 2 (syntheticSource [8, 0, 0, 0] entryMake entryOther) 54 =
        some (.found (exifHeader ++ syntheticPayload [8, 0, 0, 0] entryMake entryOther)) ∧
      minimizeExifData (exifHeader ++ syntheticPayload [8, 0, 0, 0] entryMake entryOther) =
        some (exifHeader ++ [0x49, 0x49, 0x2A, 0, 8, 0, 0, 0, 1, 0] ++ entryMake ++
          [0, 0, 0, 0]) ∧
      ifdCount (exifHeader ++ [0x49, 0x49, 0x2A, 0, 8, 0, 0, 0, 1, 0] ++ entryMake ++
        [0, 0, 0, 0]) = 1 :=
  ⟨(end_to_end_minimize entryMake entryOther (by decide) (by decide) (by decide) 2
      (by decide)).1,
    by decide, by decide⟩

/-! ## Minimality of the ranges -/

/-- The three outcomes of the marker tests on a pair. -/
theorem markerCheck_cases (x y : Byte) (soi eoi : Nat) (acc : Option Nat × List JpegInfo) :
    ((x = 0xFF ∧ y = 0xD8) ∧ markerCheck x y soi eoi acc = (some soi, acc.2)) ∨
      (¬ (x = 0xFF ∧ y = 0xD8) ∧ (x = 0xFF ∧ y = 0xD9) ∧ ∃ s, acc.1 = some s ∧
        markerCheck x y soi eoi acc = (none, acc.2 ++ [⟨s, eoi, eoi - s⟩])) ∨
      (¬ (x = 0xFF ∧ y = 0xD8) ∧ (¬ (x = 0xFF ∧ y = 0xD9) ∨ acc.1 = none) ∧
        markerCheck x y soi eoi acc = acc) := by
  obtain ⟨start, jpegs⟩ := acc
  by_cases hs : x = 0xFF ∧ y = 0xD8
  · left
    refine ⟨hs, ?_⟩
    have hne : ¬ (x = 0xFF ∧ y = 0xD9) := by
      rintro ⟨_, h9⟩
      rw [hs.2] at h9
      exact absurd h9 (by decide)
    simp only [markerCheck, hs, and_self, if_true]
    rw [if_neg (by decide)]
  · right
    cases start with
    | none =>
      right
      exact ⟨hs, Or.inr rfl, by simp [markerCheck, hs]⟩
    | some s =>
      by_cases he : x = 0xFF ∧ y = 0xD9
      · left
        exact ⟨hs, he, s, rfl, by simp [markerCheck, hs, he]⟩
      · right
        exact ⟨hs, Or.inl he, by simp [markerCheck, hs, he]⟩

/-- The invariant of minimality is kept by the marker tests on the pair at
offset `pos`. -/
theorem scanMin_step (b : List Byte) (pos : Nat) (x y : Byte)
    (acc : Option Nat × List JpegInfo) (hx : b[pos]? = some x) (hy : b[pos + 1]? = some y)
    (h : ScanMin b pos acc) : ScanMin b (pos + 1) (markerCheck x y pos (pos + 2) acc) := by
  obtain ⟨hr, hs⟩ := h
  have hsoi : SoiAt b pos ↔ (x = 0xFF ∧ y = 0xD8) := by
    unfold SoiAt
    rw [hx, hy]
    simp
  have heoi : EoiAt b pos ↔ (x = 0xFF ∧ y = 0xD9) := by
    unfold EoiAt
    rw [hx, hy]
    simp
  rcases markerCheck_cases x y pos (pos + 2) acc with ⟨h8, e⟩ | ⟨h8, h9, s, hacc, e⟩ |
    ⟨h8, h9, e⟩
  · rw [e]
    refine ⟨hr, ?_⟩
    intro s hs'
    simp only [Option.some.injEq] at hs'
    subst hs'
    refine ⟨fun p h1 h2 => by omega, fun p h1 h2 => ?_⟩
    have hp : p = pos := by omega
    rw [hp, heoi]
    rintro ⟨_, hy9⟩
    rw [h8.2] at hy9
    exact absurd hy9 (by decide)
  · rw [e]
    refine ⟨?_, fun s' hs' => by simp at hs'⟩
    intro r hm
    rcases List.mem_append.mp hm with hm | hm
    · exact hr r hm
    · simp only [List.mem_singleton] at hm
      subst hm
      obtain ⟨m1, m2⟩ := hs s hacc
      exact ⟨fun p h1 h2 => m1 p h1 (by simp only [Nat.add_sub_cancel] at h2; exact h2),
        fun p h1 h2 => m2 p h1 (by simp only [Nat.add_sub_cancel] at h2; exact h2)⟩
  · rw [e]
    refine ⟨hr, ?_⟩
    intro s hs'
    obtain ⟨m1, m2⟩ := hs s hs'
    refine ⟨fun p h1 h2 => ?_, fun p h1 h2 => ?_⟩
    · by_cases hp : p = pos
      · rw [hp, hsoi]
        exact h8
      · exact m1 p h1 (by omega)
    · by_cases hp : p = pos
      · rw [hp, heoi]
        rcases h9 with h9 | h9
        · exact h9
        · rw [h9] at hs'
          exact absurd hs' (by simp)
      · exact m2 p h1 (by omega)

theorem scanMin_scanPairs (b : List Byte) (l : List Byte) :
    ∀ (pos : Nat) (acc : Option Nat × List JpegInfo), b.drop pos = l → ScanMin b pos acc →
      ∃ q, ScanMin b q (scanPairs pos l acc) := by
  induction l with
  | nil => intro pos acc _ h; exact ⟨pos, h⟩
  | cons x t ih =>
    intro pos acc hd h
    cases t with
    | nil => exact ⟨pos, h⟩
    | cons y rest =>
      have hx : b[pos]? = some x := by
        have := List.getElem?_drop b pos 0
        rw [hd] at this
        simpa using this.symm
      have hy : b[pos + 1]? = some y := by
        have := List.getElem?_drop b pos 1
        rw [hd] at this
        simpa using this.symm
      have hd' : b.drop (pos + 1) = y :: rest := by
        have : b.drop (pos + 1) = (b.drop pos).drop 1 := by
          rw [List.drop_drop]
        rw [this, hd]; rfl
      rw [scanPairs_cons_cons]
      exact ih (pos + 1) _ hd' (scanMin_step b pos x y acc hx hy h)

/-- Every range of the single pass is minimal. -/
theorem scanAll_minimal (b : List Byte) : ∀ r ∈ scanAll b, MinimalRange b r := by
  have h0 : ScanMin b 0 (none, []) :=
    ⟨fun r hr => by simp at hr, fun s hs => by simp at hs⟩
  obtain ⟨q, h1, _⟩ := scanMin_scanPairs b b 0 (none, []) rfl h0
  exact h1

/-- On a pair `FF D8` the marker tests forget a pending start. -/
theorem scanPairs_soi (pos : Nat) (rest : List Byte) (st : Option Nat) (js : List JpegInfo) :
    scanPairs pos (0xFF :: 0xD8 :: rest) (st, js) =
      scanPairs pos (0xFF :: 0xD8 :: rest) (none, js) := by
  rw [scanPairs_cons_cons, scanPairs_cons_cons]
  congr 1

/-- The input `FF D8 A FF D8 B FF D9` with `A` and `B` free of `FF` gives the
one range that starts at the second `FF D8`. -/
theorem scanAll_second_soi (A B : List Byte) (hA : ∀ x ∈ A, x ≠ 0xFF)
    (hB : ∀ x ∈ B, x ≠ 0xFF) :
    scanAll ([0xFF, 0xD8] ++ A ++ [0xFF, 0xD8] ++ B ++ [0xFF, 0xD9]) =
      [⟨A.length + 2, A.length + B.length + 6, B.length + 4⟩] := by
  have h1 : ∀ x ∈ (0xD8 : Byte) :: A, x ≠ 0xFF := by
    intro x hx
    rcases List.mem_cons.mp hx with rfl | hx
    · decide
    · exact hA x hx
  have hform : [0xFF, 0xD8] ++ A ++ [0xFF, 0xD8] ++ B ++ [0xFF, 0xD9] =
      0xFF :: 0xD8 :: (A ++ (segment B ++ [] ++ [])) := by
    simp [segment]
  have hseg : segment B ++ [] ++ [] = 0xFF :: 0xD8 :: (B ++ [0xFF, 0xD9]) := by
    simp [segment]
  unfold scanAll
  rw [hform, scanPairs_cons_cons]
  have hm : markerCheck 0xFF 0xD8 0 (0 + 2) (none, []) = (some 0, []) := by decide
  rw [hm]
  have hskip := scanPairs_skip (segment B ++ [] ++ []) (0xD8 :: A) (0 + 1) (some 0, []) h1
  rw [List.cons_append] at hskip
  rw [hskip, hseg, scanPairs_soi, ← hseg, scanPairs_segment B [] [] _ [] hB (by simp)]
  simp only [List.length_cons, List.length_nil, List.nil_append, scanPairs_nil]
  congr 2 <;> omega

/-! ### The claim about the minimality of the ranges -/

/-- C31: the most recent `FF D8` wins and the ranges are minimal.  For every
input and every range `[s, e)` that `find_all_jpegs` returns, no `FF D8` stands
at an offset `p` with `s < p < e - 2` and no `FF D9` at an offset `p` with
`s <= p < e - 2`; an `FF D9` before which no `FF D8` stands closes no range;
and for the input `FF D8 A FF D8 B FF D9` with `A` and `B` free of `FF` the
one range starts at the second `FF D8`. -/
theorem find_all_jpegs_minimal (b : List Byte) (js : List JpegInfo)
    (hjs : (find_all_jpegs b).jpegs = some js) :
    (∀ r ∈ js, (∀ p, r.start < p → p < r.end_ - 2 → ¬ SoiAt b p) ∧
      (∀ p, r.start ≤ p → p < r.end_ - 2 → ¬ EoiAt b p)) ∧
      (∀ q, EoiAt b q → (∀ p, p < q → ¬ SoiAt b p) → ∀ r ∈ js, r.end_ ≠ q + 2) ∧
      (∀ A B : List Byte, (∀ x ∈ A, x ≠ 0xFF) → (∀ x ∈ B, x ≠ 0xFF) →
        (find_all_jpegs ([0xFF, 0xD8] ++ A ++ [0xFF, 0xD8] ++ B ++ [0xFF, 0xD9])).jpegs =
          some [⟨A.length + 2, A.length + B.length + 6, B.length + 4⟩]) := by
  rw [find_all_jpegs_eq] at hjs
  simp only [Option.some.injEq] at hjs
  subst hjs
  refine ⟨fun r hr => scanAll_minimal b r hr, ?_, ?_⟩
  · intro q _ hno r hr hend
    obtain ⟨_, h4, _, hsF, hs8, _, _⟩ := (scanAll_inv b).1 r hr
    exact hno r.start (by omega) ⟨hsF, hs8⟩
  · intro A B hA hB
    rw [find_all_jpegs_eq, scanAll_second_soi A B hA hB]

/-- C31, on the input `FF D8 07 FF D8 08 FF D9`: the range is `[3, 8)`, and on
the input `FF D9 FF D8 FF D9`, whose first `FF D9` closes no range. -/
theorem find_all_jpegs_minimal_witness :
    (find_all_jpegs [0xFF, 0xD8, 7, 0xFF, 0xD8, 8, 0xFF, 0xD9]).jpegs = some [⟨3, 8, 5⟩] ∧
      (find_all_jpegs [0xFF, 0xD9, 0xFF, 0xD8, 0xFF, 0xD9]).jpegs = some [⟨2, 6, 4⟩] ∧
      (∀ r ∈ [(⟨2, 6, 4⟩ : JpegInfo)], r.end_ ≠ 0 + 2) :=
  ⟨(find_all_jpegs_minimal [] [] (by decide)).2.2 [7] [8] (by simp) (by simp),
    by decide,
    (find_all_jpegs_minimal [0xFF, 0xD9, 0xFF, 0xD8, 0xFF, 0xD9] [⟨2, 6, 4⟩] (by decide)).2.1 0
      ⟨by decide, by decide⟩ (fun p hp => absurd hp (Nat.not_lt_zero p))⟩

/-! ## Further properties of the minimizer -/

/-- The entry count that the minimizer writes at the offset of IFD0 is the
number of kept entries. -/
theorem le16_minimized_count (blob : List Byte) (hv : StructurallyValid blob) :
    le16 (minimized blob) (ifdOffset blob) = (keptEntries blob).length := by
  obtain ⟨_, _, hO, _⟩ := hv
  have hkl := length_keptEntries_le blob
  have h16 : ifdCount blob < 2 ^ 16 := le16_lt blob _
  have hPlen : (blob.take (ifdOffset blob)).length = ifdOffset blob := by
    rw [List.length_take]; omega
  have hmin : minimized blob = blob.take (ifdOffset blob) ++
      (le16Bytes (keptEntries blob).length ++ ((keptEntries blob).flatten ++ [0, 0, 0, 0])) := by
    unfold minimized
    simp only [List.append_assoc]
  have hg0 : (minimized blob).getD (ifdOffset blob) 0 =
      Fin.ofNat (keptEntries blob).length := by
    rw [hmin, List.getD_append_right _ _ _ _ (by rw [hPlen]), hPlen, Nat.sub_self]
    rfl
  have hg1 : (minimized blob).getD (ifdOffset blob + 1) 0 =
      Fin.ofNat ((keptEntries blob).length / 256) := by
    rw [hmin, List.getD_append_right _ _ _ _ (by rw [hPlen]; omega), hPlen,
      show ifdOffset blob + 1 - ifdOffset blob = 1 by omega]
    rfl
  unfold le16
  rw [hg0, hg1, val_ofNat, val_ofNat]
  omega

/-- The minimized blob begins with the bytes of the blob before IFD0. -/
theorem take_minimized (blob : List Byte) (hv : StructurallyValid blob) (n : Nat)
    (hn : n ≤ ifdOffset blob) : (minimized blob).take n = blob.take n := by
  obtain ⟨_, _, hO, _⟩ := hv
  have hPlen : (blob.take (ifdOffset blob)).length = ifdOffset blob := by
    rw [List.length_take]; omega
  unfold minimized
  rw [List.append_assoc, List.append_assoc,
    List.take_append_of_le_length (by rw [hPlen]; exact hn), List.take_take,
    Nat.min_eq_left hn]

/-! ### Further claims about `minimizeExifData` -/

/-- C32: the minimizer is atomic on failure.  The call returns 0 exactly when
the blob is not structurally valid; whenever it returns 0, `*exifSegment` and
`*exifSize` are what they were before the call; this is so in particular for a
blob without the header, a blob shorter than 10 or 14 bytes, and a blob whose
IFD0 count or table does not fit. -/
theorem minimizeExifData_call_atomic (s : ExifSegment) :
    ((minimizeExifData_call s).1 = 0 ↔ ¬ StructurallyValid s.data) ∧
      ((minimizeExifData_call s).1 = 0 → (minimizeExifData_call s).2 = s) ∧
      (s.data.take 6 ≠ exifHeader ∨ s.data.length < 14 ∨
        s.data.length < ifdOffset s.data + 2 ∨
        s.data.length < ifdOffset s.data + 2 + 12 * ifdCount s.data + 4 →
          minimizeExifData_call s = (0, s)) := by
  have hcases : (StructurallyValid s.data ∧
      minimizeExifData_call s = (1, ⟨minimized s.data, (minimized s.data).length⟩)) ∨
      (¬ StructurallyValid s.data ∧ minimizeExifData_call s = (0, s)) := by
    by_cases hv : StructurallyValid s.data
    · left
      refine ⟨hv, ?_⟩
      unfold minimizeExifData_call
      rw [minimizeExifData_of_valid s.data hv]
    · right
      refine ⟨hv, ?_⟩
      unfold minimizeExifData_call
      rw [minimizeExifData_of_invalid s.data hv]
  refine ⟨?_, ?_, ?_⟩
  · rcases hcases with ⟨hv, e⟩ | ⟨hv, e⟩
    · rw [e]
      exact ⟨fun h => absurd h (by simp), fun h => absurd hv h⟩
    · rw [e]
      exact ⟨fun _ => hv, fun _ => rfl⟩
  · rcases hcases with ⟨hv, e⟩ | ⟨hv, e⟩
    · rw [e]
      exact fun h => absurd h (by simp)
    · rw [e]
      exact fun _ => rfl
  · intro h
    rcases hcases with ⟨⟨h1, h2, h3, h4⟩, _⟩ | ⟨_, e⟩
    · rcases h with h | h | h | h
      · exact absurd h1 h
      · omega
      · omega
      · omega
    · exact e

/-- C32, on the first 40 bytes of `sampleBlob`, whose IFD0 table does not
fit. -/
theorem minimizeExifData_call_atomic_witness :
    minimizeExifData_call ⟨sampleBlob.take 40, 40⟩ = (0, ⟨sampleBlob.take 40, 40⟩) :=
  (minimizeExifData_call_atomic ⟨sampleBlob.take 40, 40⟩).2.2
    (Or.inr (Or.inr (Or.inr (by decide))))

/-- C33: the minimizer can leave a dangling value offset.  `danglingBlob` is a
valid blob with the TIFF header `II*\0` and IFD0 at offset 8; its entry Make
(tag `010F`, ASCII, 6 characters) points to offset 50 of the TIFF part, where
its value lies.  `minimizeExifData` succeeds on it and keeps that entry, whose
offset 50 is past the 38 bytes of the TIFF part of the output, and keeps the
entry Orientation, whose value lies in its value field.  On every blob with a
regular IFD0 offset, the entries of the output are the whitelisted entries of
the input, byte for byte. -/
theorem minimizeExifData_dangling :
    StructurallyValid danglingBlob ∧ (danglingBlob.drop 6).take 4 = [0x49, 0x49, 0x2A, 0] ∧
      le32 danglingBlob 10 = 8 ∧ minimizeExifData danglingBlob = some danglingOut ∧
      ifdEntries danglingOut = [entryMakeAt50, entryOrientation] ∧
      whitelisted entryMakeAt50 = true ∧ entryType entryMakeAt50 = 2 ∧
      entryCount entryMakeAt50 = 6 ∧ ¬ FitsInline entryMakeAt50 ∧
      entryValue entryMakeAt50 + entryCount entryMakeAt50 ≤ danglingBlob.length - 6 ∧
      danglingOut.length - 6 ≤ entryValue entryMakeAt50 ∧
      FitsInline entryOrientation ∧ entryOrientation ∈ ifdEntries danglingBlob ∧
      entryValue entryOrientation = 6 ∧
      (∀ blob out, minimizeExifData blob = some out → 8 ≤ le32 blob 10 →
        ifdEntries out = (ifdEntries blob).filter whitelisted) := by
  refine ⟨(minimizeExifData_isSome_iff danglingBlob).mp (by decide), by decide, by decide,
    by decide, by decide, by decide, by decide, by decide, by decide, by decide, by decide,
    by decide, by decide, by decide, ?_⟩
  intro blob out h hoff
  obtain ⟨hv, rfl⟩ := valid_of_minimize_eq_some blob out h
  exact (minimized_structure blob hv hoff).2.2

/-- C33, on `sampleBlob`, whose kept entry is the one with the tag `010F`. -/
theorem minimizeExifData_dangling_witness :
    ifdEntries (minimized sampleBlob) = (ifdEntries sampleBlob).filter whitelisted :=
  minimizeExifData_dangling.2.2.2.2.2.2.2.2.2.2.2.2.2.2 sampleBlob (minimized sampleBlob)
    (by decide) (by decide)

/-- C35: idempotence under a regular IFD0 offset.  For every blob on which
`minimizeExifData` succeeds and whose IFD0 offset `LE32(blob[10..13])` is at
least 8, the output keeps the first 14 bytes of the input, `minimizeExifData`
succeeds on the output, and its second output equals the first. -/
theorem minimizeExifData_twice (b b' : List Byte) (h : minimizeExifData b = some b')
    (hoff : 8 ≤ le32 b 10) :
    b'.take 14 = b.take 14 ∧ ∃ b'', minimizeExifData b' = some b'' ∧ b'' = b' := by
  obtain ⟨hv, rfl⟩ := valid_of_minimize_eq_some b b' h
  obtain ⟨hv', _, _⟩ := minimized_structure b hv hoff
  refine ⟨take_minimized b hv 14 (by unfold ifdOffset; omega), minimized b, ?_, rfl⟩
  rw [minimizeExifData_of_valid _ hv', minimized_minimized b hv hoff]

/-- C35, on `danglingBlob`. -/
theorem minimizeExifData_twice_witness :
    danglingOut.take 14 = danglingBlob.take 14 ∧
      ∃ b'', minimizeExifData danglingOut = some b'' ∧ b'' = danglingOut :=
  minimizeExifData_twice danglingBlob danglingOut (by decide) (by decide)

/-- On `lowOffsetBlob`, whose IFD0 offset is 4 and whose entry count is 4, the
minimizer succeeds and keeps no entry; the 16 bytes of its output have the IFD0
offset 0, and the entry count of the output, read at its own IFD0, is
`49 49 = 18761`. -/
theorem minimizeExifData_count_grows :
    minimizeExifData lowOffsetBlob = some lowOffsetOut ∧ le32 lowOffsetBlob 10 = 4 ∧
      ifdCount lowOffsetBlob = 4 ∧ (ifdEntries lowOffsetBlob).filter whitelisted = [] ∧
      lowOffsetOut.length = 16 ∧ le32 lowOffsetOut 10 = 0 ∧ ifdCount lowOffsetOut = 18761 ∧
      ¬ ifdCount lowOffsetOut ≤ ifdCount lowOffsetBlob := by
  decide

/-- C36, for a regular IFD0 offset: for every blob on which `minimizeExifData`
succeeds, the output is at most as long as the input; and when the IFD0 offset
`LE32(blob[10..13])` is at least 8, the entry count `n` of the output is the
number of whitelisted entries of the input and is at most the entry count `c`
of the input, with `n = c` exactly when every IFD0 entry of the input has a
whitelisted tag. -/
theorem minimizeExifData_shrinks (blob out : List Byte) (h : minimizeExifData blob = some out) :
    out.length ≤ blob.length ∧
      (8 ≤ le32 blob 10 →
        ifdCount out = ((ifdEntries blob).filter whitelisted).length ∧
          ifdCount out ≤ ifdCount blob ∧
          (ifdCount out = ifdCount blob ↔ ∀ e ∈ ifdEntries blob, whitelisted e = true)) := by
  obtain ⟨hv, rfl⟩ := valid_of_minimize_eq_some blob out h
  have hlen := length_minimized blob hv
  have hkl := length_keptEntries_le blob
  have hfit := hv.2.2.2
  have hk : keptEntries blob = (ifdEntries blob).filter whitelisted := rfl
  refine ⟨by omega, fun hoff => ?_⟩
  have hc : ifdCount (minimized blob) = ((ifdEntries blob).filter whitelisted).length := by
    rw [← length_ifdEntries, (minimized_structure blob hv hoff).2.2, hk]
  rw [hc, ← hk]
  refine ⟨rfl, hkl, ?_⟩
  rw [← length_ifdEntries, hk]
  exact List.filter_length_eq_length

/-- C36, on `danglingBlob`, of 62 bytes and 3 entries with the IFD0 offset 8,
whose output has 44 bytes and 2 entries. -/
theorem minimizeExifData_shrinks_witness :
    danglingOut.length ≤ danglingBlob.length ∧ ifdCount danglingOut = 2 ∧
      ifdCount danglingOut ≤ ifdCount danglingBlob ∧ ifdCount danglingBlob = 3 :=
  ⟨(minimizeExifData_shrinks danglingBlob danglingOut (by decide)).1,
    ((minimizeExifData_shrinks danglingBlob danglingOut (by decide)).2 (by decide)).1.trans
      (by decide),
    ((minimizeExifData_shrinks danglingBlob danglingOut (by decide)).2 (by decide)).2.1,
    by decide⟩

/-! ## Splicing twice -/

/-- The start and the rest of a spliced buffer. -/
theorem splice_take_drop (j x : List Byte) (hj : BeginsWithSoi j) :
    (j.take 2 ++ [0xFF, 0xE1] ++ be16Bytes (x.length + 2) ++ x ++ j.drop 2).take 2 = j.take 2 ∧
    (j.take 2 ++ [0xFF, 0xE1] ++ be16Bytes (x.length + 2) ++ x ++ j.drop 2).drop 2 =
      app1 x ++ j.drop 2 := by
  unfold BeginsWithSoi at hj
  rw [hj]
  exact ⟨rfl, rfl⟩

/-- C34: for a JPEG `j` beginning with `FF D8` and blobs `x1`, `x2` carrying the
Exif header, with an output size that `malloc` serves, splicing `x1` succeeds,
its output begins with `FF D8`, and splicing `x2` into that output succeeds
and gives `j[0..2) ++ APP1(x2) ++ APP1(x1) ++ j[2..)`; the version of
exifcopy.c gives the same two results. -/
theorem insertExifIntoJpeg_twice (j x1 x2 : List Byte) (hj : BeginsWithSoi j)
    (h1 : HasExifHeader x1) (h2 : HasExifHeader x2)
    (hfit : j.length + 8 + x1.length + x2.length ≤ PTRDIFF_MAX) :
    ∃ out1 : List Byte,
      insertExifIntoJpeg j x1 = .ok out1 (j.length + 4 + x1.length) ∧
      Exifcopy.insertExifIntoJpeg j x1 = .ok out1 (j.length + 4 + x1.length) ∧
      BeginsWithSoi out1 ∧
      insertExifIntoJpeg out1 x2 =
        .ok (j.take 2 ++ app1 x2 ++ app1 x1 ++ j.drop 2)
          (j.length + 8 + x1.length + x2.length) ∧
      Exifcopy.insertExifIntoJpeg out1 x2 =
        .ok (j.take 2 ++ app1 x2 ++ app1 x1 ++ j.drop 2)
          (j.length + 8 + x1.length + x2.length) := by
  have hlen := length_of_beginsWithSoi j hj
  have hfirst := insertExifIntoJpeg_of_jpeg j x1 hj (by omega)
  obtain ⟨htake, hdrop⟩ := splice_take_drop j x1 hj
  have hsoi : BeginsWithSoi
      (j.take 2 ++ [0xFF, 0xE1] ++ be16Bytes (x1.length + 2) ++ x1 ++ j.drop 2) := by
    unfold BeginsWithSoi
    rw [htake]
    exact hj
  have hl : (j.take 2 ++ [0xFF, 0xE1] ++ be16Bytes (x1.length + 2) ++ x1 ++ j.drop 2).length =
      j.length + 4 + x1.length := by
    simp only [List.length_append, List.length_take, List.length_drop, be16Bytes,
      List.length_cons, List.length_nil]
    omega
  have hsecond := insertExifIntoJpeg_of_jpeg _ x2 hsoi (by rw [hl]; omega)
  rw [htake, hdrop, hl] at hsecond
  have hshape : j.take 2 ++ [0xFF, 0xE1] ++ be16Bytes (x2.length + 2) ++ x2 ++
      (app1 x1 ++ j.drop 2) = j.take 2 ++ app1 x2 ++ app1 x1 ++ j.drop 2 := by
    simp only [app1, List.append_assoc]
  have hsize : j.length + 4 + x1.length + 4 + x2.length =
      j.length + 8 + x1.length + x2.length := by omega
  rw [hshape, hsize] at hsecond
  refine ⟨_, hfirst, ?_, hsoi, hsecond, ?_⟩
  · rw [exifcopy_insertExifIntoJpeg_eq, ensureExifHeader_of_header x1 h1]
    exact hfirst
  · rw [exifcopy_insertExifIntoJpeg_eq, ensureExifHeader_of_header x2 h2]
    exact hsecond

theorem insertExifIntoJpeg_twice_witness :
    ∃ out1 : List Byte,
      insertExifIntoJpeg sampleJpeg smallExif =
        .ok out1 (sampleJpeg.length + 4 + smallExif.length) ∧
      Exifcopy.insertExifIntoJpeg sampleJpeg smallExif =
        .ok out1 (sampleJpeg.length + 4 + smallExif.length) ∧
      BeginsWithSoi out1 ∧
      insertExifIntoJpeg out1 bareTiffExif =
        .ok (sampleJpeg.take 2 ++ app1 bareTiffExif ++ app1 smallExif ++ sampleJpeg.drop 2)
          (sampleJpeg.length + 8 + smallExif.length + bareTiffExif.length) ∧
      Exifcopy.insertExifIntoJpeg out1 bareTiffExif =
        .ok (sampleJpeg.take 2 ++ app1 bareTiffExif ++ app1 smallExif ++ sampleJpeg.drop 2)
          (sampleJpeg.length + 8 + smallExif.length + bareTiffExif.length) :=
  insertExifIntoJpeg_twice sampleJpeg smallExif bareTiffExif (by decide) (by decide) (by decide)
    (by decide)

/-! ## Index selection -/

theorem skipsFirst_iff (jpegs : List JpegInfo) :
    ((jpegs.length : Int) ≥ 4 ∧ (jpegs.getD 0 ⟨0, 0, 0⟩).size < 8 * 1024) ↔
      SkipsFirst jpegs := by
  unfold SkipsFirst
  constructor
  · rintro ⟨h1, h2⟩
    exact ⟨by omega, by omega⟩
  · rintro ⟨h1, h2⟩
    exact ⟨by omega, by omega⟩

theorem specificIndex_eq (jpegs : List JpegInfo) (k : Int) :
    specificIndex jpegs k =
      if SkipsFirst jpegs then
        (if 1 ≤ k ∧ k ≤ (jpegs.length : Int) - 1 then some k else none)
      else (if 1 ≤ k ∧ k ≤ (jpegs.length : Int) then some (k - 1) else none) := by
  unfold specificIndex
  simp only [skipsFirst_iff]
  by_cases hs : SkipsFirst jpegs
  · rw [if_pos hs, if_pos hs]
    by_cases hk : 1 ≤ k ∧ k ≤ (jpegs.length : Int) - 1
    · rw [if_pos hk, if_neg (by omega)]
    · rw [if_neg hk, if_pos (by omega)]
  · rw [if_neg hs, if_neg hs]
    by_cases hk : 1 ≤ k ∧ k ≤ (jpegs.length : Int)
    · rw [if_pos hk, if_neg (by omega)]
    · rw [if_neg hk, if_pos (by omega)]

theorem starting_index_eq (jpegs : List JpegInfo) :
    starting_index jpegs = if SkipsFirst jpegs then 1 else 0 := by
  unfold starting_index
  simp only [skipsFirst_iff]

theorem max_extract_eq (jpegs : List JpegInfo) :
    max_extract jpegs = min ((jpegs.length : Int) - starting_index jpegs) 3 := by
  unfold max_extract
  simp only []
  split_ifs with h
  · exact (min_eq_left (by omega)).symm
  · exact (min_eq_right (by omega)).symm

/-- The indices of `extract_all_jpegs` in each of the four cases. -/
theorem extractAllIndices_cases (jpegs : List JpegInfo) (hn : 1 ≤ jpegs.length) :
    (SkipsFirst jpegs → extractAllIndices jpegs = [1, 2, 3]) ∧
    (¬SkipsFirst jpegs → jpegs.length = 1 → extractAllIndices jpegs = [0]) ∧
    (¬SkipsFirst jpegs → jpegs.length = 2 → extractAllIndices jpegs = [0, 1]) ∧
    (¬SkipsFirst jpegs → 3 ≤ jpegs.length → extractAllIndices jpegs = [0, 1, 2]) := by
  have hdef : extractAllIndices jpegs =
      forIndices (max_extract jpegs).toNat (starting_index jpegs) := by
    unfold extractAllIndices
    rw [if_neg (by omega)]
  rw [hdef, max_extract_eq, starting_index_eq]
  refine ⟨fun hs => ?_, fun hs h => ?_, fun hs h => ?_, fun hs h => ?_⟩
  · have h4 := hs.1
    rw [if_pos hs, min_eq_right (by omega)]
    rfl
  · rw [if_neg hs, h]
    rfl
  · rw [if_neg hs, h]
    rfl
  · rw [if_neg hs, min_eq_right (by omega)]
    rfl

/-- C37: with `n` ranges and the request `k`, `extract_specific_jpeg` accepts
iff `1 ≤ k ≤ n - 1` when there are at least 4 ranges and the first is smaller
than 8192 bytes, and then selects index `k`; otherwise it accepts iff
`1 ≤ k ≤ n` and then selects index `k - 1`.  Every selected index is at least
0 and below `n`, and with no range every request is rejected. -/
theorem specificIndex_in_bounds (jpegs : List JpegInfo) (k : Int) :
    (SkipsFirst jpegs →
      specificIndex jpegs k =
        if 1 ≤ k ∧ k ≤ (jpegs.length : Int) - 1 then some k else none) ∧
    (¬SkipsFirst jpegs →
      specificIndex jpegs k =
        if 1 ≤ k ∧ k ≤ (jpegs.length : Int) then some (k - 1) else none) ∧
    (∀ idx : Int, specificIndex jpegs k = some idx →
      0 ≤ idx ∧ idx < (jpegs.length : Int)) ∧
    (jpegs.length = 0 → specificIndex jpegs k = none) := by
  refine ⟨fun hs => ?_, fun hs => ?_, fun idx h => ?_, fun h0 => ?_⟩
  · rw [specificIndex_eq, if_pos hs]
  · rw [specificIndex_eq, if_neg hs]
  · rw [specificIndex_eq] at h
    by_cases hs : SkipsFirst jpegs
    · rw [if_pos hs] at h
      by_cases hk : 1 ≤ k ∧ k ≤ (jpegs.length : Int) - 1
      · rw [if_pos hk] at h
        have := Option.some.inj h
        omega
      · rw [if_neg hk] at h
        exact absurd h (by simp)
    · rw [if_neg hs] at h
      by_cases hk : 1 ≤ k ∧ k ≤ (jpegs.length : Int)
      · rw [if_pos hk] at h
        have := Option.some.inj h
        omega
      · rw [if_neg hk] at h
        exact absurd h (by simp)
  · have hs : ¬SkipsFirst jpegs := fun hs => by
      have := hs.1
      omega
    rw [specificIndex_eq, if_neg hs, if_neg (by omega)]

theorem specificIndex_in_bounds_witness :
    specificIndex smallFirstRanges 3 = some 3 ∧ specificIndex largeFirstRanges 3 = some 2 ∧
      (0 : Int) ≤ 3 ∧ (3 : Int) < (smallFirstRanges.length : Int) ∧
      specificIndex [] 1 = none :=
  ⟨((specificIndex_in_bounds smallFirstRanges 3).1 (by decide)).trans (by decide),
    ((specificIndex_in_bounds largeFirstRanges 3).2.1 (by decide)).trans (by decide),
    ((specificIndex_in_bounds smallFirstRanges 3).2.2.1 3 (by decide)).1,
    ((specificIndex_in_bounds smallFirstRanges 3).2.2.1 3 (by decide)).2,
    (specificIndex_in_bounds [] 1).2.2.2 rfl⟩

/-- C38: for a list of `n ≥ 1` ranges, the indices that `extract_all_jpegs`
reads and writes are the indices that `extract_specific_jpeg` selects for the
requests `k = 1, 2, 3` that it accepts, in this order; there are at most 3 of
them, they are consecutive and ascending from `starting_index`, which is 1 when
there are at least 4 ranges and the first is smaller than 8192 bytes and 0
otherwise, and each is at least 0 and below `n`. -/
theorem extractAllIndices_consistent (jpegs : List JpegInfo) (hn : 1 ≤ jpegs.length) :
    extractAllIndices jpegs = ([1, 2, 3] : List Int).filterMap (specificIndex jpegs) ∧
    1 ≤ (extractAllIndices jpegs).length ∧ (extractAllIndices jpegs).length ≤ 3 ∧
    extractAllIndices jpegs =
      (List.range (extractAllIndices jpegs).length).map
        (fun i => starting_index jpegs + (i : Int)) ∧
    starting_index jpegs = (if SkipsFirst jpegs then 1 else 0) ∧
    (∀ idx ∈ extractAllIndices jpegs, 0 ≤ idx ∧ idx < (jpegs.length : Int)) := by
  obtain ⟨c1, c2, c3, c4⟩ := extractAllIndices_cases jpegs hn
  have hst := starting_index_eq jpegs
  refine ⟨?_, ?_, ?_, ?_, hst, ?_⟩ <;> by_cases hs : SkipsFirst jpegs
  · have h4 := hs.1
    have e1 : specificIndex jpegs 1 = some 1 := by
      rw [specificIndex_eq, if_pos hs, if_pos (by omega)]
    have e2 : specificIndex jpegs 2 = some 2 := by
      rw [specificIndex_eq, if_pos hs, if_pos (by omega)]
    have e3 : specificIndex jpegs 3 = some 3 := by
      rw [specificIndex_eq, if_pos hs, if_pos (by omega)]
    rw [c1 hs]
    simp [List.filterMap_cons, e1, e2, e3]
  · have e1 : specificIndex jpegs 1 = some 0 := by
      rw [specificIndex_eq, if_neg hs, if_pos (by omega)]
      rfl
    rcases Nat.lt_or_ge jpegs.length 2 with h | h
    · have e2 : specificIndex jpegs 2 = none := by
        rw [specificIndex_eq, if_neg hs, if_neg (by omega)]
      have e3 : specificIndex jpegs 3 = none := by
        rw [specificIndex_eq, if_neg hs, if_neg (by omega)]
      rw [c2 hs (by omega)]
      simp [List.filterMap_cons, e1, e2, e3]
    · have e2 : specificIndex jpegs 2 = some 1 := by
        rw [specificIndex_eq, if_neg hs, if_pos (by omega)]
        rfl
      rcases Nat.lt_or_ge jpegs.length 3 with h3 | h3
      · have e3 : specificIndex jpegs 3 = none := by
          rw [specificIndex_eq, if_neg hs, if_neg (by omega)]
        rw [c3 hs (by omega)]
        simp [List.filterMap_cons, e1, e2, e3]
      · have e3 : specificIndex jpegs 3 = some 2 := by
          rw [specificIndex_eq, if_neg hs, if_pos (by omega)]
          rfl
        rw [c4 hs h3]
        simp [List.filterMap_cons, e1, e2, e3]
  · rw [c1 hs]
    simp
  · rcases Nat.lt_or_ge jpegs.length 2 with h | h
    · rw [c2 hs (by omega)]
      simp
    · rcases Nat.lt_or_ge jpegs.length 3 with h3 | h3
      · rw [c3 hs (by omega)]
        simp
      · rw [c4 hs h3]
        simp
  · rw [c1 hs]
    simp
  · rcases Nat.lt_or_ge jpegs.length 2 with h | h
    · rw [c2 hs (by omega)]
      simp
    · rcases Nat.lt_or_ge jpegs.length 3 with h3 | h3
      · rw [c3 hs (by omega)]
        simp
      · rw [c4 hs h3]
        simp
  · rw [c1 hs, hst, if_pos hs]
    rfl
  · rw [hst, if_neg hs]
    rcases Nat.lt_or_ge jpegs.length 2 with h | h
    · rw [c2 hs (by omega)]
      rfl
    · rcases Nat.lt_or_ge jpegs.length 3 with h3 | h3
      · rw [c3 hs (by omega)]
        rfl
      · rw [c4 hs h3]
        rfl
  · have h4 := hs.1
    rw [c1 hs]
    intro idx hidx
    simp only [List.mem_cons, List.mem_singleton, List.mem_nil_iff, or_false] at hidx
    omega
  · intro idx hidx
    rcases Nat.lt_or_ge jpegs.length 2 with h | h
    · rw [c2 hs (by omega)] at hidx
      simp only [List.mem_cons, List.mem_singleton, List.mem_nil_iff, or_false] at hidx
      omega
    · rcases Nat.lt_or_ge jpegs.length 3 with h3 | h3
      · rw [c3 hs (by omega)] at hidx
        simp only [List.mem_cons, List.mem_singleton, List.mem_nil_iff, or_false] at hidx
        omega
      · rw [c4 hs h3] at hidx
        simp only [List.mem_cons, List.mem_singleton, List.mem_nil_iff, or_false] at hidx
        omega

theorem extractAllIndices_consistent_witness :
    1 ≤ smallFirstRanges.length ∧ extractAllIndices smallFirstRanges = [1, 2, 3] ∧
      1 ≤ twoRanges.length ∧ extractAllIndices twoRanges = [0, 1] ∧
      extractAllIndices largeFirstRanges = [0, 1, 2] :=
  ⟨by decide, (extractAllIndices_consistent smallFirstRanges (by decide)).1.trans (by decide),
    by decide, (extractAllIndices_consistent twoRanges (by decide)).1.trans (by decide),
    (extractAllIndices_consistent largeFirstRanges (by decide)).1.trans (by decide)⟩

/-! ## The little-endian readers -/

theorem read16leReads_eq (o L : Nat) (ho : o + 1 < 2 ^ 64) :
    read16leReads o L = if o + 2 ≤ L then [o, o + 1] else [] := by
  have hW : SIZE_WRAP = 2 ^ 64 := rfl
  have hmod : (o + 1) % SIZE_WRAP = o + 1 := Nat.mod_eq_of_lt (by omega)
  unfold read16leReads
  rw [hmod]
  by_cases h : o + 2 ≤ L
  · rw [if_neg (by omega), if_pos h]
  · rw [if_pos (by omega), if_neg h]

theorem read32leReads_eq (o L : Nat) (ho : o + 3 < 2 ^ 64) :
    read32leReads o L = if o + 4 ≤ L then [o, o + 1, o + 2, o + 3] else [] := by
  have hW : SIZE_WRAP = 2 ^ 64 := rfl
  have hmod1 : (o + 1) % SIZE_WRAP = o + 1 := Nat.mod_eq_of_lt (by omega)
  have hmod2 : (o + 2) % SIZE_WRAP = o + 2 := Nat.mod_eq_of_lt (by omega)
  have hmod3 : (o + 3) % SIZE_WRAP = o + 3 := Nat.mod_eq_of_lt (by omega)
  unfold read32leReads
  rw [hmod1, hmod2, hmod3]
  by_cases h : o + 4 ≤ L
  · rw [if_neg (by omega), if_pos h]
  · rw [if_pos (by omega), if_neg h]

/-- At the offset `2^64 - 1` the test `offset + 1 >= dataSize` of `read16le`
wraps to `0 >= dataSize`, and a buffer of 5 bytes is read at the index
`2^64 - 1`. -/
theorem read16leReads_wrap : read16leReads (2 ^ 64 - 1) 5 = [2 ^ 64 - 1, 0] := by
  decide

/-- C40: for a buffer of length `L` and an offset `o` with `o + 3 < 2^64`,
`read16le` returns `data[o] + 256 * data[o+1]` when `o + 2 ≤ L` and 0
otherwise, `read32le` returns the sum of `data[o+i] * 256^i` for `i = 0..3`
when `o + 4 ≤ L` and 0 otherwise, and the indices that the two functions read
are `o, o+1` and `o, ..., o+3` in the first case and none in the second, each
below `L`. -/
theorem read16le_read32le_bounded (data : List Byte) (o : Nat) (ho : o + 3 < 2 ^ 64) :
    read16le data o data.length = (if o + 2 ≤ data.length then le16 data o else 0) ∧
    read32le data o data.length = (if o + 4 ≤ data.length then le32 data o else 0) ∧
    read16leReads o data.length = (if o + 2 ≤ data.length then [o, o + 1] else []) ∧
    read32leReads o data.length =
      (if o + 4 ≤ data.length then [o, o + 1, o + 2, o + 3] else []) ∧
    (∀ i ∈ read16leReads o data.length, i < data.length) ∧
    (∀ i ∈ read32leReads o data.length, i < data.length) := by
  have hW : SIZE_WRAP = 2 ^ 64 := rfl
  have hr16 := read16leReads_eq o data.length (by omega)
  have hr32 := read32leReads_eq o data.length ho
  refine ⟨?_, ?_, hr16, hr32, ?_, ?_⟩
  · by_cases h : o + 2 ≤ data.length
    · rw [if_pos h]
      exact read16le_eq_le16 data o (by omega) (by omega)
    · rw [if_neg h]
      unfold read16le
      rw [Nat.mod_eq_of_lt (by omega), if_pos (by omega)]
  · by_cases h : o + 4 ≤ data.length
    · rw [if_pos h]
      exact read32le_eq_le32 data o (by omega) ho
    · rw [if_neg h]
      unfold read32le
      rw [Nat.mod_eq_of_lt (by omega), if_pos (by omega)]
  · intro i hi
    rw [hr16] at hi
    by_cases h : o + 2 ≤ data.length
    · rw [if_pos h] at hi
      simp only [List.mem_cons, List.mem_singleton, List.mem_nil_iff, or_false] at hi
      omega
    · rw [if_neg h] at hi
      exact absurd hi (List.not_mem_nil i)
  · intro i hi
    rw [hr32] at hi
    by_cases h : o + 4 ≤ data.length
    · rw [if_pos h] at hi
      simp only [List.mem_cons, List.mem_singleton, List.mem_nil_iff, or_false] at hi
      omega
    · rw [if_neg h] at hi
      exact absurd hi (List.not_mem_nil i)

theorem read16le_read32le_bounded_witness :
    4 + 3 < 2 ^ 64 ∧ read16le smallExif 4 smallExif.length = 0 ∧
      read32le smallExif 4 smallExif.length = 0x49490000 ∧
      read32le smallExif 7 smallExif.length = 0 ∧ read32leReads 7 smallExif.length = [] :=
  ⟨by decide, (read16le_read32le_bounded smallExif 4 (by decide)).1.trans (by decide),
    (read16le_read32le_bounded smallExif 4 (by decide)).2.1.trans (by decide),
    (read16le_read32le_bounded smallExif 7 (by decide)).2.1.trans (by decide),
    (read16le_read32le_bounded smallExif 7 (by decide)).2.2.2.1.trans (by decide)⟩

/-! ## The scanner of cr3thumb.c and the scanner of cr3extract.c -/

theorem toLong_natCast (n : Nat) (h : n < 2 ^ 63) : toLong (n : Int) = n := by
  unfold toLong
  omega

theorem markerCheck_start_le (x y : Byte) (soi eoi B : Nat) (acc : Option Nat × List JpegInfo)
    (hacc : ∀ s, acc.1 = some s → s ≤ B) (hsoi : soi ≤ B) :
    ∀ s, (markerCheck x y soi eoi acc).1 = some s → s ≤ B := by
  intro s hs
  rcases markerCheck_cases x y soi eoi acc with ⟨_, h⟩ | ⟨_, _, _, _, h⟩ | ⟨_, _, h⟩
  · rw [h] at hs
    have := Option.some.inj hs
    omega
  · rw [h] at hs
    exact absurd hs (by simp)
  · rw [h] at hs
    exact hacc s hs

/-- The marker tests of cr3thumb.c compute what those of cr3extract.c compute,
when the offsets are below `2^63` and a pending start is not after `eoi`. -/
theorem markerCheck_asLong (x y : Byte) (soi eoi : Nat) (acc : Option Nat × List JpegInfo)
    (heoi : eoi < 2 ^ 63) (hacc : ∀ s, acc.1 = some s → s ≤ eoi) :
    Cr3thumb.markerCheck x y soi eoi (accAsLong acc) =
      accAsLong (markerCheck x y soi eoi acc) := by
  rcases markerCheck_cases x y soi eoi acc with
    ⟨hs, h⟩ | ⟨hs, he, s, hs1, h⟩ | ⟨hs, he, h⟩
  · rw [h]
    have hne : ¬ (x = 0xFF ∧ y = 0xD9) := by
      rintro ⟨_, h9⟩
      rw [hs.2] at h9
      exact absurd h9 (by decide)
    unfold Cr3thumb.markerCheck
    simp only [if_pos hs]
    rw [if_neg (fun hc => hne hc.2)]
    rfl
  · rw [h]
    have hle := hacc s hs1
    have hsz : toLong ((eoi : Int) - (s : Int)) = ((eoi - s : Nat) : Int) := by
      rw [← Int.ofNat_sub hle]
      exact toLong_natCast _ (by omega)
    have hst : (accAsLong acc).1 = (s : Int) := by
      unfold accAsLong
      rw [hs1]
      rfl
    unfold Cr3thumb.markerCheck
    simp only [if_neg hs, hst]
    rw [if_pos ⟨by omega, he⟩, hsz]
    simp [accAsLong, startAsLong, JpegInfo.asLong]
  · rw [h]
    unfold Cr3thumb.markerCheck
    simp only [if_neg hs]
    rw [if_neg]
    rintro ⟨hne, hd9⟩
    rcases he with he | he
    · exact he hd9
    · apply hne
      unfold accAsLong
      rw [he]
      rfl

theorem scanBuffer_start_le (file_pos B : Nat) : ∀ (l : List Byte) (i : Nat)
    (acc : Option Nat × List JpegInfo), (∀ s, acc.1 = some s → s ≤ B) →
    file_pos + i + l.length ≤ B →
    ∀ s, (scanBuffer file_pos i l acc).1 = some s → s ≤ B := by
  intro l
  induction l with
  | nil => intro i acc hacc _ s hs; exact hacc s (by simpa [scanBuffer] using hs)
  | cons x t ih =>
    intro i acc hacc hB
    cases t with
    | nil => intro s hs; exact hacc s (by simpa [scanBuffer] using hs)
    | cons y rest =>
      simp only [scanBuffer]
      simp only [List.length_cons] at hB
      refine ih (i + 1) _ (markerCheck_start_le x y _ _ B acc hacc (by omega)) ?_
      simp only [List.length_cons]
      omega

/-- The `for` loop of cr3thumb.c computes what that of cr3extract.c computes,
when the chunk ends below `2^63` and a pending start is not after the pair
under test. -/
theorem scanBuffer_asLong (file_pos : Nat) : ∀ (l : List Byte) (i : Nat)
    (acc : Option Nat × List JpegInfo), file_pos + i + l.length < 2 ^ 63 →
    (∀ s, acc.1 = some s → s ≤ file_pos + i + 1) →
    Cr3thumb.scanBuffer (file_pos : Int) i l (accAsLong acc) =
      accAsLong (scanBuffer file_pos i l acc) := by
  intro l
  induction l with
  | nil => intro i acc _ _; simp [Cr3thumb.scanBuffer, scanBuffer]
  | cons x t ih =>
    intro i acc hb hacc
    cases t with
    | nil => simp [Cr3thumb.scanBuffer, scanBuffer]
    | cons y rest =>
      simp only [List.length_cons] at hb
      have h1 : toLong ((file_pos : Int) + (i : Int)) = ((file_pos + i : Nat) : Int) := by
        rw [← Int.ofNat_add]
        exact toLong_natCast _ (by omega)
      have h2 : toLong ((file_pos : Int) + (i : Int) + 2) = ((file_pos + i + 2 : Nat) : Int) := by
        have : (file_pos : Int) + (i : Int) + 2 = ((file_pos + i + 2 : Nat) : Int) := by
          push_cast
          rfl
        rw [this]
        exact toLong_natCast _ (by omega)
      simp only [Cr3thumb.scanBuffer, scanBuffer]
      rw [h1, h2, markerCheck_asLong x y _ _ acc (by omega)
        (fun s hs => by have := hacc s hs; omega)]
      refine ih (i + 1) _ ?_ (markerCheck_start_le x y _ _ _ acc
        (fun s hs => by have := hacc s hs; omega) (by omega))
      simp only [List.length_cons]
      omega

/-- The invariant of the `while` loop that the comparison uses: a pending
start is not after `file_pos + 1`, and a kept last byte has an offset. -/
theorem processChunk_inv (st : ScanState) (buffer : List Byte) (hne : buffer ≠ [])
    (hinv : ∀ s, st.start = some s → s ≤ st.file_pos + 1) :
    (∀ s, (processChunk st buffer).start = some s →
      s ≤ (processChunk st buffer).file_pos + 1) ∧
    ((processChunk st buffer).has_last_byte = true →
      1 ≤ (processChunk st buffer).file_pos) := by
  obtain ⟨start, jpegs, lb, hlb, fp⟩ := st
  cases buffer with
  | nil => exact absurd rfl hne
  | cons b0 t =>
    have hacc0 : ∀ s, ((start, jpegs) : Option Nat × List JpegInfo).1 = some s →
        s ≤ fp + (b0 :: t).length + 1 := fun s hs => by
      have hle : s ≤ fp + 1 := hinv s hs
      simp only [List.length_cons]
      omega
    have hone : 1 ≤ fp + (b0 :: t).length := by
      simp only [List.length_cons]
      omega
    cases hlb with
    | false =>
      refine ⟨?_, fun _ => hone⟩
      show ∀ s, (scanBuffer fp 0 (b0 :: t) (start, jpegs)).1 = some s →
        s ≤ fp + (b0 :: t).length + 1
      exact scanBuffer_start_le fp _ (b0 :: t) 0 _ hacc0 (by omega)
    | true =>
      refine ⟨?_, fun _ => hone⟩
      show ∀ s, (scanBuffer fp 0 (b0 :: t)
        (markerCheck lb b0 (fp - 1) (fp + 1) (start, jpegs))).1 = some s →
        s ≤ fp + (b0 :: t).length + 1
      exact scanBuffer_start_le fp _ (b0 :: t) 0 _
        (markerCheck_start_le _ _ _ _ _ _ hacc0 (by omega)) (by omega)

/-- One iteration of the `while` loop of cr3thumb.c computes what that of
cr3extract.c computes, when the chunk ends below `2^63`. -/
theorem processChunk_asLong (st : ScanState) (buffer : List Byte) (hne : buffer ≠ [])
    (hpos : st.file_pos + buffer.length < 2 ^ 63)
    (hinv : ∀ s, st.start = some s → s ≤ st.file_pos + 1)
    (hlast : st.has_last_byte = true → 1 ≤ st.file_pos) :
    Cr3thumb.processChunk st.asLong buffer = (processChunk st buffer).asLong := by
  obtain ⟨start, jpegs, lb, hlb, fp⟩ := st
  cases buffer with
  | nil => exact absurd rfl hne
  | cons b0 t =>
    have hpos1 : fp + (b0 :: t).length < 2 ^ 63 := hpos
    have hpos2 : fp + 1 < 2 ^ 63 := by
      simp only [List.length_cons] at hpos1
      omega
    have hinv0 : ∀ s, ((start, jpegs) : Option Nat × List JpegInfo).1 = some s →
        s ≤ fp + 1 := fun s hs => hinv s hs
    have hfp : toLong ((fp : Int) + (((b0 :: t).length : Nat) : Int)) =
        ((fp + (b0 :: t).length : Nat) : Int) := by
      rw [← Int.ofNat_add]
      exact toLong_natCast _ hpos1
    cases hlb with
    | false =>
      have hscan := scanBuffer_asLong fp (b0 :: t) 0 (start, jpegs) (by omega)
        (fun s hs => by have := hinv0 s hs; omega)
      show ({ start := (Cr3thumb.scanBuffer (fp : Int) 0 (b0 :: t)
                (accAsLong (start, jpegs))).1
              jpegs := (Cr3thumb.scanBuffer (fp : Int) 0 (b0 :: t)
                (accAsLong (start, jpegs))).2
              last_byte := if 0 < (b0 :: t).length then (b0 :: t).getLastD 0 else lb
              has_last_byte := decide (0 < (b0 :: t).length)
              file_pos := toLong ((fp : Int) + (((b0 :: t).length : Nat) : Int)) } :
            Cr3thumb.ScanState) = _
      rw [hscan, hfp]
      rfl
    | true =>
      have h1 : 1 ≤ fp := hlast rfl
      have e1 : toLong ((fp : Int) - 1) = ((fp - 1 : Nat) : Int) := by
        rw [← Int.ofNat_one, ← Int.ofNat_sub h1]
        exact toLong_natCast _ (by omega)
      have e2 : toLong ((fp : Int) + 1) = ((fp + 1 : Nat) : Int) := by
        rw [← Int.ofNat_one, ← Int.ofNat_add]
        exact toLong_natCast _ (by omega)
      have hmark := markerCheck_asLong lb b0 (fp - 1) (fp + 1) (start, jpegs) hpos2 hinv0
      have hscan := scanBuffer_asLong fp (b0 :: t) 0
        (markerCheck lb b0 (fp - 1) (fp + 1) (start, jpegs)) (by omega)
        (markerCheck_start_le _ _ _ _ _ _ (fun s hs => by have := hinv0 s hs; omega)
          (by omega))
      show ({ start := (Cr3thumb.scanBuffer (fp : Int) 0 (b0 :: t)
                (Cr3thumb.markerCheck lb b0 (toLong ((fp : Int) - 1)) (toLong ((fp : Int) + 1))
                  (accAsLong (start, jpegs)))).1
              jpegs := (Cr3thumb.scanBuffer (fp : Int) 0 (b0 :: t)
                (Cr3thumb.markerCheck lb b0 (toLong ((fp : Int) - 1)) (toLong ((fp : Int) + 1))
                  (accAsLong (start, jpegs)))).2
              last_byte := if 0 < (b0 :: t).length then (b0 :: t).getLastD 0 else lb
              has_last_byte := decide (0 < (b0 :: t).length)
              file_pos := toLong ((fp : Int) + (((b0 :: t).length : Nat) : Int)) } :
            Cr3thumb.ScanState) = _
      rw [e1, e2, hmark, hscan, hfp]
      rfl

/-- The `while` loop of cr3thumb.c computes what that of cr3extract.c
computes, when the reads end below `2^63`. -/
theorem scanLoop_asLong : ∀ (reads : List (List Byte)) (st : ScanState),
    st.file_pos + reads.flatten.length < 2 ^ 63 →
    (∀ s, st.start = some s → s ≤ st.file_pos + 1) →
    (st.has_last_byte = true → 1 ≤ st.file_pos) →
    Cr3thumb.scanLoop st.asLong reads = (scanLoop st reads).asLong := by
  intro reads
  induction reads with
  | nil => intro st _ _ _; rfl
  | cons buffer rest ih =>
    intro st hpos hinv hlast
    simp only [List.flatten_cons, List.length_append] at hpos
    by_cases hb : buffer = []
    · simp only [Cr3thumb.scanLoop, scanLoop, if_pos hb]
    · simp only [Cr3thumb.scanLoop, scanLoop, if_neg hb]
      rw [processChunk_asLong st buffer hb (by omega) hinv hlast]
      obtain ⟨i1, i2⟩ := processChunk_inv st buffer hb hinv
      have hfp : (processChunk st buffer).file_pos = st.file_pos + buffer.length := rfl
      exact ih _ (by rw [hfp]; omega) i1 i2

theorem find_all_jpegs_reads_asLong (reads : List (List Byte)) (ferror : Bool)
    (h : reads.flatten.length < 2 ^ 63) :
    Cr3thumb.find_all_jpegs_reads reads ferror = (find_all_jpegs_reads reads ferror).asLong := by
  have hinit : Cr3thumb.ScanState.init = ScanState.init.asLong := rfl
  have hloop := scanLoop_asLong reads ScanState.init
    (by
      have h0 : ScanState.init.file_pos = 0 := rfl
      rw [h0]
      omega)
    (fun s hs => Option.noConfusion (hs : (none : Option Nat) = some s))
    (fun hl => Bool.noConfusion (hl : false = true))
  unfold Cr3thumb.find_all_jpegs_reads find_all_jpegs_reads
  simp only [hinit, hloop]
  cases ferror with
  | true => rfl
  | false => simp [ScanResult.asLong, ScanState.asLong]

/-- C39: on a source shorter than `2^63` bytes, `find_all_jpegs` of cr3thumb.c
returns the status, the ranges and the count of `find_all_jpegs` of
cr3extract.c, each range as a triple of `long`; the same holds for every
sequence of reads of fewer than `2^63` bytes in total, with or without a read
error. -/
theorem cr3thumb_find_all_jpegs_agrees (file : List Byte) (h : file.length < 2 ^ 63) :
    Cr3thumb.find_all_jpegs file = (find_all_jpegs file).asLong ∧
    (Cr3thumb.find_all_jpegs file).ret = (find_all_jpegs file).ret ∧
    (Cr3thumb.find_all_jpegs file).jpegs =
      (find_all_jpegs file).jpegs.map (List.map JpegInfo.asLong) ∧
    (∀ (reads : List (List Byte)) (ferror : Bool), reads.flatten = file →
      Cr3thumb.find_all_jpegs_reads reads ferror =
        (find_all_jpegs_reads reads ferror).asLong) := by
  have hn : 0 < BUFFER_SIZE := by decide
  have hmain : Cr3thumb.find_all_jpegs file = (find_all_jpegs file).asLong := by
    unfold Cr3thumb.find_all_jpegs find_all_jpegs
    refine find_all_jpegs_reads_asLong _ false ?_
    rw [freadAll_join BUFFER_SIZE file.length file hn (Nat.le_refl _)]
    exact h
  refine ⟨hmain, ?_, ?_, fun reads ferror hr => ?_⟩
  · rw [hmain]
    rfl
  · rw [hmain]
    rfl
  · exact find_all_jpegs_reads_asLong reads ferror (by rw [hr]; exact h)

theorem cr3thumb_find_all_jpegs_agrees_witness :
    twoRangeSource.length < 2 ^ 63 ∧
      Cr3thumb.find_all_jpegs twoRangeSource = (find_all_jpegs twoRangeSource).asLong ∧
      (find_all_jpegs twoRangeSource).jpegs = some [⟨0, 5, 5⟩, ⟨5, 9, 4⟩] ∧
      (Cr3thumb.find_all_jpegs twoRangeSource).jpegs = some [⟨0, 5, 5⟩, ⟨5, 9, 4⟩] :=
  ⟨by decide, (cr3thumb_find_all_jpegs_agrees twoRangeSource (by decide)).1, by decide,
    by decide⟩

end Cr3
